import Mathlib

/-!
ISO 8583 codec of `iso/iso.go`.

A shallow embedding of `Message.Bytes`, `getFieldValue`, `Message.Load`,
`buildBitmap` and `Message.buildValues`, with the Go library functions they
call (`strconv.Atoi`, `strconv.ParseInt`, `fmt.Sprintf`, `strings.ToUpper`,
`strings.Repeat`).

Conventions.
* A Go `string` or `[]byte` is a list of byte values (`Str`).
* A Go `int` is an `Int` where the code can make it negative and a `Nat` where
  it cannot (lengths, struct tags, the encoder's bitmap).
* A run-time panic (slice bounds, index out of range) is the outer `none` of an
  `Option`.  A `[]byte` is taken to have capacity equal to its length.
* `fmt.Printf` calls are output only and are left out.
-/

namespace Iso

/-- A Go string or byte slice: one number per byte. -/
abbrev Str := List Nat

/-- The bytes of an ASCII literal. -/
def lit (s : String) : Str := s.toList.map Char.toNat

/-! ## Constants -/

def sizeFixed : String := "FIXED"
def sizeLLVAR : String := "LLVAR"
def sizeLLLVAR : String := "LLLVAR"

def typeNumeric : String := "N"
def typeAlphaNumeric : String := "AN"

/-! ## The message struct -/

/-- Message main struct. -/
structure Message where
  MTI : Str := []
  ProcessingCode : Str := []
  Amount : Str := []
  Bit5 : Str := []
  Bit6 : Str := []
  Bit7 : Str := []
  Bit8 : Str := []
  Bit9 : Str := []
  Stan : Str := []
  TransactionTime : Str := []
  Bit13 : Str := []
  Bit18 : Str := []
  Bit26 : Str := []
  Bit32 : Str := []
  Bit37 : Str := []
  ResponseCode : Str := []
  Period : Str := []
  Bit41 : Str := []
  Bit42 : Str := []
  Bit43 : Str := []
  Buffer : Str := []
  ResponseMessage : Str := []
  Extra0 : Str := []
  Extra1 : Str := []
  Extra2 : Str := []
  BillerCode : Str := []
  SubscriberID : Str := []
  ProductCode : Str := []
deriving DecidableEq

/-- The value of struct field number `i` as a string, `v.Field(i).String()`;
field 0 is `MTI`.  The loops only use `i < NumField = 28`. -/
def Message.Field (m : Message) : Nat → Str
  | 0 => m.MTI
  | 1 => m.ProcessingCode
  | 2 => m.Amount
  | 3 => m.Bit5
  | 4 => m.Bit6
  | 5 => m.Bit7
  | 6 => m.Bit8
  | 7 => m.Bit9
  | 8 => m.Stan
  | 9 => m.TransactionTime
  | 10 => m.Bit13
  | 11 => m.Bit18
  | 12 => m.Bit26
  | 13 => m.Bit32
  | 14 => m.Bit37
  | 15 => m.ResponseCode
  | 16 => m.Period
  | 17 => m.Bit41
  | 18 => m.Bit42
  | 19 => m.Bit43
  | 20 => m.Buffer
  | 21 => m.ResponseMessage
  | 22 => m.Extra0
  | 23 => m.Extra1
  | 24 => m.Extra2
  | 25 => m.BillerCode
  | 26 => m.SubscriberID
  | 27 => m.ProductCode
  | _ => []

/-- Assignment to struct field number `i`, `v.Field(i).SetString(x)`. -/
def Message.SetString (m : Message) (i : Nat) (x : Str) : Message :=
  match i with
  | 0 => { m with MTI := x }
  | 1 => { m with ProcessingCode := x }
  | 2 => { m with Amount := x }
  | 3 => { m with Bit5 := x }
  | 4 => { m with Bit6 := x }
  | 5 => { m with Bit7 := x }
  | 6 => { m with Bit8 := x }
  | 7 => { m with Bit9 := x }
  | 8 => { m with Stan := x }
  | 9 => { m with TransactionTime := x }
  | 10 => { m with Bit13 := x }
  | 11 => { m with Bit18 := x }
  | 12 => { m with Bit26 := x }
  | 13 => { m with Bit32 := x }
  | 14 => { m with Bit37 := x }
  | 15 => { m with ResponseCode := x }
  | 16 => { m with Period := x }
  | 17 => { m with Bit41 := x }
  | 18 => { m with Bit42 := x }
  | 19 => { m with Bit43 := x }
  | 20 => { m with Buffer := x }
  | 21 => { m with ResponseMessage := x }
  | 22 => { m with Extra0 := x }
  | 23 => { m with Extra1 := x }
  | 24 => { m with Extra2 := x }
  | 25 => { m with BillerCode := x }
  | 26 => { m with SubscriberID := x }
  | 27 => { m with ProductCode := x }
  | _ => m

/-- One tagged struct field as the reflection loops see it: its number in the
struct and its four tags, `index` and `length` already through
`strconv.Atoi`. -/
structure StructField where
  Name : String
  pos : Nat
  index : Nat
  length : Nat
  typ : String
  siz : String
deriving DecidableEq

/-- The tagged fields of `Message` in declaration order.  `MTI` (field 0) has
no `index` tag, so `f.Tag.Lookup(tagIndex)` fails for it and both loops pass
over it. -/
def fields : List StructField :=
  [ ⟨"ProcessingCode", 1, 3, 6, "N", "FIXED"⟩,
    ⟨"Amount", 2, 4, 16, "N", "FIXED"⟩,
    ⟨"Bit5", 3, 5, 12, "N", "FIXED"⟩,
    ⟨"Bit6", 4, 6, 12, "N", "FIXED"⟩,
    ⟨"Bit7", 5, 7, 10, "N", "FIXED"⟩,
    ⟨"Bit8", 6, 8, 8, "N", "FIXED"⟩,
    ⟨"Bit9", 7, 9, 8, "N", "FIXED"⟩,
    ⟨"Stan", 8, 11, 12, "N", "FIXED"⟩,
    ⟨"TransactionTime", 9, 12, 14, "N", "FIXED"⟩,
    ⟨"Bit13", 10, 13, 4, "N", "FIXED"⟩,
    ⟨"Bit18", 11, 18, 4, "N", "FIXED"⟩,
    ⟨"Bit26", 12, 26, 4, "N", "FIXED"⟩,
    ⟨"Bit32", 13, 32, 11, "N", "LLVAR"⟩,
    ⟨"Bit37", 14, 37, 12, "N", "FIXED"⟩,
    ⟨"ResponseCode", 15, 39, 4, "N", "FIXED"⟩,
    ⟨"Period", 16, 40, 3, "N", "FIXED"⟩,
    ⟨"Bit41", 17, 41, 16, "N", "FIXED"⟩,
    ⟨"Bit42", 18, 42, 15, "N", "FIXED"⟩,
    ⟨"Bit43", 19, 43, 56, "N", "LLVAR"⟩,
    ⟨"Buffer", 20, 47, 999, "AN", "LLLVAR"⟩,
    ⟨"ResponseMessage", 21, 48, 999, "AN", "LLLVAR"⟩,
    ⟨"Extra0", 22, 60, 999, "AN", "LLLVAR"⟩,
    ⟨"Extra1", 23, 61, 999, "AN", "LLLVAR"⟩,
    ⟨"Extra2", 24, 62, 999, "AN", "LLLVAR"⟩,
    ⟨"BillerCode", 25, 100, 99, "AN", "LLVAR"⟩,
    ⟨"SubscriberID", 26, 103, 99, "AN", "LLVAR"⟩,
    ⟨"ProductCode", 27, 104, 99, "AN", "LLLVAR"⟩ ]

/-- ValidMTI used by ussi: the keys of the map. -/
def ValidMTI : List Str := [lit "2200", lit "2210", lit "0800", lit "0810"]

/-- The error values the codec returns. -/
inductive GoError where
  | tooSmall
  | invalidMTI (mti : Str)
deriving DecidableEq

/-! ## Go library functions -/

/-- Slice expression `s[lo:hi]` on a byte slice whose capacity is its length:
panics unless `0 <= lo <= hi <= len(s)`. -/
def slice (s : Str) (lo hi : Int) : Option Str :=
  if 0 ≤ lo ∧ lo ≤ hi ∧ hi ≤ (s.length : Int) then
    some ((s.drop lo.toNat).take (hi - lo).toNat)
  else none

/-- Index expression `l[i]` for a Go `int` index: panics out of range. -/
def index {α : Type} (l : List α) (i : Int) : Option α :=
  if 0 ≤ i then l[i.toNat]? else none

/-- Assignment `l[i] = x` for a Go `int` index: panics out of range. -/
def assign {α : Type} (l : List α) (i : Int) (x : α) : Option (List α) :=
  if 0 ≤ i ∧ i < (l.length : Int) then some (l.set i.toNat x) else none

/-- The digit character of `d < 16`, upper case. -/
def digitChar (d : Nat) : Nat := if d < 10 then 48 + d else 55 + d

/-- Digits of `n` in base `b`, most significant first, at least one digit;
`fuel` bounds the number of digits. -/
def digitsAux (b : Nat) : Nat → Nat → Str → Str
  | 0, _, acc => acc
  | fuel + 1, n, acc =>
    if n < b then digitChar n :: acc
    else digitsAux b fuel (n / b) (digitChar (n % b) :: acc)

/-- The verbs `%d` (base 10) and `%X` (base 16) of `fmt.Sprintf` on a
non-negative integer, without width. -/
def formatNat (b n : Nat) : Str := digitsAux b (n + 1) n []

/-- The verbs `%02d`, `%03d`, `%04d`: `w` is a minimum width, filled with
zeros on the left; a longer number is printed in full. -/
def sprintfD (w n : Nat) : Str :=
  List.replicate (w - (formatNat 10 n).length) 48 ++ formatNat 10 n

/-- The verb `%X`. -/
def sprintfX (n : Nat) : Str := formatNat 16 n

/-- Function `strings.Repeat` for a count that is not negative. -/
def Repeat (str : Str) (n : Nat) : Str := (List.replicate n str).flatten

/-- Value of a digit byte in `strconv.ParseUint` with base 16, or `none`. -/
def hexVal (c : Nat) : Option Nat :=
  if 48 ≤ c ∧ c ≤ 57 then some (c - 48)
  else if 97 ≤ c ∧ c ≤ 102 then some (c - 87)
  else if 65 ≤ c ∧ c ≤ 70 then some (c - 55)
  else none

/-- Value of a digit byte in `strconv.Atoi`, or `none`. -/
def decVal (c : Nat) : Option Nat :=
  if 48 ≤ c ∧ c ≤ 57 then some (c - 48) else none

/-- Unsigned number in base `b` from digit bytes, `none` on a byte that is no
digit of the base. -/
def parseDigits (b : Nat) (val : Nat → Option Nat) : Str → Nat → Option Nat
  | [], acc => some acc
  | c :: cs, acc =>
    match val c with
    | some d => parseDigits b val cs (acc * b + d)
    | none => none

/-- Signed number: an optional `+` or `-`, then at least one digit. -/
def parseSigned (b : Nat) (val : Nat → Option Nat) (s : Str) : Option Int :=
  match s with
  | [] => none
  | c :: cs =>
    if c = 43 then
      if cs = [] then none else (parseDigits b val cs 0).map Int.ofNat
    else if c = 45 then
      if cs = [] then none else (parseDigits b val cs 0).map (fun n => - Int.ofNat n)
    else (parseDigits b val s 0).map Int.ofNat

/-- The call `x, _ := strconv.ParseInt(s, 16, 0)`: the error is dropped and
the value is 0 on a syntax error.  The code calls it on strings of 2 bytes
only, so that the range error of `strconv` cannot arise. -/
def ParseInt16 (s : Str) : Int := (parseSigned 16 hexVal s).getD 0

/-- The call `strconv.Atoi(s)` with its error: `none` is the error, for a
string that is not an optional sign and decimal digits, and for a number
outside the range of `int` (64 bits). -/
def Atoi (s : Str) : Option Int :=
  (parseSigned 10 decVal s).bind fun n =>
    if -9223372036854775808 ≤ n ∧ n ≤ 9223372036854775807 then some n else none

/-- Function `btoi`: the number in `b`, 0 when `Atoi` fails. -/
def btoi (b : Str) : Int :=
  match Atoi b with
  | some a => a
  | none => 0

/-- The rune `utf8.RuneError`, U+FFFD. -/
def RuneError : Nat := 65533

/-- Continuation byte test of the UTF-8 decoder. -/
def isCont (b : Nat) : Bool := 128 ≤ b && b ≤ 191

/-- Function `utf8.DecodeRuneInString` on a non-empty string: the rune and its
width in bytes; an invalid or short encoding is `(RuneError, 1)`. -/
def decodeRune (s : Str) : Nat × Nat :=
  match s with
  | [] => (RuneError, 0)
  | b0 :: rest =>
    if b0 < 128 then (b0, 1)
    else if b0 < 194 then (RuneError, 1)
    else if b0 < 224 then
      match rest with
      | b1 :: _ =>
        if isCont b1 then ((b0 % 32) * 64 + b1 % 64, 2) else (RuneError, 1)
      | _ => (RuneError, 1)
    else if b0 < 240 then
      match rest with
      | b1 :: b2 :: _ =>
        if (if b0 = 224 then 160 else 128) ≤ b1 ∧ b1 ≤ (if b0 = 237 then 159 else 191)
            ∧ isCont b2 then
          ((b0 % 16) * 4096 + (b1 % 64) * 64 + b2 % 64, 3)
        else (RuneError, 1)
      | _ => (RuneError, 1)
    else if b0 < 245 then
      match rest with
      | b1 :: b2 :: b3 :: _ =>
        if (if b0 = 240 then 144 else 128) ≤ b1 ∧ b1 ≤ (if b0 = 244 then 143 else 191)
            ∧ isCont b2 ∧ isCont b3 then
          ((b0 % 8) * 262144 + (b1 % 64) * 4096 + (b2 % 64) * 64 + b3 % 64, 4)
        else (RuneError, 1)
      | _ => (RuneError, 1)
    else (RuneError, 1)

/-- Function `utf8.AppendRune`: the UTF-8 bytes of a rune, those of
`RuneError` for a surrogate or a value out of range. -/
def encodeRune (r : Nat) : Str :=
  if r < 128 then [r]
  else if r < 2048 then [192 + r / 64, 128 + r % 64]
  else if (55296 ≤ r ∧ r ≤ 57343) ∨ 1114111 < r then [239, 191, 189]
  else if r < 65536 then [224 + r / 4096, 128 + (r / 64) % 64, 128 + r % 64]
  else [240 + r / 262144, 128 + (r / 4096) % 64, 128 + (r / 64) % 64, 128 + r % 64]

/-- Upper case of an ASCII byte. -/
def upperByte (c : Nat) : Nat := if 97 ≤ c ∧ c ≤ 122 then c - 32 else c

/-- Function `unicode.ToUpper`.  Above ASCII it reads the case tables of the
Go library, which are the parameter `tbl`; U+FFFD has no upper case. -/
def unicodeToUpper (tbl : Nat → Nat) (r : Nat) : Nat :=
  if r ≤ 127 then upperByte r
  else if r = RuneError then RuneError
  else tbl r

/-- Function `strings.Map(unicode.ToUpper, s)`: rune by rune; a rune that
does not change keeps its bytes, except that an invalid byte is replaced by
the three bytes of U+FFFD.  `fuel` bounds the number of runes. -/
def mapUpper (tbl : Nat → Nat) : Nat → Str → Str
  | 0, _ => []
  | fuel + 1, s =>
    match s with
    | [] => []
    | _ :: _ =>
      let cw := decodeRune s
      let r := unicodeToUpper tbl cw.1
      (if r = cw.1 ∧ ¬ (cw.1 = RuneError ∧ cw.2 = 1) then s.take cw.2 else encodeRune r)
        ++ mapUpper tbl fuel (s.drop cw.2)

/-- Function `strings.ToUpper`: byte by byte on an ASCII string, through
`strings.Map` otherwise. -/
def ToUpper (tbl : Nat → Nat) (s : Str) : Str :=
  if s.all (fun c => decide (c < 128)) then s.map upperByte
  else mapUpper tbl s.length s

/-- Function `times` of the padding helpers. -/
def times (str : Str) (n : Int) : Str :=
  if n ≤ 0 then [] else Repeat str n.toNat

/-- Left left-pads the string with pad up to len runes. -/
def Left (str : Str) (length : Int) (pad : Str) : Str :=
  times pad (length - str.length) ++ str

/-- Right right-pads the string with pad up to len runes. -/
def Right (str : Str) (length : Int) (pad : Str) : Str :=
  str ++ times pad (length - str.length)

/-! ## Encoding -/

/-- Function `getFieldValue`: value sudah disesuaikan dengan type, size. -/
def getFieldValue (f : StructField) (val : Str) : Str :=
  if val = [] then val
  else
    let val := if val.length > f.length then val.take f.length else val
    if f.siz = sizeFixed then
      if f.typ = typeNumeric then Left val f.length (lit "0")
      else Right val f.length (lit " ")
    else if f.siz = sizeLLVAR then sprintfD 2 val.length ++ val
    else if f.siz = sizeLLLVAR then sprintfD 3 val.length ++ val
    else []

/-- The table `bits` of `Bytes` and `buildValues`. -/
def bits : List Nat := [0, 1, 128, 64, 32, 16, 8, 4, 2]

/-- Lines 97 to 107 of `Bytes`: the secondary flag when `index > 64`, then
the bit of the field in entry `pos` of the bitmap. -/
def markBit (bitmap : List Nat) (idx : Nat) : Option (List Nat) :=
  (if idx > 64 then
      (index bitmap 0).bind fun b0 => (index bits 2).bind fun t => assign bitmap 0 (b0 ||| t)
    else some bitmap).bind fun bitmap =>
  let p : Int := if idx % 8 = 0 then (idx / 8 : Nat) - 1 else (idx / 8 : Nat)
  (index bitmap p).bind fun b => (index bits ((idx % 8 : Nat) + 1)).bind fun t =>
    assign bitmap p (b ||| t)

/-- Body of the field loop of `Bytes` for one tagged field, on the pair
`(data, bitmap)`. -/
def bytesStep (m : Message) (f : StructField) (st : Str × List Nat) :
    Option (Str × List Nat) :=
  let value := getFieldValue f (m.Field f.pos)
  if value ≠ [] then
    (markBit st.2 f.index).map fun bitmap => (st.1 ++ value, bitmap)
  else some st

/-- The field loop of `Bytes`. -/
def bytesLoop (m : Message) : List StructField → Str × List Nat → Option (Str × List Nat)
  | [], st => some st
  | f :: fs, st => (bytesStep m f st).bind (bytesLoop m fs)

/-- Two hex digits of one bitmap entry: `%X`, with a `0` in front when that
gives a single digit. -/
def hexByte (b : Nat) : Str :=
  let tm := sprintfX b
  if tm.length < 2 then lit "0" ++ tm else tm

/-- The loop "build bitmap hex" of `Bytes`, from entry `c` on with `n`
iterations left (`c + n = 16`). -/
def bitmapHexLoop (bitmap : List Nat) : Nat → Nat → Str → Option Str
  | 0, _, hex => some hex
  | n + 1, c, hex =>
    match bitmap[c]?, bitmap[0]? with
    | some b, some b0 =>
      let hex := hex ++ hexByte b
      if (b0 &&& 128) ≠ 128 ∧ c = 7 then some hex
      else bitmapHexLoop bitmap n (c + 1) hex
    | _, _ => none

/-- Bytes create []byte representation.  The result is the pair of Go
results: the bytes and the error, which is always nil. -/
def Bytes (m : Message) (withLength : Bool) : Option (Str × Option GoError) :=
  (bytesLoop m fields ([], List.replicate 16 0)).bind fun st =>
  (bitmapHexLoop st.2 16 0 []).map fun bitmapHex =>
    let s := m.MTI ++ bitmapHex ++ st.1
    let s := if withLength then sprintfD 4 s.length ++ s else s
    (s, none)

/-! ## Decoding -/

/-- The loop of `buildBitmap`, `for offset < top`, with `n` iterations left
(`top - offset = 2 * n`); `k` is the entry to fill. -/
def buildBitmapLoop (source : Str) (mid : Int) (noext : Bool) :
    Nat → Int → Int → Str → List Int → Option (Str × List Int)
  | 0, _, _, bitmapHex, bitmaps => some (bitmapHex, bitmaps)
  | n + 1, offset, k, bitmapHex, bitmaps =>
    (slice source offset (offset + 2)).bind fun tmp =>
    let bitmapHex := bitmapHex ++ tmp
    let x := ParseInt16 tmp
    (assign bitmaps k x).bind fun bitmaps =>
    if noext ∧ offset = mid then some (bitmapHex, bitmaps)
    else buildBitmapLoop source mid noext n (offset + 2) (k + 1) bitmapHex bitmaps

/-- Function `buildBitmap`: the hex text read, in upper case, and the 16
bitmap entries. -/
def buildBitmap (tbl : Nat → Nat) (source : Str) (offset : Int) : Option (Str × List Int) :=
  let mid := offset + 14
  (slice source offset (offset + 2)).bind fun s =>
  let first := ParseInt16 s
  let noext := decide (Int.land first 128 ≠ 128)
  (buildBitmapLoop source mid noext 16 offset 0 [] (List.replicate 16 0)).map fun r =>
    (ToUpper tbl r.1, r.2)

/-- Body of the flag loops of `buildValues` ("flag yang akan diisi") for
entry `i` and table position `j`. -/
def flagStep (bitmaps : List Int) (i j : Nat) (bitmapValues : List Bool) :
    Option (List Bool) :=
  (index bitmaps i).bind fun b => (index bits j).bind fun t =>
  if Int.land b t = t then
    if j = 1 then assign bitmapValues (((i + 1) * 8 : Nat) : Int) true
    else if j ≠ 2 ∨ i ≠ 0 then assign bitmapValues ((i : Int) * 8 + j - 1) true
    else some bitmapValues
  else some bitmapValues

/-- The inner loop, `for j := 1; j < 9; j++`. -/
def flagInner (bitmaps : List Int) (i : Nat) (bitmapValues : List Bool) :
    Option (List Bool) :=
  [1, 2, 3, 4, 5, 6, 7, 8].foldlM (fun bv j => flagStep bitmaps i j bv) bitmapValues

/-- The outer loop, `for i := 0; i < 16; i++`, from `make([]bool, 128)`. -/
def flagLoop (bitmaps : List Int) : Option (List Bool) :=
  (List.range 16).foldlM (fun bv i => flagInner bitmaps i bv) (List.replicate 128 false)

/-- The field loop of `buildValues` on the message and the offset.  All
fields of `Message` are exported and reached through the pointer, so
`CanSet` holds and the error of that test is never returned; `break` ends
the loop with the message as it is. -/
def buildValuesLoop (source : Str) (bitmapValues : List Bool) :
    List StructField → Message → Int → Option Message
  | [], m, _ => some m
  | f :: fs, m, offset =>
    (index bitmapValues f.index).bind fun flag =>
    if flag then
      if f.siz = sizeLLVAR then
        (slice source offset (offset + 2)).bind fun p =>
        let valsize := btoi p
        if valsize > f.length ∨ valsize = 0 then
          buildValuesLoop source bitmapValues fs m (offset + (valsize + 2))
        else
          (slice source (offset + 2) (offset + 2 + valsize)).bind fun value =>
          buildValuesLoop source bitmapValues fs (m.SetString f.pos value)
            (offset + (valsize + 2))
      else if f.siz = sizeLLLVAR then
        (slice source offset (offset + 3)).bind fun p =>
        let valsize := btoi p
        if valsize > f.length ∨ valsize = 0 then
          buildValuesLoop source bitmapValues fs m (offset + (valsize + 3))
        else
          let hig := offset + 3 + valsize
          if hig > source.length then some m
          else
            (slice source (offset + 3) (offset + 3 + valsize)).bind fun value =>
            buildValuesLoop source bitmapValues fs (m.SetString f.pos value)
              (offset + (valsize + 3))
      else
        (slice source offset (offset + f.length)).bind fun value =>
        buildValuesLoop source bitmapValues fs (m.SetString f.pos value)
          (offset + f.length)
    else buildValuesLoop source bitmapValues fs m offset

/-- Method `buildValues`: the message after the call and the error, which
is always nil. -/
def buildValues (m : Message) (source : Str) (bitmaps : List Int) (offset : Int) :
    Option (Message × Option GoError) :=
  (flagLoop bitmaps).bind fun bitmapValues =>
  (buildValuesLoop source bitmapValues fields m offset).map fun m => (m, none)

/-- Load from stream: the message after the call and the error returned
(`none` for nil); the outer `none` is a panic. -/
def Load (tbl : Nat → Nat) (m : Message) (source : Str) (hasLength : Bool) :
    Option (Message × Option GoError) :=
  if source.length < 24 then some (m, some GoError.tooSmall)
  else
    let offset : Int := if hasLength then 4 else 0
    (slice source offset (offset + 4)).bind fun b =>
    let offset := offset + 4
    let m := { m with MTI := b }
    if m.MTI ∉ ValidMTI then some (m, some (GoError.invalidMTI m.MTI))
    else
      (buildBitmap tbl source offset).bind fun r =>
      let offset := offset + r.1.length
      buildValues m source r.2 offset

/-! ## Auxiliary definitions for the statements and proofs -/

/-- The MTI bytes `Load` reads: 4 bytes at offset 0, or at offset 4 when the
buffer carries the length in front. -/
def mtiOf (source : Str) (hasLength : Bool) : Str :=
  (source.drop (if hasLength then 4 else 0)).take 4

/-- The `value` of the field loop of `Bytes`: what field `f` puts on the wire. -/
def wire (m : Message) (f : StructField) : Str := getFieldValue f (m.Field f.pos)

/-- Whether marking field index `idx` sets bit `q` (bit 7 is value 128) of
bitmap entry `k`. -/
def hits (idx k q : Nat) : Bool :=
  decide (k = (idx - 1) / 8 ∧ q = 7 - (idx - 1) % 8) || decide (k = 0 ∧ q = 7 ∧ 64 < idx)

/-- One conditional write `bitmapValues[t] = true` of the flag loops: the
target and whether the bit test holds. -/
def condSet (bv : List Bool) (tc : Nat × Bool) : Option (List Bool) :=
  if tc.2 then (if tc.1 < bv.length then some (bv.set tc.1 true) else none) else some bv

/-- The eight writes of the inner flag loop for entry `i` with value `b`, in
the order `j = 1 .. 8`. -/
def flagRow (b : Int) (i : Nat) : List (Nat × Bool) :=
  [ ((i + 1) * 8, decide (Int.land b 1 = 1)),
    (i * 8 + 1, decide (Int.land b 128 = 128) && decide (i ≠ 0)),
    (i * 8 + 2, decide (Int.land b 64 = 64)),
    (i * 8 + 3, decide (Int.land b 32 = 32)),
    (i * 8 + 4, decide (Int.land b 16 = 16)),
    (i * 8 + 5, decide (Int.land b 8 = 8)),
    (i * 8 + 6, decide (Int.land b 4 = 4)),
    (i * 8 + 7, decide (Int.land b 2 = 2)) ]

/-- What the flag loops leave at index `n` of `bitmapValues`: indices 2 to
127 carry the bit of entry `(n - 1) / 8` with value `2 ^ (7 - (n - 1) % 8)`. -/
def flagOf (bitmaps : List Int) (n : Nat) : Bool :=
  decide (2 ≤ n ∧ n ≤ 127)
    && decide (Int.land (bitmaps[(n - 1) / 8]?.getD 0) (2 ^ (7 - (n - 1) % 8))
        = 2 ^ (7 - (n - 1) % 8))

/-- The bitmap entries after entries `k ..` have been overwritten by the
values read. -/
def writeAt (bm : List Int) (k : Nat) (rest : List Nat) : List Int :=
  bm.take k ++ rest.map Int.ofNat ++ bm.drop (k + rest.length)

/-- The bitmap entries that `Bytes` renders: all 16 when the secondary flag
(value 128 of entry 0) is set, the first 8 otherwise. -/
def rendered (bm : List Nat) : List Nat :=
  bm.take (if bm[0]?.getD 0 &&& 128 = 128 then 16 else 8)

/-- What the round trip asks of field `f` of message `m`: a known size
class with its bound on the length, a value within the length, and a Fixed
value, when there is one, of exactly the length. -/
def wellFormed (m : Message) (f : StructField) : Prop :=
  (f.siz = sizeFixed ∨ (f.siz = sizeLLVAR ∧ f.length ≤ 99)
      ∨ (f.siz = sizeLLLVAR ∧ f.length ≤ 999))
    ∧ (m.Field f.pos).length ≤ f.length
    ∧ (f.siz = sizeFixed → m.Field f.pos ≠ [] → (m.Field f.pos).length = f.length)

/-- The message after the field loop of `buildValues` has assigned the
values of `m` for the fields `fs` that are present in `m`. -/
def assigned (m : Message) (fs : List StructField) (m0 : Message) : Message :=
  fs.foldl (fun acc f => if m.Field f.pos ≠ [] then acc.SetString f.pos (m.Field f.pos) else acc)
    m0

/-- The encoder's bit arithmetic on a set of field indices (lines 97 to 107
of `Bytes` for each index, from the zero bitmap), rendered as hex by the
loop "build bitmap hex" of `Bytes`. -/
def encodeSet (S : List Nat) : Option Str :=
  (S.foldlM markBit (List.replicate 16 0)).bind fun bitmap => bitmapHexLoop bitmap 16 0 []

/-- The decoder on a hex bitmap: `buildBitmap` at offset 0, then the flag
loops of `buildValues`. -/
def decodeFlags (tbl : Nat → Nat) (hex : Str) : Option (List Bool) :=
  (buildBitmap tbl hex 0).bind fun r => flagLoop r.2

/-- State of the field loop of `buildValues` between two iterations: still
running with the message and the offset, or left by `break` with the
message. -/
inductive LoopState where
  | running (m : Message) (offset : Int)
  | stopped (m : Message)

/-- The message of a loop state. -/
def LoopState.message : LoopState → Message
  | LoopState.running m _ => m
  | LoopState.stopped m => m

/-- One iteration of the field loop of `buildValues`, for the tagged field
`f`: the body of `buildValuesLoop`, with `continue` and the end of the body
as `running`, `break` as `stopped`, a panic as `none`. -/
def fieldStep (source : Str) (bitmapValues : List Bool) (f : StructField) (m : Message)
    (offset : Int) : Option LoopState :=
  (index bitmapValues f.index).bind fun flag =>
  if flag then
    if f.siz = sizeLLVAR then
      (slice source offset (offset + 2)).bind fun p =>
      let valsize := btoi p
      if valsize > f.length ∨ valsize = 0 then
        some (LoopState.running m (offset + (valsize + 2)))
      else
        (slice source (offset + 2) (offset + 2 + valsize)).bind fun value =>
        some (LoopState.running (m.SetString f.pos value) (offset + (valsize + 2)))
    else if f.siz = sizeLLLVAR then
      (slice source offset (offset + 3)).bind fun p =>
      let valsize := btoi p
      if valsize > f.length ∨ valsize = 0 then
        some (LoopState.running m (offset + (valsize + 3)))
      else
        let hig := offset + 3 + valsize
        if hig > source.length then some (LoopState.stopped m)
        else
          (slice source (offset + 3) (offset + 3 + valsize)).bind fun value =>
          some (LoopState.running (m.SetString f.pos value) (offset + (valsize + 3)))
    else
      (slice source offset (offset + f.length)).bind fun value =>
      some (LoopState.running (m.SetString f.pos value) (offset + f.length))
  else some (LoopState.running m offset)

/-- The field loop of `buildValues` over a list of fields, from a state. -/
def runFields (source : Str) (bitmapValues : List Bool) :
    List StructField → LoopState → Option LoopState
  | [], st => some st
  | f :: fs, LoopState.running m offset =>
    (fieldStep source bitmapValues f m offset).bind (runFields source bitmapValues fs)
  | _ :: _, LoopState.stopped m => some (LoopState.stopped m)

/-- The conditions under which one iteration of the field loop assigns
`value` to field `f` at `offset`: the reads are in bounds, the length of a
variable field is neither 0 nor above the length of the field, and for
LLLVAR the value ends inside the buffer. -/
def decodesAt (source : Str) (f : StructField) (offset : Int) (value : Str) : Prop :=
  if f.siz = sizeLLVAR then
    ∃ p, slice source offset (offset + 2) = some p ∧ ¬ (btoi p > f.length ∨ btoi p = 0)
      ∧ slice source (offset + 2) (offset + 2 + btoi p) = some value
  else if f.siz = sizeLLLVAR then
    ∃ p, slice source offset (offset + 3) = some p ∧ ¬ (btoi p > f.length ∨ btoi p = 0)
      ∧ ¬ (offset + 3 + btoi p > source.length)
      ∧ slice source (offset + 3) (offset + 3 + btoi p) = some value
  else slice source offset (offset + f.length) = some value

/-- The offset of the bitmap in the buffer. -/
def bitmapOffset (hasLength : Bool) : Int := (if hasLength then 4 else 0) + 4

/-- The most bytes a field can put on the wire: its length, and the 2 or 3
digits of the prefix of a variable field. -/
def maxWire (f : StructField) : Nat :=
  f.length + (if f.siz = sizeLLVAR then 2 else if f.siz = sizeLLLVAR then 3 else 0)

/-! ## The normal form of the specification

These definitions follow the words of the specification, not the code: the
value that the round trip is said to give back.  The theorems compare them
with what `Load` computes on the bytes of `Bytes`. -/

/-- The value that the specification gives for a field after `Bytes` and
`Load`: empty for an empty value; for a Fixed field the value cut to the
length and padded to exactly the length (zeros in front for Numeric, spaces
behind otherwise); for an LLVAR or LLLVAR field the value cut to the
length. -/
def normalForm (f : StructField) (v : Str) : Str :=
  if v = [] then []
  else if f.siz = sizeFixed then
    (if f.typ = typeNumeric then
      List.replicate (f.length - (v.take f.length).length) 48 ++ v.take f.length
    else v.take f.length ++ List.replicate (f.length - (v.take f.length).length) 32)
  else v.take f.length

/-- The message with given values for its 28 struct fields, by number. -/
def Message.ofFields (g : Nat → Str) : Message :=
  { MTI := g 0, ProcessingCode := g 1, Amount := g 2, Bit5 := g 3, Bit6 := g 4, Bit7 := g 5,
    Bit8 := g 6, Bit9 := g 7, Stan := g 8, TransactionTime := g 9, Bit13 := g 10,
    Bit18 := g 11, Bit26 := g 12, Bit32 := g 13, Bit37 := g 14, ResponseCode := g 15,
    Period := g 16, Bit41 := g 17, Bit42 := g 18, Bit43 := g 19, Buffer := g 20,
    ResponseMessage := g 21, Extra0 := g 22, Extra1 := g 23, Extra2 := g 24,
    BillerCode := g 25, SubscriberID := g 26, ProductCode := g 27 }

/-- The tagged field with struct number `p`, if there is one. -/
def fieldAt (p : Nat) : Option StructField := fields.find? (fun f => f.pos == p)

/-- The message whose fields are the normal forms of the fields of `m`, with
the MTI of `m`. -/
def normalize (m : Message) : Message :=
  Message.ofFields fun p =>
    match fieldAt p with
    | some f => normalForm f (m.Field p)
    | none => m.Field p

end Iso

namespace Iso

/-! ## Formatting lemmas -/

theorem digitsAux_lt (b fuel n : Nat) (acc : Str) (h : n < b) :
    digitsAux b (fuel + 1) n acc = digitChar n :: acc := by
  simp [digitsAux, h]

theorem digitsAux_ge (b fuel n : Nat) (acc : Str) (h : b ≤ n) :
    digitsAux b (fuel + 1) n acc = digitsAux b fuel (n / b) (digitChar (n % b) :: acc) := by
  simp [digitsAux, Nat.not_lt.mpr h]

theorem digitChar_dec (d : Nat) (h : d < 10) : digitChar d = 48 + d := by
  simp [digitChar, h]

theorem formatNat_one (n : Nat) (h : n < 10) : formatNat 10 n = [48 + n] := by
  rw [formatNat, digitsAux_lt _ _ _ _ h, digitChar_dec _ h]

theorem formatNat_two (n : Nat) (h1 : 10 ≤ n) (h2 : n < 100) :
    formatNat 10 n = [48 + n / 10, 48 + n % 10] := by
  obtain ⟨k, rfl⟩ : ∃ k, n = k + 1 := ⟨n - 1, by omega⟩
  rw [formatNat, digitsAux_ge _ _ _ _ h1, digitsAux_lt _ _ _ _ (by omega),
    digitChar_dec _ (by omega), digitChar_dec _ (by omega)]

theorem formatNat_three (n : Nat) (h1 : 100 ≤ n) (h2 : n < 1000) :
    formatNat 10 n = [48 + n / 100, 48 + n / 10 % 10, 48 + n % 10] := by
  obtain ⟨k, rfl⟩ : ∃ k, n = k + 2 := ⟨n - 2, by omega⟩
  rw [formatNat, digitsAux_ge _ _ _ _ (by omega), digitsAux_ge _ _ _ _ (by omega),
    digitsAux_lt _ _ _ _ (by omega), digitChar_dec _ (by omega), digitChar_dec _ (by omega),
    digitChar_dec _ (by omega), Nat.div_div_eq_div_mul]

/-- The verb `%02d` on a number below 100: exactly two digits. -/
theorem sprintfD_two (n : Nat) (h : n ≤ 99) : sprintfD 2 n = [48 + n / 10, 48 + n % 10] := by
  by_cases h1 : n < 10
  · have h0 : n / 10 = 0 := by omega
    have h2 : n % 10 = n := by omega
    simp [sprintfD, formatNat_one n h1, h0, h2]
  · simp [sprintfD, formatNat_two n (by omega) (by omega)]

/-- The verb `%03d` on a number below 1000: exactly three digits. -/
theorem sprintfD_three (n : Nat) (h : n ≤ 999) :
    sprintfD 3 n = [48 + n / 100, 48 + n / 10 % 10, 48 + n % 10] := by
  by_cases h1 : n < 10
  · have h0 : n / 100 = 0 := by omega
    have h3 : n / 10 % 10 = 0 := by omega
    have h2 : n % 10 = n := by omega
    simp [sprintfD, formatNat_one n h1, h0, h2, h3]
  · by_cases h4 : n < 100
    · have h0 : n / 100 = 0 := by omega
      have h3 : n / 10 % 10 = n / 10 := by omega
      simp [sprintfD, formatNat_two n (by omega) h4, h0, h3]
    · simp [sprintfD, formatNat_three n (by omega) (by omega)]

theorem Repeat_single (a n : Nat) : Repeat [a] n = List.replicate n a := by
  induction n with
  | zero => rfl
  | succ k ih =>
    simp only [Repeat] at ih ⊢
    simp [List.replicate_succ, ih]

theorem times_single (a : Nat) (L n : Nat) :
    times [a] ((L : Int) - (n : Int)) = List.replicate (L - n) a := by
  unfold times
  split
  · have : L - n = 0 := by omega
    simp [this]
  · rw [Repeat_single]
    congr 1
    omega

theorem lit_zero : lit "0" = [48] := by decide

theorem lit_space : lit " " = [32] := by decide

/-! ## Field encoder -/

/-- What `getFieldValue` does with a non-empty value: the value is cut to
`length` and then padded or prefixed by size class. -/
theorem getFieldValue_of_ne (f : StructField) (v : Str) (hv : v ≠ []) :
    getFieldValue f v =
      if f.siz = sizeFixed then
        (if f.typ = typeNumeric then
          List.replicate (f.length - (v.take f.length).length) 48 ++ v.take f.length
        else v.take f.length ++ List.replicate (f.length - (v.take f.length).length) 32)
      else if f.siz = sizeLLVAR then sprintfD 2 (v.take f.length).length ++ v.take f.length
      else if f.siz = sizeLLLVAR then sprintfD 3 (v.take f.length).length ++ v.take f.length
      else [] := by
  have hcut : (if v.length > f.length then v.take f.length else v) = v.take f.length := by
    split
    · rfl
    · rw [List.take_of_length_le (by omega)]
  simp only [getFieldValue, hv, if_false, hcut, Left, Right, lit_zero, lit_space, times_single]

/-- Every LLVAR field of the struct has length at most 99 and every LLLVAR
field length at most 999, so the length written in front has 2 and 3 digits. -/
theorem fields_var_bounds :
    ∀ f ∈ fields, (f.siz = sizeLLVAR → f.length ≤ 99) ∧ (f.siz = sizeLLLVAR → f.length ≤ 999) := by
  decide

/-! ## End-to-end scenario -/

set_option maxRecDepth 100000 in
/-- C1: for the message with MTI "2200", ProcessingCode "31", Amount "50000"
and every other field empty, `Bytes(false)` returns the 42 bytes
"2200" ++ "3000000000000000" ++ "000031" ++ "0000000000050000" with a nil
error, and `Bytes(true)` returns the same bytes after "0042", 46 bytes. -/
theorem bytes_end_to_end :
    Bytes { MTI := lit "2200", ProcessingCode := lit "31", Amount := lit "50000" } false
      = some (lit "2200" ++ lit "3000000000000000" ++ lit "000031" ++ lit "0000000000050000",
          none)
    ∧ (lit "2200" ++ lit "3000000000000000" ++ lit "000031"
          ++ lit "0000000000050000").length = 42
    ∧ Bytes { MTI := lit "2200", ProcessingCode := lit "31", Amount := lit "50000" } true
      = some (lit "0042" ++ (lit "2200" ++ lit "3000000000000000" ++ lit "000031"
          ++ lit "0000000000050000"), none)
    ∧ (lit "0042" ++ (lit "2200" ++ lit "3000000000000000" ++ lit "000031"
          ++ lit "0000000000050000")).length = 46 := by
  refine ⟨by rfl, by rfl, by rfl, by rfl⟩

/-! ## Field encoder claims -/

/-- C6: on a Fixed field a non-empty value no longer than the length `L` is
returned with `L - len(v)` characters `0` in front when the type is Numeric
and with `L - len(v)` spaces behind when it is AlphaNumeric; the result has
exactly `L` bytes.  "31" with length 6 gives "000031", "AB" with length 4
gives "AB  ". -/
theorem fixed_field_padding (f : StructField) (v : Str) (hv : v ≠ [])
    (hlen : v.length ≤ f.length) (hfix : f.siz = sizeFixed) :
    (f.typ = typeNumeric →
      getFieldValue f v = List.replicate (f.length - v.length) 48 ++ v)
    ∧ (f.typ = typeAlphaNumeric →
      getFieldValue f v = v ++ List.replicate (f.length - v.length) 32)
    ∧ (getFieldValue f v).length = f.length
    ∧ getFieldValue ⟨"ProcessingCode", 1, 3, 6, typeNumeric, sizeFixed⟩ (lit "31")
        = lit "000031"
    ∧ getFieldValue ⟨"X", 1, 3, 4, typeAlphaNumeric, sizeFixed⟩ (lit "AB") = lit "AB  " := by
  have ht : v.take f.length = v := List.take_of_length_le hlen
  rw [getFieldValue_of_ne f v hv, ht, if_pos hfix]
  refine ⟨fun h => by rw [if_pos h], fun h => ?_, ?_, by decide, by decide⟩
  · have hn : f.typ ≠ typeNumeric := by rw [h]; decide
    rw [if_neg hn]
  · split <;> simp <;> omega

/-- Witness of C6: field 3 (Numeric, Fixed, length 6) with "31". -/
theorem fixed_field_padding_witness :
    getFieldValue ⟨"ProcessingCode", 1, 3, 6, "N", "FIXED"⟩ (lit "31")
      = List.replicate (6 - 2) 48 ++ lit "31" :=
  (fixed_field_padding ⟨"ProcessingCode", 1, 3, 6, "N", "FIXED"⟩ (lit "31")
    (by decide) (by decide) (by decide)).1 (by decide)

/-- C7: a non-empty value no longer than the length is returned unchanged
after its own length, written as exactly 2 decimal digits on an LLVAR field
(length at most 99) and as exactly 3 decimal digits on an LLLVAR field
(length at most 999).  "HELLO" gives "05HELLO" and "005HELLO". -/
theorem variable_field_prefixing (f : StructField) (v : Str) (hv : v ≠ [])
    (hlen : v.length ≤ f.length) :
    (f.siz = sizeLLVAR → f.length ≤ 99 →
      getFieldValue f v = [48 + v.length / 10, 48 + v.length % 10] ++ v)
    ∧ (f.siz = sizeLLLVAR → f.length ≤ 999 →
      getFieldValue f v
        = [48 + v.length / 100, 48 + v.length / 10 % 10, 48 + v.length % 10] ++ v)
    ∧ getFieldValue ⟨"X", 1, 3, 99, typeAlphaNumeric, sizeLLVAR⟩ (lit "HELLO") = lit "05HELLO"
    ∧ getFieldValue ⟨"X", 1, 3, 999, typeAlphaNumeric, sizeLLLVAR⟩ (lit "HELLO")
        = lit "005HELLO" := by
  have ht : v.take f.length = v := List.take_of_length_le hlen
  rw [getFieldValue_of_ne f v hv, ht]
  refine ⟨fun h hb => ?_, fun h hb => ?_, by decide, by decide⟩
  · have h1 : f.siz ≠ sizeFixed := by rw [h]; decide
    rw [if_neg h1, if_pos h, sprintfD_two _ (by omega)]
  · have h1 : f.siz ≠ sizeFixed := by rw [h]; decide
    have h2 : f.siz ≠ sizeLLVAR := by rw [h]; decide
    rw [if_neg h1, if_neg h2, if_pos h, sprintfD_three _ (by omega)]

/-- Witness of C7: field 100 (LLVAR, length 99) with "HELLO". -/
theorem variable_field_prefixing_witness :
    getFieldValue ⟨"BillerCode", 25, 100, 99, "AN", "LLVAR"⟩ (lit "HELLO")
      = [48 + 5 / 10, 48 + 5 % 10] ++ lit "HELLO" :=
  (variable_field_prefixing ⟨"BillerCode", 25, 100, 99, "AN", "LLVAR"⟩ (lit "HELLO")
    (by decide) (by decide)).1 (by decide) (by decide)

/-- C8: a value longer than the length `L` of the field is encoded as its
first `L` bytes and nothing else: `L` bytes on a Fixed field, the two digits
of `L` and the `L` bytes on an LLVAR field (`L + 2` bytes), the three digits
of `L` and the `L` bytes on an LLLVAR field (`L + 3` bytes).  The bounds 99
and 999 on `L` hold for every LLVAR and LLLVAR field of the struct.  The
function returns a string only, there is no error to raise. -/
theorem truncation_policy (f : StructField) (v : Str) (hlong : f.length < v.length) :
    (f.siz = sizeFixed →
        getFieldValue f v = v.take f.length ∧ (getFieldValue f v).length = f.length)
    ∧ (f.siz = sizeLLVAR → f.length ≤ 99 →
        getFieldValue f v = [48 + f.length / 10, 48 + f.length % 10] ++ v.take f.length
        ∧ (getFieldValue f v).length = f.length + 2)
    ∧ (f.siz = sizeLLLVAR → f.length ≤ 999 →
        getFieldValue f v
          = [48 + f.length / 100, 48 + f.length / 10 % 10, 48 + f.length % 10]
              ++ v.take f.length
        ∧ (getFieldValue f v).length = f.length + 3)
    ∧ (f ∈ fields →
        (f.siz = sizeLLVAR → f.length ≤ 99) ∧ (f.siz = sizeLLLVAR → f.length ≤ 999)) := by
  have hv : v ≠ [] := by
    intro h
    rw [h] at hlong
    simp at hlong
  have hl : (v.take f.length).length = f.length := by
    rw [List.length_take]
    omega
  refine ⟨fun h => ?_, fun h hb => ?_, fun h hb => ?_, fields_var_bounds f⟩
  · rw [getFieldValue_of_ne f v hv, if_pos h, hl]
    split <;> simp [hl]
  · have h1 : f.siz ≠ sizeFixed := by rw [h]; decide
    rw [getFieldValue_of_ne f v hv, if_neg h1, if_pos h, hl, sprintfD_two _ hb]
    simp [hl]
  · have h1 : f.siz ≠ sizeFixed := by rw [h]; decide
    have h2 : f.siz ≠ sizeLLVAR := by rw [h]; decide
    rw [getFieldValue_of_ne f v hv, if_neg h1, if_neg h2, if_pos h, hl, sprintfD_three _ hb]
    simp [hl]

/-- Witness of C8: field 40 (Fixed, length 3) with "12345". -/
theorem truncation_policy_witness :
    getFieldValue ⟨"Period", 16, 40, 3, "N", "FIXED"⟩ (lit "12345") = lit "123" :=
  ((truncation_policy ⟨"Period", 16, 40, 3, "N", "FIXED"⟩ (lit "12345")
    (by decide)).1 (by decide)).1

/-! ## Rejection by `Load` -/

theorem slice_mti (source : Str) (hasLength : Bool) (h : 24 ≤ source.length) :
    slice source (if hasLength then 4 else 0) ((if hasLength then 4 else 0) + 4)
      = some (mtiOf source hasLength) := by
  cases hasLength
  · simp [slice, mtiOf]
    omega
  · simp [slice, mtiOf]
    omega

theorem Load_short (tbl : Nat → Nat) (m : Message) (source : Str) (hasLength : Bool)
    (h : source.length < 24) :
    Load tbl m source hasLength = some (m, some GoError.tooSmall) := by
  simp [Load, h]

theorem Load_invalid (tbl : Nat → Nat) (m : Message) (source : Str) (hasLength : Bool)
    (h : 24 ≤ source.length) (hm : mtiOf source hasLength ∉ ValidMTI) :
    Load tbl m source hasLength
      = some ({ m with MTI := mtiOf source hasLength },
          some (GoError.invalidMTI (mtiOf source hasLength))) := by
  unfold Load
  rw [if_neg (by omega)]
  simp only [slice_mti source hasLength h, Option.some_bind]
  rw [if_pos hm]

theorem Load_valid (tbl : Nat → Nat) (m : Message) (source : Str) (hasLength : Bool)
    (h : 24 ≤ source.length) (hm : mtiOf source hasLength ∈ ValidMTI) :
    Load tbl m source hasLength
      = (buildBitmap tbl source ((if hasLength then 4 else 0) + 4)).bind fun r =>
          buildValues { m with MTI := mtiOf source hasLength } source r.2
            ((if hasLength then 4 else 0) + 4 + r.1.length) := by
  unfold Load
  rw [if_neg (by omega)]
  simp only [slice_mti source hasLength h, Option.some_bind]
  rw [if_neg (not_not.mpr hm)]

/-- Method `buildValues` never returns an error. -/
theorem buildValues_no_error (m m1 : Message) (source : Str) (bitmaps : List Int)
    (offset : Int) (e : Option GoError)
    (h : buildValues m source bitmaps offset = some (m1, e)) : e = none := by
  unfold buildValues at h
  cases hf : flagLoop bitmaps with
  | none => simp [hf] at h
  | some bv =>
    cases hl : buildValuesLoop source bv fields m offset with
    | none => simp [hf, hl] at h
    | some m2 =>
      simp [hf, hl] at h
      exact h.2.symm

/-- C9: `Load` returns an error for every buffer shorter than 24 bytes, with
or without the length in front, and for every buffer of at least 24 bytes
whose MTI bytes (offset 0, or offset 4 with the length in front) are not one
of "2200", "2210", "0800", "0810"; so a 10-byte buffer and a buffer that
starts with "9999" are rejected. -/
theorem load_rejection (tbl : Nat → Nat) (m : Message) (source : Str) (hasLength : Bool) :
    (source.length < 24 → Load tbl m source hasLength = some (m, some GoError.tooSmall))
    ∧ (24 ≤ source.length →
        (source.drop (if hasLength then 4 else 0)).take 4 ∉
          [lit "2200", lit "2210", lit "0800", lit "0810"] →
        ∃ m1, Load tbl m source hasLength
          = some (m1, some (GoError.invalidMTI
              ((source.drop (if hasLength then 4 else 0)).take 4))))
    ∧ (source.length = 10 → ∃ m1 e, Load tbl m source hasLength = some (m1, some e))
    ∧ (∃ m1 e, Load tbl m (lit "9999" ++ source) false = some (m1, some e)) := by
  refine ⟨Load_short tbl m source hasLength, fun h hm => ?_, fun h => ?_, ?_⟩
  · exact ⟨_, Load_invalid tbl m source hasLength h hm⟩
  · exact ⟨_, _, Load_short tbl m source hasLength (by omega)⟩
  · by_cases h : (lit "9999" ++ source).length < 24
    · exact ⟨_, _, Load_short tbl m _ false h⟩
    · refine ⟨_, _, Load_invalid tbl m _ false (by omega) ?_⟩
      have : mtiOf (lit "9999" ++ source) false = lit "9999" := by
        simp [mtiOf, lit]
      rw [this]
      decide

/-- Witness of C9: a 10-byte buffer, and 24 bytes that start with "9999". -/
theorem load_rejection_witness :
    Load id {} (lit "2200300000") true = some ({}, some GoError.tooSmall)
    ∧ ∃ m1, Load id {} (lit "999930000000000000000000") false
        = some (m1, some (GoError.invalidMTI (lit "9999"))) :=
  ⟨(load_rejection id {} (lit "2200300000") true).1 (by decide),
   (load_rejection id {} (lit "999930000000000000000000") false).2.1 (by decide) (by decide)⟩

/-- Counterexample to C10: `Load` on a message with MTI "2200" and a 24-byte
buffer whose MTI is "9999" fails with the MTI error and leaves the message
with MTI "9999". -/
theorem load_mti_error_overwrites :
    Load id { MTI := lit "2200", Amount := lit "5" } (lit "999900000000000000000000") false
      = some ({ MTI := lit "9999", Amount := lit "5" }, some (GoError.invalidMTI (lit "9999")))
    ∧ ({ MTI := lit "9999", Amount := lit "5" } : Message)
        ≠ { MTI := lit "2200", Amount := lit "5" } := by
  refine ⟨by rfl, by decide⟩

/-- C10 as amended: when `Load` returns an error, either the buffer is
shorter than 24 bytes and the message is exactly what it was before the
call, or the MTI bytes are not in the registry and the message is what it
was before in every field except `MTI`, which now holds the 4 bytes read. -/
theorem load_error_state (tbl : Nat → Nat) (m m1 : Message) (source : Str)
    (hasLength : Bool) (e : GoError)
    (h : Load tbl m source hasLength = some (m1, some e)) :
    (source.length < 24 ∧ e = GoError.tooSmall ∧ m1 = m)
    ∨ (24 ≤ source.length ∧ mtiOf source hasLength ∉ ValidMTI
        ∧ e = GoError.invalidMTI (mtiOf source hasLength)
        ∧ m1 = { m with MTI := mtiOf source hasLength }
        ∧ ∀ i, i ≠ 0 → m1.Field i = m.Field i) := by
  by_cases hs : source.length < 24
  · rw [Load_short tbl m source hasLength hs] at h
    simp only [Option.some.injEq, Prod.mk.injEq] at h
    exact Or.inl ⟨hs, h.2.symm, h.1.symm⟩
  · by_cases hm : mtiOf source hasLength ∈ ValidMTI
    · rw [Load_valid tbl m source hasLength (by omega) hm] at h
      cases hb : buildBitmap tbl source ((if hasLength then 4 else 0) + 4) with
      | none => simp [hb] at h
      | some r =>
        rw [hb] at h
        have := buildValues_no_error _ _ _ _ _ _ h
        simp at this
    · rw [Load_invalid tbl m source hasLength (by omega) hm] at h
      simp only [Option.some.injEq, Prod.mk.injEq] at h
      refine Or.inr ⟨by omega, hm, h.2.symm, h.1.symm, fun i hi => ?_⟩
      rw [← h.1]
      match i, hi with
      | 0, hi => exact absurd rfl hi
      | i + 1, _ =>
        unfold Message.Field
        split <;> first | rfl | simp_all

/-- Witness of C10 as amended: the 24-byte buffer with MTI "9999". -/
theorem load_error_state_witness :
    (24 < 24 ∧ GoError.invalidMTI (lit "9999") = GoError.tooSmall
        ∧ ({ MTI := lit "9999", Amount := lit "5" } : Message)
            = { MTI := lit "2200", Amount := lit "5" })
    ∨ (24 ≤ 24 ∧ lit "9999" ∉ ValidMTI
        ∧ GoError.invalidMTI (lit "9999") = GoError.invalidMTI (lit "9999")
        ∧ ({ MTI := lit "9999", Amount := lit "5" } : Message)
            = { MTI := lit "9999", Amount := lit "5" }
        ∧ ∀ i, i ≠ 0 → ({ MTI := lit "9999", Amount := lit "5" } : Message).Field i
            = ({ MTI := lit "2200", Amount := lit "5" } : Message).Field i) :=
  load_error_state id { MTI := lit "2200", Amount := lit "5" }
    { MTI := lit "9999", Amount := lit "5" } (lit "999900000000000000000000") false
    (GoError.invalidMTI (lit "9999")) (by rfl)

/-! ## The field loop of `Bytes` -/

theorem index_nat {α : Type} (l : List α) (k : Nat) : index l (k : Int) = l[k]? := by
  simp [index]

theorem assign_nat {α : Type} (l : List α) (k : Nat) (x : α) (h : k < l.length) :
    assign l (k : Int) x = some (l.set k x) := by
  simp [assign, h]

theorem bits_at (idx : Nat) (h1 : 1 ≤ idx) :
    index bits (((idx % 8 : Nat) : Int) + 1) = some (2 ^ (7 - (idx - 1) % 8)) := by
  have hr : idx % 8 < 8 := Nat.mod_lt _ (by decide)
  have hcast : ((idx % 8 : Nat) : Int) + 1 = ((idx % 8 + 1 : Nat) : Int) := by push_cast; rfl
  rw [hcast, index_nat]
  have key : 7 - (idx - 1) % 8 = (8 - idx % 8) % 8 := by omega
  rw [key]
  interval_cases idx % 8 <;> rfl

theorem markBit_pos (idx : Nat) (h1 : 1 ≤ idx) :
    (if idx % 8 = 0 then (((idx / 8 : Nat) : Int) - 1) else ((idx / 8 : Nat) : Int))
      = (((idx - 1) / 8 : Nat) : Int) := by
  split <;> omega

/-- Closed form of `markBit` for an index from 1 to 128 on a 16-entry bitmap. -/
theorem markBit_eq (bm : List Nat) (idx : Nat) (h16 : bm.length = 16) (h1 : 1 ≤ idx)
    (h2 : idx ≤ 128) :
    markBit bm idx =
      some (((if 64 < idx then bm.set 0 (bm[0]?.getD 0 ||| 128) else bm).set ((idx - 1) / 8)
        (((if 64 < idx then bm.set 0 (bm[0]?.getD 0 ||| 128) else bm)[(idx - 1) / 8]?.getD 0)
          ||| 2 ^ (7 - (idx - 1) % 8)))) := by
  have hp : (idx - 1) / 8 < 16 := by omega
  unfold markBit
  simp only [markBit_pos idx h1, bits_at idx h1]
  by_cases h64 : 64 < idx
  · have hb0 : bm[0]? = some (bm[0]?.getD 0) := by
      rw [List.getElem?_eq_getElem (by omega)]; rfl
    have hidx0 : index bm 0 = bm[0]? := index_nat bm 0
    have hbits2 : index bits 2 = some 128 := rfl
    have hasg : ∀ x, assign bm 0 x = some (bm.set 0 x) := fun x => assign_nat bm 0 x (by omega)
    simp only [gt_iff_lt, h64, if_true, hidx0, hbits2, hasg, Option.some_bind, index_nat]
    rw [hb0]
    simp only [Option.some_bind, Option.getD_some]
    have hl : ((bm.set 0 (bm[0]?.getD 0 ||| 128)).length) = 16 := by simp [h16]
    rw [List.getElem?_eq_getElem (by omega : (idx - 1) / 8 < (bm.set 0 (bm[0]?.getD 0 ||| 128)).length)]
    simp only [Option.some_bind, Option.getD_some]
    rw [assign_nat _ _ _ (by omega)]
  · simp only [gt_iff_lt, h64, if_false, Option.some_bind, index_nat]
    rw [List.getElem?_eq_getElem (by omega : (idx - 1) / 8 < bm.length)]
    simp only [Option.some_bind, Option.getD_some]
    rw [assign_nat _ _ _ (by omega)]

theorem markBit_spec (bm : List Nat) (idx : Nat) (h16 : bm.length = 16) (h1 : 1 ≤ idx)
    (h2 : idx ≤ 128) :
    ∃ bm1, markBit bm idx = some bm1 ∧ bm1.length = 16 ∧
      ∀ k q, (bm1[k]?.getD 0).testBit q = ((bm[k]?.getD 0).testBit q || hits idx k q) := by
  refine ⟨_, markBit_eq bm idx h16 h1 h2, ?_, fun k q => ?_⟩
  · split <;> simp [h16]
  · have hp : (idx - 1) / 8 < 16 := by omega
    by_cases h64 : 64 < idx
    · have hne : ¬ (0 = (idx - 1) / 8) := by omega
      simp only [h64, if_true, List.getElem?_set, List.length_set, h16, hp, hits]
      by_cases hk : (idx - 1) / 8 = k
      · subst hk
        simp [hne, Nat.testBit_two_pow, eq_comm]
      · by_cases hk0 : 0 = k
        · subst hk0
          have ht : Nat.testBit 128 q = decide (q = 7) := by
            rw [show (128 : Nat) = 2 ^ 7 from rfl, Nat.testBit_two_pow]
            simp [eq_comm]
          simp [hk, hne, ht]
        · have hk0b : ¬ (k = 0) := fun h => hk0 h.symm
          have hkb : ¬ (k = (idx - 1) / 8) := fun h => hk h.symm
          simp [hk, hk0, hk0b, hkb]
    · simp only [h64, if_false, List.getElem?_set, h16, hp, hits, if_true]
      by_cases hk : (idx - 1) / 8 = k
      · subst hk
        simp [Nat.testBit_two_pow, eq_comm]
      · have hkb : ¬ (k = (idx - 1) / 8) := fun h => hk h.symm
        simp [hk, hkb]

theorem bytesStep_eq (m : Message) (f : StructField) (st : Str × List Nat) :
    bytesStep m f st =
      if wire m f ≠ [] then (markBit st.2 f.index).map fun bitmap => (st.1 ++ wire m f, bitmap)
      else some st := rfl

theorem bytesLoop_spec (m : Message) :
    ∀ (fs : List StructField) (st : Str × List Nat),
      (∀ f ∈ fs, 1 ≤ f.index ∧ f.index ≤ 128) → st.2.length = 16 →
      ∃ bm, bytesLoop m fs st = some (st.1 ++ fs.flatMap (wire m), bm) ∧ bm.length = 16 ∧
        ∀ k q, (bm[k]?.getD 0).testBit q
          = ((st.2[k]?.getD 0).testBit q
              || fs.any (fun f => decide (wire m f ≠ []) && hits f.index k q)) := by
  intro fs
  induction fs with
  | nil =>
    intro st _ h16
    exact ⟨st.2, by simp [bytesLoop], h16, by simp⟩
  | cons f fs ih =>
    intro st hr h16
    have hf := hr f (List.mem_cons_self _ _)
    have hrest : ∀ g ∈ fs, 1 ≤ g.index ∧ g.index ≤ 128 :=
      fun g hg => hr g (List.mem_cons_of_mem _ hg)
    by_cases hw : wire m f = []
    · obtain ⟨bm, h1, h2, h3⟩ := ih st hrest h16
      refine ⟨bm, ?_, h2, fun k q => ?_⟩
      · simp [bytesLoop, bytesStep_eq, hw, h1]
      · simp [h3, hw]
    · obtain ⟨bm1, e1, l1, t1⟩ := markBit_spec st.2 f.index h16 hf.1 hf.2
      obtain ⟨bm, h1, h2, h3⟩ := ih (st.1 ++ wire m f, bm1) hrest l1
      refine ⟨bm, ?_, h2, fun k q => ?_⟩
      · simp [bytesLoop, bytesStep_eq, hw, e1, h1]
      · simp [h3, t1, hw, Bool.or_assoc]

theorem list16 {α : Type} (l : List α) (h : l.length = 16) :
    ∃ a0 a1 a2 a3 a4 a5 a6 a7 a8 a9 a10 a11 a12 a13 a14 a15,
      l = [a0, a1, a2, a3, a4, a5, a6, a7, a8, a9, a10, a11, a12, a13, a14, a15] := by
  match l, h with
  | [a0, a1, a2, a3, a4, a5, a6, a7, a8, a9, a10, a11, a12, a13, a14, a15], _ =>
    exact ⟨a0, a1, a2, a3, a4, a5, a6, a7, a8, a9, a10, a11, a12, a13, a14, a15, rfl⟩

/-- The loop "build bitmap hex": all 16 entries when the secondary flag is
set in entry 0, the first 8 otherwise, two digits each. -/
theorem bitmapHexLoop_eq (bm : List Nat) (h16 : bm.length = 16) :
    bitmapHexLoop bm 16 0 []
      = some ((bm.take (if bm[0]?.getD 0 &&& 128 = 128 then 16 else 8)).flatMap hexByte) := by
  obtain ⟨a0, a1, a2, a3, a4, a5, a6, a7, a8, a9, a10, a11, a12, a13, a14, a15, rfl⟩ :=
    list16 bm h16
  by_cases h : a0 &&& 128 = 128
  · simp [bitmapHexLoop, h]
  · simp [bitmapHexLoop, h]

/-! ## The flag loops of `buildValues` -/

theorem assign_int {α : Type} (l : List α) (k : Nat) (x : α) :
    assign l (k : Int) x = if k < l.length then some (l.set k x) else none := by
  simp [assign]

theorem condSet_fold_ok :
    ∀ (l : List (Nat × Bool)) (bv : List Bool),
      (∀ tc ∈ l, tc.2 = true → tc.1 < bv.length) →
      ∃ bv1, l.foldlM condSet bv = some bv1 ∧ bv1.length = bv.length ∧
        ∀ n, bv1[n]?.getD false
          = (bv[n]?.getD false || l.any (fun tc => tc.2 && decide (tc.1 = n))) := by
  intro l
  induction l with
  | nil => intro bv _; exact ⟨bv, rfl, rfl, by simp⟩
  | cons tc l ih =>
    intro bv h
    have htc := h tc (List.mem_cons_self _ _)
    by_cases hc : tc.2 = true
    · have hlt := htc hc
      obtain ⟨bv1, e1, l1, t1⟩ := ih (bv.set tc.1 true) (fun x hx hx2 => by
        simpa using h x (List.mem_cons_of_mem _ hx) hx2)
      refine ⟨bv1, ?_, by simpa using l1, fun n => ?_⟩
      · simp [condSet, hc, hlt, e1]
      · rw [t1 n, List.getElem?_set, List.any_cons]
        by_cases hn : tc.1 = n
        · rw [if_pos hn, if_pos hlt, hc, decide_eq_true hn]
          simp
        · rw [if_neg hn, decide_eq_false hn]
          simp
    · obtain ⟨bv1, e1, l1, t1⟩ := ih bv (fun x hx hx2 => h x (List.mem_cons_of_mem _ hx) hx2)
      refine ⟨bv1, ?_, l1, fun n => ?_⟩
      · simp [condSet, hc, e1]
      · rw [t1 n, List.any_cons]
        simp [hc]

theorem condSet_fold_length :
    ∀ (l : List (Nat × Bool)) (bv bv1 : List Bool),
      l.foldlM condSet bv = some bv1 → bv1.length = bv.length := by
  intro l
  induction l with
  | nil => intro bv bv1 h; simp at h; rw [← h]
  | cons tc l ih =>
    intro bv bv1 h
    simp only [List.foldlM_cons] at h
    cases hc : condSet bv tc with
    | none => simp [hc] at h
    | some bv2 =>
      rw [hc] at h
      have h2 := ih bv2 bv1 h
      have h3 : bv2.length = bv.length := by
        unfold condSet at hc
        split at hc
        · split at hc
          · simp at hc; rw [← hc]; simp
          · simp at hc
        · simp at hc; rw [← hc]
      omega

theorem condSet_fold_panic :
    ∀ (l : List (Nat × Bool)) (bv : List Bool),
      (∃ tc ∈ l, tc.2 = true ∧ bv.length ≤ tc.1) → l.foldlM condSet bv = none := by
  intro l
  induction l with
  | nil => intro bv h; obtain ⟨tc, hm, _⟩ := h; simp at hm
  | cons tc l ih =>
    intro bv h
    obtain ⟨x, hm, hx2, hx1⟩ := h
    simp only [List.foldlM_cons]
    cases hc : condSet bv tc with
    | none => rfl
    | some bv2 =>
      have h3 : bv2.length = bv.length :=
        condSet_fold_length [tc] bv bv2 (by simp [hc])
      rcases List.mem_cons.mp hm with rfl | hm2
      · simp [condSet, hx2, Nat.not_lt.mpr hx1] at hc
      · exact ih bv2 ⟨x, hm2, hx2, by omega⟩

theorem assign_row (bv : List Bool) (i j : Nat) (h : 1 ≤ j) :
    assign bv ((i : Int) * 8 + (j : Int) - 1) true
      = if i * 8 + (j - 1) < bv.length then some (bv.set (i * 8 + (j - 1)) true) else none := by
  have : (i : Int) * 8 + (j : Int) - 1 = ((i * 8 + (j - 1) : Nat) : Int) := by omega
  rw [this, assign_int]

theorem flagInner_eq (bitmaps : List Int) (i : Nat) (bv : List Bool) (hi : i < bitmaps.length) :
    flagInner bitmaps i bv = (flagRow (bitmaps[i]?.getD 0) i).foldlM condSet bv := by
  have hb : index bitmaps (i : Int) = some (bitmaps[i]?.getD 0) := by
    rw [index_nat, List.getElem?_eq_getElem hi]; rfl
  have e1 : index bits ((1 : Nat) : Int) = some 1 := rfl
  have e2 : index bits ((2 : Nat) : Int) = some 128 := rfl
  have e3 : index bits ((3 : Nat) : Int) = some 64 := rfl
  have e4 : index bits ((4 : Nat) : Int) = some 32 := rfl
  have e5 : index bits ((5 : Nat) : Int) = some 16 := rfl
  have e6 : index bits ((6 : Nat) : Int) = some 8 := rfl
  have e7 : index bits ((7 : Nat) : Int) = some 4 := rfl
  have e8 : index bits ((8 : Nat) : Int) = some 2 := rfl
  simp only [flagInner, flagRow, List.foldlM_cons, List.foldlM_nil, flagStep, hb, e1, e2, e3,
    e4, e5, e6, e7, e8, Option.some_bind, assign_int, assign_row _ _ _ (by decide : 1 ≤ 2),
    assign_row _ _ _ (by decide : 1 ≤ 3), assign_row _ _ _ (by decide : 1 ≤ 4),
    assign_row _ _ _ (by decide : 1 ≤ 5), assign_row _ _ _ (by decide : 1 ≤ 6),
    assign_row _ _ _ (by decide : 1 ≤ 7), assign_row _ _ _ (by decide : 1 ≤ 8), condSet]
  by_cases hi0 : i = 0
  · subst hi0
    simp
  · simp [hi0]

theorem foldlM_flatMap_option {α β γ : Type} (g : α → List β) (f : γ → β → Option γ) :
    ∀ (l : List α) (init : γ),
      (l.flatMap g).foldlM f init = l.foldlM (fun acc a => (g a).foldlM f acc) init := by
  intro l
  induction l with
  | nil => intro init; rfl
  | cons a l ih =>
    intro init
    rw [List.flatMap_cons, List.foldlM_append, List.foldlM_cons]
    cases h : (g a).foldlM f init with
    | none => rfl
    | some x => exact ih x

theorem foldlM_congr_option {α γ : Type} (f g : γ → α → Option γ) :
    ∀ (l : List α) (init : γ), (∀ a ∈ l, ∀ acc, f acc a = g acc a) →
      l.foldlM f init = l.foldlM g init := by
  intro l
  induction l with
  | nil => intro init _; rfl
  | cons a l ih =>
    intro init h
    rw [List.foldlM_cons, List.foldlM_cons, h a (List.mem_cons_self _ _)]
    cases hg : g init a with
    | none => rfl
    | some x => exact ih x (fun b hb acc => h b (List.mem_cons_of_mem _ hb) acc)

theorem flagLoop_eq (bitmaps : List Int) (h16 : bitmaps.length = 16) :
    flagLoop bitmaps
      = ((List.range 16).flatMap (fun i => flagRow (bitmaps[i]?.getD 0) i)).foldlM condSet
          (List.replicate 128 false) := by
  rw [foldlM_flatMap_option, flagLoop]
  apply foldlM_congr_option
  intro i hi acc
  exact flagInner_eq bitmaps i acc (by rw [h16]; exact List.mem_range.mp hi)

theorem flagRow_any (bitmaps : List Int) (n : Nat)
    (h15 : Int.land (bitmaps[15]?.getD 0) 1 ≠ 1) :
    ((List.range 16).flatMap (fun i => flagRow (bitmaps[i]?.getD 0) i)).any
        (fun tc => tc.2 && decide (tc.1 = n)) = flagOf bitmaps n := by
  rw [Bool.eq_iff_iff]
  simp only [List.any_flatMap, List.any_eq_true, List.mem_range, flagRow, flagOf,
    Bool.and_eq_true, decide_eq_true_eq, List.mem_cons, List.mem_singleton, List.not_mem_nil,
    or_false]
  constructor
  · rintro ⟨i, hi, tc, hm, hc, hn⟩
    rcases hm with rfl | rfl | rfl | rfl | rfl | rfl | rfl | rfl
    · simp only [decide_eq_true_eq] at hc hn
      have hne : i ≠ 15 := by
        intro h; subst h; exact h15 hc
      have h1 : (n - 1) / 8 = i := by omega
      have h2 : (n - 1) % 8 = 7 := by omega
      rw [h1, h2]
      exact ⟨by omega, by simpa using hc⟩
    · simp only [Bool.and_eq_true, decide_eq_true_eq] at hc hn
      have h1 : (n - 1) / 8 = i := by omega
      have h2 : (n - 1) % 8 = 0 := by omega
      rw [h1, h2]
      exact ⟨by omega, by simpa using hc.1⟩
    · simp only [decide_eq_true_eq] at hc hn
      have h1 : (n - 1) / 8 = i := by omega
      have h2 : (n - 1) % 8 = 1 := by omega
      rw [h1, h2]
      exact ⟨by omega, by simpa using hc⟩
    · simp only [decide_eq_true_eq] at hc hn
      have h1 : (n - 1) / 8 = i := by omega
      have h2 : (n - 1) % 8 = 2 := by omega
      rw [h1, h2]
      exact ⟨by omega, by simpa using hc⟩
    · simp only [decide_eq_true_eq] at hc hn
      have h1 : (n - 1) / 8 = i := by omega
      have h2 : (n - 1) % 8 = 3 := by omega
      rw [h1, h2]
      exact ⟨by omega, by simpa using hc⟩
    · simp only [decide_eq_true_eq] at hc hn
      have h1 : (n - 1) / 8 = i := by omega
      have h2 : (n - 1) % 8 = 4 := by omega
      rw [h1, h2]
      exact ⟨by omega, by simpa using hc⟩
    · simp only [decide_eq_true_eq] at hc hn
      have h1 : (n - 1) / 8 = i := by omega
      have h2 : (n - 1) % 8 = 5 := by omega
      rw [h1, h2]
      exact ⟨by omega, by simpa using hc⟩
    · simp only [decide_eq_true_eq] at hc hn
      have h1 : (n - 1) / 8 = i := by omega
      have h2 : (n - 1) % 8 = 6 := by omega
      rw [h1, h2]
      exact ⟨by omega, by simpa using hc⟩
  · rintro ⟨⟨h2, h127⟩, hc⟩
    refine ⟨(n - 1) / 8, by omega, ?_⟩
    obtain ⟨r, hr⟩ : ∃ r, (n - 1) % 8 = r := ⟨_, rfl⟩
    rw [hr] at hc
    have hr8 : r < 8 := by omega
    interval_cases r
    · refine ⟨_, Or.inr (Or.inl rfl), ?_, ?_⟩
      · simp only [Bool.and_eq_true, decide_eq_true_eq]
        exact ⟨by simpa using hc, by omega⟩
      · simp only [decide_eq_true_eq]; omega
    · refine ⟨_, Or.inr (Or.inr (Or.inl rfl)), ?_, ?_⟩
      · simp only [decide_eq_true_eq]
        simpa using hc
      · simp only [decide_eq_true_eq]; omega
    · refine ⟨_, Or.inr (Or.inr (Or.inr (Or.inl rfl))), ?_, ?_⟩
      · simp only [decide_eq_true_eq]
        simpa using hc
      · simp only [decide_eq_true_eq]; omega
    · refine ⟨_, Or.inr (Or.inr (Or.inr (Or.inr (Or.inl rfl)))), ?_, ?_⟩
      · simp only [decide_eq_true_eq]
        simpa using hc
      · simp only [decide_eq_true_eq]; omega
    · refine ⟨_, Or.inr (Or.inr (Or.inr (Or.inr (Or.inr (Or.inl rfl))))), ?_, ?_⟩
      · simp only [decide_eq_true_eq]
        simpa using hc
      · simp only [decide_eq_true_eq]; omega
    · refine ⟨_, Or.inr (Or.inr (Or.inr (Or.inr (Or.inr (Or.inr (Or.inl rfl)))))), ?_, ?_⟩
      · simp only [decide_eq_true_eq]
        simpa using hc
      · simp only [decide_eq_true_eq]; omega
    · refine ⟨_, Or.inr (Or.inr (Or.inr (Or.inr (Or.inr (Or.inr (Or.inr rfl)))))), ?_, ?_⟩
      · simp only [decide_eq_true_eq]
        simpa using hc
      · simp only [decide_eq_true_eq]; omega
    · refine ⟨_, Or.inl rfl, ?_, ?_⟩
      · simp only [decide_eq_true_eq]
        simpa using hc
      · simp only [decide_eq_true_eq]; omega

/-- The flag loops on 16 entries whose last entry has bit value 1 clear: no
panic, 128 flags, flag `n` as `flagOf` says. -/
theorem flagLoop_ok (bitmaps : List Int) (h16 : bitmaps.length = 16)
    (h15 : Int.land (bitmaps[15]?.getD 0) 1 ≠ 1) :
    ∃ bv, flagLoop bitmaps = some bv ∧ bv.length = 128 ∧
      ∀ n, bv[n]?.getD false = flagOf bitmaps n := by
  have hb : ∀ tc ∈ (List.range 16).flatMap (fun i => flagRow (bitmaps[i]?.getD 0) i),
      tc.2 = true → tc.1 < (List.replicate 128 false).length := by
    intro tc hm hc
    simp only [List.mem_flatMap, List.mem_range, flagRow, List.mem_cons, List.mem_singleton,
      List.not_mem_nil, or_false] at hm
    obtain ⟨i, hi, hm⟩ := hm
    rw [List.length_replicate]
    rcases hm with rfl | rfl | rfl | rfl | rfl | rfl | rfl | rfl
    · have hne : i ≠ 15 := by
        intro h
        subst h
        simp only [decide_eq_true_eq] at hc
        exact h15 hc
      show (i + 1) * 8 < 128
      omega
    all_goals (simp only []; omega)
  obtain ⟨bv, e, l, t⟩ := condSet_fold_ok _ _ hb
  refine ⟨bv, by rw [flagLoop_eq bitmaps h16, e], by simpa using l, fun n => ?_⟩
  have hz : (List.replicate 128 false)[n]?.getD false = false := by
    rw [List.getElem?_replicate]
    split <;> rfl
  rw [t n, flagRow_any bitmaps n h15, hz, Bool.false_or]

/-- The flag loops on 16 entries whose last entry has bit value 1 set: the
write to `bitmapValues[128]` is out of range. -/
theorem flagLoop_panic (bitmaps : List Int) (h16 : bitmaps.length = 16)
    (h15 : Int.land (bitmaps[15]?.getD 0) 1 = 1) : flagLoop bitmaps = none := by
  rw [flagLoop_eq bitmaps h16]
  apply condSet_fold_panic
  refine ⟨(128, true), ?_, rfl, by simp⟩
  simp only [List.mem_flatMap, List.mem_range]
  refine ⟨15, by decide, ?_⟩
  simp [flagRow, h15]

/-! ## Reading the bitmap back -/

set_option maxRecDepth 100000 in
theorem hexByte_facts :
    ∀ b < 256, (hexByte b).length = 2 ∧ ParseInt16 (hexByte b) = (b : Int)
      ∧ hexByte b = [digitChar (b / 16), digitChar (b % 16)]
      ∧ ∀ c ∈ hexByte b, c ∈ lit "0123456789ABCDEF" := by
  decide

theorem slice_mid (pre x post : Str) (lo hi : Int) (hlo : lo = pre.length)
    (hhi : hi = pre.length + x.length) : slice (pre ++ x ++ post) lo hi = some x := by
  subst hlo hhi
  unfold slice
  rw [if_pos ⟨by omega, by omega, by simp⟩]
  have h1 : ((pre.length : Int)).toNat = pre.length := by simp
  have h2 : ((pre.length : Int) + x.length - pre.length).toNat = x.length := by simp
  rw [h1, h2, List.append_assoc, List.drop_left, List.take_left]

theorem writeAt_step (bm : List Int) (k : Nat) (b : Nat) (rest : List Nat)
    (hk : k < bm.length) :
    writeAt (bm.set k (b : Int)) (k + 1) rest = writeAt bm k (b :: rest) := by
  unfold writeAt
  rw [List.set_eq_take_append_cons_drop, if_pos hk]
  have hl : (bm.take k).length = k := by rw [List.length_take]; omega
  have e1 : (List.take k bm ++ (b : Int) :: List.drop (k + 1) bm).take (k + 1)
      = List.take k bm ++ [(b : Int)] := by
    rw [List.take_append_eq_append_take, hl]
    simp [List.take_of_length_le (by omega : (bm.take k).length ≤ k + 1)]
  have e2 : (List.take k bm ++ (b : Int) :: List.drop (k + 1) bm).drop (k + 1 + rest.length)
      = bm.drop (k + (b :: rest).length) := by
    have : k + 1 + rest.length = (List.take k bm).length + (1 + rest.length) := by omega
    rw [this, List.drop_append, Nat.add_comm 1, List.drop_succ_cons, List.drop_drop,
      List.length_cons]
    congr 1
    omega
  rw [e1, e2]
  simp

theorem writeAt_nil (bm : List Int) (k : Nat) : writeAt bm k [] = bm := by
  simp [writeAt]

theorem buildBitmapLoop_step (source : Str) (mid : Int) (noext : Bool) (n : Nat)
    (offset k : Int) (acc : Str) (bm : List Int) :
    buildBitmapLoop source mid noext (n + 1) offset k acc bm =
      (slice source offset (offset + 2)).bind fun tmp =>
        (assign bm k (ParseInt16 tmp)).bind fun bitmaps =>
          if noext = true ∧ offset = mid then some (acc ++ tmp, bitmaps)
          else buildBitmapLoop source mid noext n (offset + 2) (k + 1) (acc ++ tmp) bitmaps := rfl

/-- The loop of `buildBitmap` without the early exit: it reads as many hex
pairs as it has iterations. -/
theorem buildBitmapLoop_ext (post : Str) (mid : Int) :
    ∀ (rest : List Nat) (pre acc : Str) (bm : List Int) (k : Nat),
      (∀ b ∈ rest, b < 256) → k + rest.length ≤ bm.length →
      buildBitmapLoop (pre ++ rest.flatMap hexByte ++ post) mid false rest.length
          pre.length k acc bm
        = some (acc ++ rest.flatMap hexByte, writeAt bm k rest) := by
  intro rest
  induction rest with
  | nil =>
    intro pre acc bm k _ _
    simp [buildBitmapLoop, writeAt_nil]
  | cons b rest ih =>
    intro pre acc bm k hb hk
    have hb0 := hexByte_facts b (hb b (List.mem_cons_self _ _))
    have hk1 : k < bm.length := by simp at hk; omega
    have hsrc : pre ++ (b :: rest).flatMap hexByte ++ post
        = pre ++ hexByte b ++ (rest.flatMap hexByte ++ post) := by simp
    have hsrc2 : pre ++ (b :: rest).flatMap hexByte ++ post
        = (pre ++ hexByte b) ++ rest.flatMap hexByte ++ post := by simp
    rw [List.length_cons, buildBitmapLoop_step]
    have hs : slice (pre ++ (b :: rest).flatMap hexByte ++ post) pre.length (pre.length + 2)
        = some (hexByte b) := by
      rw [hsrc]
      exact slice_mid _ _ _ _ _ rfl (by rw [hb0.1]; rfl)
    rw [hs, Option.some_bind, hb0.2.1, assign_nat _ _ _ hk1, Option.some_bind,
      if_neg (by simp)]
    have hoff : (pre.length : Int) + 2 = ((pre ++ hexByte b).length : Nat) := by
      rw [List.length_append, hb0.1]; rfl
    have hkk : (k : Int) + 1 = ((k + 1 : Nat) : Int) := rfl
    rw [hoff, hkk, hsrc2, ih (pre ++ hexByte b) (acc ++ hexByte b) (bm.set k b) (k + 1)
      (fun x hx => hb x (List.mem_cons_of_mem _ hx)) (by simp at hk ⊢; omega),
      writeAt_step bm k b rest hk1]
    simp

/-- The loop of `buildBitmap` with the early exit: it stops after the hex
pair at offset `mid`. -/
theorem buildBitmapLoop_noext (post : Str) (mid : Int) :
    ∀ (rest : List Nat) (pre acc : Str) (bm : List Int) (k n : Nat),
      (∀ b ∈ rest, b < 256) → k + rest.length ≤ bm.length → rest ≠ [] → rest.length ≤ n →
      mid = (pre.length : Int) + 2 * ((rest.length : Int) - 1) →
      buildBitmapLoop (pre ++ rest.flatMap hexByte ++ post) mid true n pre.length k acc bm
        = some (acc ++ rest.flatMap hexByte, writeAt bm k rest) := by
  intro rest
  induction rest with
  | nil => intro pre acc bm k n _ _ h; exact absurd rfl h
  | cons b rest ih =>
    intro pre acc bm k n hb hk _ hn hmid
    have hb0 := hexByte_facts b (hb b (List.mem_cons_self _ _))
    have hk1 : k < bm.length := by simp at hk; omega
    obtain ⟨n, rfl⟩ : ∃ n1, n = n1 + 1 := ⟨n - 1, by simp at hn; omega⟩
    have hsrc : pre ++ (b :: rest).flatMap hexByte ++ post
        = pre ++ hexByte b ++ (rest.flatMap hexByte ++ post) := by simp
    have hsrc2 : pre ++ (b :: rest).flatMap hexByte ++ post
        = (pre ++ hexByte b) ++ rest.flatMap hexByte ++ post := by simp
    rw [buildBitmapLoop_step]
    have hs : slice (pre ++ (b :: rest).flatMap hexByte ++ post) pre.length (pre.length + 2)
        = some (hexByte b) := by
      rw [hsrc]
      exact slice_mid _ _ _ _ _ rfl (by rw [hb0.1]; rfl)
    rw [hs, Option.some_bind, hb0.2.1, assign_nat _ _ _ hk1, Option.some_bind]
    cases rest with
    | nil =>
      have hm : (pre.length : Int) = mid := by rw [hmid]; simp
      rw [if_pos ⟨rfl, hm⟩]
      simp [writeAt, List.set_eq_take_append_cons_drop, hk1]
    | cons b2 rest2 =>
      have hm : ¬ ((true = true) ∧ (pre.length : Int) = mid) := by
        rw [hmid]
        simp only [List.length_cons]
        push_cast
        omega
      rw [if_neg hm]
      have hoff : (pre.length : Int) + 2 = ((pre ++ hexByte b).length : Nat) := by
        rw [List.length_append, hb0.1]; rfl
      have hkk : (k : Int) + 1 = ((k + 1 : Nat) : Int) := rfl
      rw [hoff, hkk, hsrc2, ih (pre ++ hexByte b) (acc ++ hexByte b) (bm.set k b) (k + 1) n
        (fun x hx => hb x (List.mem_cons_of_mem _ hx)) (by simp at hk ⊢; omega)
        (by simp) (by simp at hn ⊢; omega)
        (by rw [hmid, List.length_append, hb0.1]; simp only [List.length_cons]; push_cast; omega),
        writeAt_step bm k b (b2 :: rest2) hk1]
      simp

theorem hexChars_upper : ∀ c ∈ lit "0123456789ABCDEF", c < 97 := by decide

theorem ToUpper_id (tbl : Nat → Nat) (s : Str) (h : ∀ c ∈ s, c < 97) : ToUpper tbl s = s := by
  unfold ToUpper
  have h1 : s.all (fun c => decide (c < 128)) = true := by
    rw [List.all_eq_true]
    intro c hc
    have := h c hc
    simp only [decide_eq_true_eq]
    omega
  rw [if_pos h1]
  conv_rhs => rw [← List.map_id s]
  apply List.map_congr_left
  intro c hc
  have := h c hc
  simp only [upperByte, id]
  rw [if_neg (by omega)]

theorem hexBytes_upper (l : List Nat) (hb : ∀ b ∈ l, b < 256) :
    ∀ c ∈ l.flatMap hexByte, c < 97 := by
  intro c hc
  rw [List.mem_flatMap] at hc
  obtain ⟨b, hbm, hcb⟩ := hc
  exact hexChars_upper c ((hexByte_facts b (hb b hbm)).2.2.2 c hcb)

theorem land_cast (a b : Nat) : Int.land (a : Int) (b : Int) = ((a &&& b : Nat) : Int) := rfl

/-- Function `buildBitmap` on the hex text that `Bytes` renders from a
16-entry bitmap of bytes: it returns that text and the entries rendered,
the other entries 0. -/
theorem buildBitmap_hex (tbl : Nat → Nat) (pre post : Str) (bm : List Nat)
    (h16 : bm.length = 16) (hb : ∀ b ∈ bm, b < 256) :
    buildBitmap tbl (pre ++ (rendered bm).flatMap hexByte ++ post) pre.length
      = some ((rendered bm).flatMap hexByte,
          writeAt (List.replicate 16 0) 0 (rendered bm)) := by
  obtain ⟨a0, a1, a2, a3, a4, a5, a6, a7, a8, a9, a10, a11, a12, a13, a14, a15, rfl⟩ :=
    list16 bm h16
  have ha0 := hexByte_facts a0 (hb a0 (by simp))
  have hrb : ∀ b ∈ rendered [a0, a1, a2, a3, a4, a5, a6, a7, a8, a9, a10, a11, a12, a13, a14, a15],
      b < 256 := fun b h => hb b (List.mem_of_mem_take h)
  have hup := ToUpper_id tbl _ (hexBytes_upper _ hrb)
  unfold buildBitmap
  by_cases h : a0 &&& 128 = 128
  · have hr : rendered [a0, a1, a2, a3, a4, a5, a6, a7, a8, a9, a10, a11, a12, a13, a14, a15]
        = [a0, a1, a2, a3, a4, a5, a6, a7, a8, a9, a10, a11, a12, a13, a14, a15] := by
      simp [rendered, h]
    rw [hr] at hup hrb ⊢
    have hs : slice (pre ++
          [a0, a1, a2, a3, a4, a5, a6, a7, a8, a9, a10, a11, a12, a13, a14, a15].flatMap hexByte
            ++ post)
          pre.length (pre.length + 2) = some (hexByte a0) := by
      rw [List.flatMap_cons, ← List.append_assoc pre, List.append_assoc _ _ post]
      exact slice_mid _ _ _ _ _ rfl (by rw [ha0.1]; rfl)
    have hno : decide (Int.land (a0 : Int) 128 ≠ 128) = false := by
      have : Int.land (a0 : Int) 128 = ((a0 &&& 128 : Nat) : Int) := land_cast a0 128
      rw [this, h]
      simp
    simp only [hs, Option.some_bind, ha0.2.1, hno]
    have := buildBitmapLoop_ext post ((pre.length : Int) + 14)
      [a0, a1, a2, a3, a4, a5, a6, a7, a8, a9, a10, a11, a12, a13, a14, a15] pre []
      (List.replicate 16 0) 0 hrb (by simp)
    rw [h16] at this
    simp only [Nat.cast_zero] at this
    rw [this, Option.map_some']
    simp only [List.nil_append]
    rw [hup]
  · have hr : rendered [a0, a1, a2, a3, a4, a5, a6, a7, a8, a9, a10, a11, a12, a13, a14, a15]
        = [a0, a1, a2, a3, a4, a5, a6, a7] := by
      simp [rendered, h]
    rw [hr] at hup hrb ⊢
    have hs : slice (pre ++ [a0, a1, a2, a3, a4, a5, a6, a7].flatMap hexByte ++ post)
          pre.length (pre.length + 2) = some (hexByte a0) := by
      rw [List.flatMap_cons, ← List.append_assoc pre, List.append_assoc _ _ post]
      exact slice_mid _ _ _ _ _ rfl (by rw [ha0.1]; rfl)
    have hno : decide (Int.land (a0 : Int) 128 ≠ 128) = true := by
      have : Int.land (a0 : Int) 128 = ((a0 &&& 128 : Nat) : Int) := land_cast a0 128
      rw [this]
      simp only [ne_eq, decide_eq_true_eq]
      intro h2
      exact h (by exact_mod_cast h2)
    simp only [hs, Option.some_bind, ha0.2.1, hno]
    have := buildBitmapLoop_noext post ((pre.length : Int) + 14)
      [a0, a1, a2, a3, a4, a5, a6, a7] pre []
      (List.replicate 16 0) 0 16 hrb (by simp) (by simp) (by simp)
      (by simp only [List.length_cons, List.length_nil]; push_cast; omega)
    simp only [Nat.cast_zero] at this
    rw [this, Option.map_some']
    simp only [List.nil_append]
    rw [hup]

/-! ## Struct fields by number -/

theorem Field_out (m : Message) (n : Nat) : m.Field (n + 28) = [] := rfl

theorem SetString_out (m : Message) (n : Nat) (x : Str) : m.SetString (n + 28) x = m := rfl

theorem Field_SetString (m : Message) (p q : Nat) (x : Str) :
    (m.SetString p x).Field q = if q = p ∧ p ≤ 27 then x else m.Field q := by
  by_cases hp : p ≤ 27
  · by_cases hq : q ≤ 27
    · interval_cases p <;> interval_cases q <;> rfl
    · obtain ⟨n, rfl⟩ : ∃ n, q = n + 28 := ⟨q - 28, by omega⟩
      rw [Field_out, Field_out, if_neg (by omega)]
  · obtain ⟨n, rfl⟩ : ∃ n, p = n + 28 := ⟨p - 28, by omega⟩
    rw [SetString_out, if_neg (by omega)]

theorem Message.ext_Field (a b : Message) (h : ∀ q, a.Field q = b.Field q) : a = b := by
  cases a
  cases b
  simp only [Message.mk.injEq]
  exact ⟨h 0, h 1, h 2, h 3, h 4, h 5, h 6, h 7, h 8, h 9, h 10, h 11, h 12, h 13, h 14, h 15,
    h 16, h 17, h 18, h 19, h 20, h 21, h 22, h 23, h 24, h 25, h 26, h 27⟩

/-! ## The field loop of `buildValues` on the bytes of `Bytes` -/

theorem Atoi_of_parse (s : Str) (n : Int) (h : parseSigned 10 decVal s = some n)
    (hr : -9223372036854775808 ≤ n ∧ n ≤ 9223372036854775807) : Atoi s = some n := by
  unfold Atoi
  rw [h, Option.some_bind, if_pos hr]

theorem btoi_two (a b : Nat) (ha : a < 10) (hb : b < 10) :
    btoi [48 + a, 48 + b] = ((10 * a + b : Nat) : Int) := by
  have d1 : decVal (48 + a) = some a := by
    simp [decVal]; omega
  have d2 : decVal (48 + b) = some b := by
    simp [decVal]; omega
  have n1 : ¬ (48 + a = 43) := by omega
  have n2 : ¬ (48 + a = 45) := by omega
  have hp : parseSigned 10 decVal [48 + a, 48 + b] = some ((10 * a + b : Nat) : Int) := by
    simp [parseSigned, parseDigits, d1, d2, n1, n2]
    omega
  unfold btoi
  rw [Atoi_of_parse _ _ hp (by omega)]

theorem btoi_three (a b c : Nat) (ha : a < 10) (hb : b < 10) (hc : c < 10) :
    btoi [48 + a, 48 + b, 48 + c] = ((100 * a + 10 * b + c : Nat) : Int) := by
  have d1 : decVal (48 + a) = some a := by
    simp [decVal]; omega
  have d2 : decVal (48 + b) = some b := by
    simp [decVal]; omega
  have d3 : decVal (48 + c) = some c := by
    simp [decVal]; omega
  have n1 : ¬ (48 + a = 43) := by omega
  have n2 : ¬ (48 + a = 45) := by omega
  have hp : parseSigned 10 decVal [48 + a, 48 + b, 48 + c]
      = some ((100 * a + 10 * b + c : Nat) : Int) := by
    simp [parseSigned, parseDigits, d1, d2, d3, n1, n2]
    omega
  unfold btoi
  rw [Atoi_of_parse _ _ hp (by omega)]

theorem wire_fixed (f : StructField) (v : Str) (hs : f.siz = sizeFixed) (hv : v ≠ [])
    (hl : v.length = f.length) : getFieldValue f v = v := by
  rw [getFieldValue_of_ne f v hv, if_pos hs, List.take_of_length_le (by omega)]
  split <;> simp [hl]

theorem wire_llvar (f : StructField) (v : Str) (hs : f.siz = sizeLLVAR) (hv : v ≠ [])
    (hl : v.length ≤ f.length) (hb : f.length ≤ 99) :
    getFieldValue f v = [48 + v.length / 10, 48 + v.length % 10] ++ v := by
  have h1 : f.siz ≠ sizeFixed := by rw [hs]; decide
  rw [getFieldValue_of_ne f v hv, if_neg h1, if_pos hs, List.take_of_length_le hl,
    sprintfD_two _ (by omega)]

theorem wire_lllvar (f : StructField) (v : Str) (hs : f.siz = sizeLLLVAR) (hv : v ≠ [])
    (hl : v.length ≤ f.length) (hb : f.length ≤ 999) :
    getFieldValue f v
      = [48 + v.length / 100, 48 + v.length / 10 % 10, 48 + v.length % 10] ++ v := by
  have h1 : f.siz ≠ sizeFixed := by rw [hs]; decide
  have h2 : f.siz ≠ sizeLLVAR := by rw [hs]; decide
  rw [getFieldValue_of_ne f v hv, if_neg h1, if_neg h2, if_pos hs,
    List.take_of_length_le hl, sprintfD_three _ (by omega)]

theorem buildValuesLoop_cons (source : Str) (bv : List Bool) (f : StructField)
    (fs : List StructField) (m : Message) (offset : Int) :
    buildValuesLoop source bv (f :: fs) m offset =
      (index bv f.index).bind fun flag =>
      if flag then
        if f.siz = sizeLLVAR then
          (slice source offset (offset + 2)).bind fun p =>
          if btoi p > f.length ∨ btoi p = 0 then
            buildValuesLoop source bv fs m (offset + (btoi p + 2))
          else
            (slice source (offset + 2) (offset + 2 + btoi p)).bind fun value =>
            buildValuesLoop source bv fs (m.SetString f.pos value) (offset + (btoi p + 2))
        else if f.siz = sizeLLLVAR then
          (slice source offset (offset + 3)).bind fun p =>
          if btoi p > f.length ∨ btoi p = 0 then
            buildValuesLoop source bv fs m (offset + (btoi p + 3))
          else
            if offset + 3 + btoi p > source.length then some m
            else
              (slice source (offset + 3) (offset + 3 + btoi p)).bind fun value =>
              buildValuesLoop source bv fs (m.SetString f.pos value) (offset + (btoi p + 3))
        else
          (slice source offset (offset + f.length)).bind fun value =>
          buildValuesLoop source bv fs (m.SetString f.pos value) (offset + f.length)
      else buildValuesLoop source bv fs m offset := rfl

theorem buildValuesLoop_roundtrip (m : Message) (bv : List Bool) (post : Str) :
    ∀ (fs : List StructField) (pre : Str) (m0 : Message),
      (∀ f ∈ fs, index bv f.index = some (decide (m.Field f.pos ≠ []))) →
      (∀ f ∈ fs, wellFormed m f) →
      buildValuesLoop (pre ++ fs.flatMap (wire m) ++ post) bv fs m0 pre.length
        = some (assigned m fs m0) := by
  intro fs
  induction fs with
  | nil => intro pre m0 _ _; rfl
  | cons f fs ih =>
    intro pre m0 hflag hwf
    have hf := hflag f (List.mem_cons_self _ _)
    obtain ⟨hsz, hlen, hfix⟩ := hwf f (List.mem_cons_self _ _)
    have hflag2 : ∀ g ∈ fs, index bv g.index = some (decide (m.Field g.pos ≠ [])) :=
      fun g hg => hflag g (List.mem_cons_of_mem _ hg)
    have hwf2 : ∀ g ∈ fs, wellFormed m g := fun g hg => hwf g (List.mem_cons_of_mem _ hg)
    rw [buildValuesLoop_cons, hf, Option.some_bind]
    by_cases hv : m.Field f.pos = []
    · have hw : wire m f = [] := by simp [wire, getFieldValue, hv]
      have ha : assigned m (f :: fs) m0 = assigned m fs m0 := by
        simp [assigned, hv]
      rw [ha, List.flatMap_cons, hw, List.nil_append]
      simp only [hv, ne_eq, not_true_eq_false, decide_False, Bool.false_eq_true, if_false]
      exact ih pre m0 hflag2 hwf2
    · have ha : assigned m (f :: fs) m0
          = assigned m fs (m0.SetString f.pos (m.Field f.pos)) := by
        simp [assigned, hv]
      rw [ha]
      simp only [hv, ne_eq, not_false_eq_true, decide_True, if_true]
      have hpos : 1 ≤ (m.Field f.pos).length := by
        cases hx : m.Field f.pos with
        | nil => exact absurd hx hv
        | cons a l => simp
      rcases hsz with hs | ⟨hs, hb⟩ | ⟨hs, hb⟩
      · have n1 : f.siz ≠ sizeLLVAR := by rw [hs]; decide
        have n2 : f.siz ≠ sizeLLLVAR := by rw [hs]; decide
        have hl := hfix hs hv
        have hw : wire m f = m.Field f.pos := wire_fixed f _ hs hv hl
        have hsrc : pre ++ (f :: fs).flatMap (wire m) ++ post
            = pre ++ m.Field f.pos ++ (fs.flatMap (wire m) ++ post) := by simp [hw]
        have hsrc2 : pre ++ m.Field f.pos ++ (fs.flatMap (wire m) ++ post)
            = (pre ++ m.Field f.pos) ++ fs.flatMap (wire m) ++ post := by simp
        rw [if_neg n1, if_neg n2, hsrc,
          slice_mid pre (m.Field f.pos) _ _ _ rfl (by rw [hl]), Option.some_bind]
        have hoff : (pre.length : Int) + (f.length : Int)
            = ((pre ++ m.Field f.pos).length : Nat) := by
          rw [List.length_append, hl]; push_cast; rfl
        rw [hoff, hsrc2]
        exact ih (pre ++ m.Field f.pos) _ hflag2 hwf2
      · have hw := wire_llvar f _ hs hv hlen hb
        have hbt : btoi [48 + (m.Field f.pos).length / 10, 48 + (m.Field f.pos).length % 10]
            = ((m.Field f.pos).length : Int) := by
          rw [btoi_two _ _ (by omega) (by omega)]
          congr 1
          omega
        have hsrc : pre ++ (f :: fs).flatMap (wire m) ++ post
            = pre ++ [48 + (m.Field f.pos).length / 10, 48 + (m.Field f.pos).length % 10]
                ++ (m.Field f.pos ++ (fs.flatMap (wire m) ++ post)) := by
          simp [wire] at hw ⊢
          simp [hw]
        have hsrc1 : pre ++ [48 + (m.Field f.pos).length / 10, 48 + (m.Field f.pos).length % 10]
                ++ (m.Field f.pos ++ (fs.flatMap (wire m) ++ post))
            = (pre ++ [48 + (m.Field f.pos).length / 10, 48 + (m.Field f.pos).length % 10])
                ++ m.Field f.pos ++ (fs.flatMap (wire m) ++ post) := by simp
        have hsrc2 : (pre ++ [48 + (m.Field f.pos).length / 10, 48 + (m.Field f.pos).length % 10])
                ++ m.Field f.pos ++ (fs.flatMap (wire m) ++ post)
            = (pre ++ ([48 + (m.Field f.pos).length / 10, 48 + (m.Field f.pos).length % 10]
                ++ m.Field f.pos)) ++ fs.flatMap (wire m) ++ post := by simp
        rw [if_pos hs, hsrc, slice_mid pre _ _ _ _ rfl (by simp), Option.some_bind, hbt,
          if_neg (by omega), hsrc1,
          slice_mid _ (m.Field f.pos) _ _ _ (by simp) (by simp), Option.some_bind]
        have hoff : (pre.length : Int) + (((m.Field f.pos).length : Int) + 2)
            = ((pre ++ ([48 + (m.Field f.pos).length / 10, 48 + (m.Field f.pos).length % 10]
                ++ m.Field f.pos)).length : Nat) := by
          simp; omega
        rw [hoff, hsrc2]
        exact ih _ _ hflag2 hwf2
      · have n1 : f.siz ≠ sizeLLVAR := by rw [hs]; decide
        have hw := wire_lllvar f _ hs hv hlen hb
        have hbt : btoi [48 + (m.Field f.pos).length / 100, 48 + (m.Field f.pos).length / 10 % 10,
              48 + (m.Field f.pos).length % 10]
            = ((m.Field f.pos).length : Int) := by
          rw [btoi_three _ _ _ (by omega) (by omega) (by omega)]
          congr 1
          omega
        have hsrc : pre ++ (f :: fs).flatMap (wire m) ++ post
            = pre ++ [48 + (m.Field f.pos).length / 100, 48 + (m.Field f.pos).length / 10 % 10,
              48 + (m.Field f.pos).length % 10]
                ++ (m.Field f.pos ++ (fs.flatMap (wire m) ++ post)) := by
          simp [wire] at hw ⊢
          simp [hw]
        have hsrc1 : pre ++ [48 + (m.Field f.pos).length / 100, 48 + (m.Field f.pos).length / 10 % 10,
              48 + (m.Field f.pos).length % 10]
                ++ (m.Field f.pos ++ (fs.flatMap (wire m) ++ post))
            = (pre ++ [48 + (m.Field f.pos).length / 100, 48 + (m.Field f.pos).length / 10 % 10,
              48 + (m.Field f.pos).length % 10])
                ++ m.Field f.pos ++ (fs.flatMap (wire m) ++ post) := by simp
        have hsrc2 : (pre ++ [48 + (m.Field f.pos).length / 100, 48 + (m.Field f.pos).length / 10 % 10,
              48 + (m.Field f.pos).length % 10])
                ++ m.Field f.pos ++ (fs.flatMap (wire m) ++ post)
            = (pre ++ ([48 + (m.Field f.pos).length / 100, 48 + (m.Field f.pos).length / 10 % 10,
              48 + (m.Field f.pos).length % 10]
                ++ m.Field f.pos)) ++ fs.flatMap (wire m) ++ post := by simp
        rw [if_neg n1, if_pos hs, hsrc, slice_mid pre _ _ _ _ rfl (by simp), Option.some_bind,
          hbt, if_neg (by omega),
          if_neg (by simp only [List.length_append, List.length_cons, List.length_nil]; push_cast; omega),
          hsrc1,
          slice_mid _ (m.Field f.pos) _ _ _ (by simp) (by simp), Option.some_bind]
        have hoff : (pre.length : Int) + (((m.Field f.pos).length : Int) + 3)
            = ((pre ++ ([48 + (m.Field f.pos).length / 100, 48 + (m.Field f.pos).length / 10 % 10,
              48 + (m.Field f.pos).length % 10]
                ++ m.Field f.pos)).length : Nat) := by
          simp; omega
        rw [hoff, hsrc2]
        exact ih _ _ hflag2 hwf2

/-! ## Facts about the struct tags -/

theorem fields_facts :
    ∀ f ∈ fields, 3 ≤ f.index ∧ f.index ≤ 104 ∧ 1 ≤ f.length ∧ 1 ≤ f.pos ∧ f.pos ≤ 27
      ∧ (f.siz = sizeFixed ∨ (f.siz = sizeLLVAR ∧ f.length ≤ 99)
          ∨ (f.siz = sizeLLLVAR ∧ f.length ≤ 999)) := by
  decide

theorem fields_index_nodup : (fields.map (fun f => f.index)).Nodup := by
  decide

theorem fields_index_inj : ∀ f ∈ fields, ∀ g ∈ fields, f.index = g.index → f = g :=
  fun _ hf _ hg h => List.inj_on_of_nodup_map fields_index_nodup hf hg h

theorem fields_pos_cover : ∀ p, 1 ≤ p → p ≤ 27 → ∃ f ∈ fields, f.pos = p := by
  intro p h1 h2
  interval_cases p <;> decide

/-- A field of the struct is on the wire exactly when its value is not
empty. -/
theorem wire_ne_iff (m : Message) (f : StructField) (hf : f ∈ fields) :
    wire m f ≠ [] ↔ m.Field f.pos ≠ [] := by
  obtain ⟨_, _, hl, _, _, hs⟩ := fields_facts f hf
  constructor
  · intro h hv
    exact h (by simp [wire, getFieldValue, hv])
  · intro hv
    have ht : (m.Field f.pos).take f.length ≠ [] := by
      cases hx : m.Field f.pos with
      | nil => exact absurd hx hv
      | cons a l =>
        obtain ⟨k, hk⟩ : ∃ k, f.length = k + 1 := ⟨f.length - 1, by omega⟩
        rw [hk]
        simp
    unfold wire
    rw [getFieldValue_of_ne f _ hv]
    rcases hs with hs | ⟨hs, _⟩ | ⟨hs, _⟩
    · rw [if_pos hs]
      split <;> simp [ht]
    · have n1 : f.siz ≠ sizeFixed := by rw [hs]; decide
      rw [if_neg n1, if_pos hs]
      simp [ht]
    · have n1 : f.siz ≠ sizeFixed := by rw [hs]; decide
      have n2 : f.siz ≠ sizeLLVAR := by rw [hs]; decide
      rw [if_neg n1, if_neg n2, if_pos hs]
      simp [ht]

theorem assigned_eq (m : Message) :
    ∀ (fs : List StructField) (m0 : Message),
      (∀ p, m0.Field p = m.Field p ∨ (m0.Field p = [] ∧ ∃ f ∈ fs, f.pos = p)) →
      assigned m fs m0 = m := by
  intro fs
  induction fs with
  | nil =>
    intro m0 h
    apply Message.ext_Field
    intro q
    rcases h q with h1 | ⟨_, f, hf, _⟩
    · exact h1
    · simp at hf
  | cons f fs ih =>
    intro m0 h
    have hstep : assigned m (f :: fs) m0
        = assigned m fs (if m.Field f.pos ≠ [] then m0.SetString f.pos (m.Field f.pos)
            else m0) := rfl
    rw [hstep]
    apply ih
    intro p
    by_cases hv : m.Field f.pos = []
    · rw [if_neg (by simpa using hv)]
      rcases h p with h1 | ⟨h1, g, hg, hgp⟩
      · exact Or.inl h1
      · rcases List.mem_cons.mp hg with rfl | hg2
        · left
          rw [h1, ← hgp, hv]
        · exact Or.inr ⟨h1, g, hg2, hgp⟩
    · rw [if_pos hv, Field_SetString]
      by_cases hp : p = f.pos ∧ f.pos ≤ 27
      · rw [if_pos hp, hp.1]
        exact Or.inl rfl
      · rw [if_neg hp]
        rcases h p with h1 | ⟨h1, g, hg, hgp⟩
        · exact Or.inl h1
        · rcases List.mem_cons.mp hg with rfl | hg2
          · by_cases h27 : g.pos ≤ 27
            · exact absurd ⟨hgp.symm, h27⟩ hp
            · left
              obtain ⟨n, hn⟩ : ∃ n, p = n + 28 := ⟨p - 28, by omega⟩
              rw [hn, Field_out, Field_out]
          · exact Or.inr ⟨h1, g, hg2, hgp⟩

theorem Field_zero (m : Message) : m.Field 0 = m.MTI := rfl

theorem blank_Field (x : Str) (p : Nat) (h1 : 1 ≤ p) :
    ({ MTI := x } : Message).Field p = [] := by
  by_cases h27 : p ≤ 27
  · interval_cases p <;> rfl
  · obtain ⟨n, hn⟩ : ∃ n, p = n + 28 := ⟨p - 28, by omega⟩
    rw [hn, Field_out]

/-- Loading the fields of `m` into the message that has only the MTI of `m`
gives `m` back. -/
theorem assigned_fields (m : Message) : assigned m fields { MTI := m.MTI } = m := by
  apply assigned_eq
  intro p
  by_cases h0 : p = 0
  · subst h0
    left
    rw [Field_zero, Field_zero]
  · by_cases h27 : p ≤ 27
    · exact Or.inr ⟨blank_Field _ p (by omega), fields_pos_cover p (by omega) h27⟩
    · left
      obtain ⟨n, hn⟩ : ∃ n, p = n + 28 := ⟨p - 28, by omega⟩
      rw [hn, Field_out, Field_out]

/-! ## The bitmap of a message -/

theorem and_two_pow_iff (a q : Nat) : a &&& 2 ^ q = 2 ^ q ↔ a.testBit q = true := by
  constructor
  · intro h
    have := congrArg (fun x => Nat.testBit x q) h
    simpa [Nat.testBit_and, Nat.testBit_two_pow] using this
  · intro h
    apply Nat.eq_of_testBit_eq
    intro i
    rw [Nat.testBit_and, Nat.testBit_two_pow]
    by_cases hi : q = i
    · subst hi
      simp [h]
    · simp [hi]

theorem hits_high (idx k q : Nat) (hq : 8 ≤ q) : hits idx k q = false := by
  simp only [hits, Bool.or_eq_false_iff, decide_eq_false_iff_not]
  constructor <;> omega

/-- The field loop of `Bytes` from its initial state: the data is the
concatenation of what the fields put on the wire, and bit `q` of entry `k`
of the bitmap is set exactly when a field on the wire hits it. -/
theorem encode_spec (m : Message) :
    ∃ bm, bytesLoop m fields ([], List.replicate 16 0) = some (fields.flatMap (wire m), bm)
      ∧ bm.length = 16
      ∧ ∀ k q, (bm[k]?.getD 0).testBit q
          = fields.any (fun f => decide (wire m f ≠ []) && hits f.index k q) := by
  obtain ⟨bm, h1, h2, h3⟩ := bytesLoop_spec m fields ([], List.replicate 16 0)
    (fun f hf => by
      obtain ⟨a, b, _⟩ := fields_facts f hf
      exact ⟨by omega, by omega⟩) (by simp)
  refine ⟨bm, by simpa using h1, h2, fun k q => ?_⟩
  rw [h3 k q]
  have hz : ((List.replicate 16 0 : List Nat)[k]?.getD 0) = 0 := by
    rw [List.getElem?_replicate]
    split <;> rfl
  show (((List.replicate 16 0 : List Nat)[k]?.getD 0).testBit q || _) = _
  rw [hz, Nat.zero_testBit, Bool.false_or]

theorem encode_entry_lt (m : Message) (bm : List Nat)
    (h3 : ∀ k q, (bm[k]?.getD 0).testBit q
          = fields.any (fun f => decide (wire m f ≠ []) && hits f.index k q)) :
    ∀ b ∈ bm, b < 256 := by
  intro b hb
  obtain ⟨k, hk, rfl⟩ := List.getElem_of_mem hb
  have : bm[k]?.getD 0 = bm[k] := by rw [List.getElem?_eq_getElem hk]; rfl
  rw [← this]
  apply Nat.lt_pow_two_of_testBit (n := 8)
  intro i hi
  rw [h3 k i]
  rw [List.any_eq_false]
  intro f _
  simp [hits_high f.index k i hi]

/-- The secondary flag of the bitmap is set exactly when a field with index
above 64 has a value. -/
theorem encode_secondary (m : Message) (bm : List Nat)
    (h3 : ∀ k q, (bm[k]?.getD 0).testBit q
          = fields.any (fun f => decide (wire m f ≠ []) && hits f.index k q)) :
    (bm[0]?.getD 0 &&& 128 = 128) ↔ ∃ f ∈ fields, 64 < f.index ∧ m.Field f.pos ≠ [] := by
  rw [show (128 : Nat) = 2 ^ 7 from rfl, and_two_pow_iff, h3 0 7, List.any_eq_true]
  constructor
  · rintro ⟨f, hf, hc⟩
    obtain ⟨h3i, _⟩ := fields_facts f hf
    simp only [hits, Bool.and_eq_true, decide_eq_true_eq, Bool.or_eq_true] at hc
    refine ⟨f, hf, ?_, (wire_ne_iff m f hf).mp hc.1⟩
    rcases hc.2 with h | h <;> omega
  · rintro ⟨f, hf, h64, hv⟩
    refine ⟨f, hf, ?_⟩
    simp only [hits, Bool.and_eq_true, decide_eq_true_eq, Bool.or_eq_true]
    exact ⟨(wire_ne_iff m f hf).mpr hv, Or.inr ⟨trivial, trivial, h64⟩⟩

/-- Bit of field index `i` in the bitmap, for `i` from 2 to 128: set exactly
when the field of the struct with that index has a value. -/
theorem encode_bit (m : Message) (bm : List Nat)
    (h3 : ∀ k q, (bm[k]?.getD 0).testBit q
          = fields.any (fun f => decide (wire m f ≠ []) && hits f.index k q))
    (i : Nat) (h2 : 2 ≤ i) :
    (bm[(i - 1) / 8]?.getD 0).testBit (7 - (i - 1) % 8) = true
      ↔ ∃ f ∈ fields, f.index = i ∧ m.Field f.pos ≠ [] := by
  rw [h3, List.any_eq_true]
  constructor
  · rintro ⟨f, hf, hc⟩
    obtain ⟨h3i, _⟩ := fields_facts f hf
    simp only [hits, Bool.and_eq_true, decide_eq_true_eq, Bool.or_eq_true] at hc
    refine ⟨f, hf, ?_, (wire_ne_iff m f hf).mp hc.1⟩
    rcases hc.2 with h | h <;> omega
  · rintro ⟨f, hf, rfl, hv⟩
    refine ⟨f, hf, ?_⟩
    simp only [hits, Bool.and_eq_true, decide_eq_true_eq, Bool.or_eq_true]
    exact ⟨(wire_ne_iff m f hf).mpr hv, Or.inl ⟨trivial, trivial⟩⟩

/-! ## Round trip of a message -/

/-- The result of `Bytes` from the result of its field loop. -/
theorem Bytes_of_loop (m : Message) (data : Str) (bm : List Nat)
    (h : bytesLoop m fields ([], List.replicate 16 0) = some (data, bm))
    (h16 : bm.length = 16) (withLength : Bool) :
    Bytes m withLength
      = some ((if withLength then
            sprintfD 4 (m.MTI ++ (rendered bm).flatMap hexByte ++ data).length
              ++ (m.MTI ++ (rendered bm).flatMap hexByte ++ data)
          else m.MTI ++ (rendered bm).flatMap hexByte ++ data), none) := by
  unfold Bytes
  rw [h, Option.some_bind]
  simp only [bitmapHexLoop_eq bm h16, Option.map_some']
  rfl

theorem decoded_eq (bm : List Nat) (h16 : bm.length = 16)
    (hz : ¬ (bm[0]?.getD 0 &&& 128 = 128) → ∀ k, 8 ≤ k → bm[k]?.getD 0 = 0) :
    writeAt (List.replicate 16 0) 0 (rendered bm) = bm.map Int.ofNat := by
  obtain ⟨a0, a1, a2, a3, a4, a5, a6, a7, a8, a9, a10, a11, a12, a13, a14, a15, rfl⟩ :=
    list16 bm h16
  by_cases h : a0 &&& 128 = 128
  · simp [writeAt, rendered, h]
  · have hz2 := hz (by simpa using h)
    have e8 := hz2 8 (by decide)
    have e9 := hz2 9 (by decide)
    have e10 := hz2 10 (by decide)
    have e11 := hz2 11 (by decide)
    have e12 := hz2 12 (by decide)
    have e13 := hz2 13 (by decide)
    have e14 := hz2 14 (by decide)
    have e15 := hz2 15 (by decide)
    simp at e8 e9 e10 e11 e12 e13 e14 e15
    subst e8 e9 e10 e11 e12 e13 e14 e15
    simp [writeAt, rendered, h]

theorem getD_map_ofNat (bm : List Nat) (k : Nat) :
    (bm.map Int.ofNat)[k]?.getD 0 = ((bm[k]?.getD 0 : Nat) : Int) := by
  rw [List.getElem?_map]
  cases bm[k]? <;> rfl

theorem flagOf_ofNat (bm : List Nat) (n : Nat) :
    flagOf (bm.map Int.ofNat) n
      = (decide (2 ≤ n ∧ n ≤ 127) && (bm[(n - 1) / 8]?.getD 0).testBit (7 - (n - 1) % 8)) := by
  unfold flagOf
  rw [getD_map_ofNat]
  congr 1
  have hp : ((2 : Int) ^ (7 - (n - 1) % 8)) = ((2 ^ (7 - (n - 1) % 8) : Nat) : Int) := by
    push_cast; rfl
  rw [hp, land_cast, Bool.eq_iff_iff]
  simp only [decide_eq_true_eq]
  rw [← and_two_pow_iff]
  exact Nat.cast_inj

theorem ValidMTI_length (x : Str) (h : x ∈ ValidMTI) : x.length = 4 := by
  simp only [ValidMTI, List.mem_cons, List.mem_singleton, List.not_mem_nil, or_false] at h
  rcases h with rfl | rfl | rfl | rfl <;> rfl

/-- The flags that `buildValues` computes from the bitmap that `Bytes`
builds for `m`: the flag of every field of the struct says whether the field
has a value. -/
theorem flags_of_encode (m : Message) (bm : List Nat) (h16 : bm.length = 16)
    (h3 : ∀ k q, (bm[k]?.getD 0).testBit q
          = fields.any (fun f => decide (wire m f ≠ []) && hits f.index k q)) :
    ∃ bv, flagLoop (bm.map Int.ofNat) = some bv ∧
      ∀ f ∈ fields, index bv (f.index : Int) = some (decide (m.Field f.pos ≠ [])) := by
  have h15 : Int.land ((bm.map Int.ofNat)[15]?.getD 0) 1 ≠ 1 := by
    rw [getD_map_ofNat]
    have e : Int.land ((bm[15]?.getD 0 : Nat) : Int) 1 = ((bm[15]?.getD 0 &&& 2 ^ 0 : Nat) : Int) :=
      land_cast _ 1
    rw [e]
    intro hc
    have hc2 : bm[15]?.getD 0 &&& 2 ^ 0 = 2 ^ 0 := by exact_mod_cast hc
    rw [and_two_pow_iff, h3, List.any_eq_true] at hc2
    obtain ⟨f, hf, hc3⟩ := hc2
    obtain ⟨_, h104, _⟩ := fields_facts f hf
    simp only [hits, Bool.and_eq_true, decide_eq_true_eq, Bool.or_eq_true] at hc3
    rcases hc3.2 with h | h <;> omega
  obtain ⟨bv, e, l, t⟩ := flagLoop_ok (bm.map Int.ofNat) (by simpa using h16) h15
  refine ⟨bv, e, fun f hf => ?_⟩
  obtain ⟨h3i, h104, _⟩ := fields_facts f hf
  have hlt : f.index < bv.length := by omega
  rw [index_nat, List.getElem?_eq_getElem hlt]
  have hv : bv[f.index] = bv[f.index]?.getD false := by
    rw [List.getElem?_eq_getElem hlt]; rfl
  rw [hv, t, flagOf_ofNat]
  congr 1
  rw [Bool.eq_iff_iff, Bool.and_eq_true, decide_eq_true_eq, decide_eq_true_eq,
    encode_bit m bm h3 f.index (by omega)]
  constructor
  · rintro ⟨_, g, hg, hgi, hgv⟩
    rw [← fields_index_inj g hg f hf hgi]
    exact hgv
  · intro hv2
    exact ⟨⟨by omega, by omega⟩, f, hf, rfl, hv2⟩

theorem encode_high_zero (m : Message) (bm : List Nat)
    (h3 : ∀ k q, (bm[k]?.getD 0).testBit q
          = fields.any (fun f => decide (wire m f ≠ []) && hits f.index k q))
    (hne : ¬ (bm[0]?.getD 0 &&& 128 = 128)) : ∀ k, 8 ≤ k → bm[k]?.getD 0 = 0 := by
  intro k hk
  apply Nat.eq_of_testBit_eq
  intro q
  rw [h3, Nat.zero_testBit, List.any_eq_false]
  intro f hf hc
  simp only [hits, Bool.and_eq_true, decide_eq_true_eq, Bool.or_eq_true] at hc
  apply hne
  rw [encode_secondary m bm h3]
  refine ⟨f, hf, ?_, (wire_ne_iff m f hf).mp hc.1⟩
  rcases hc.2 with h | h <;> omega

/-- Round trip of `Load` after `Bytes` for a message with a registered MTI,
values within the lengths and Fixed values of exactly the length. -/
theorem Load_Bytes (tbl : Nat → Nat) (m : Message) (hmti : m.MTI ∈ ValidMTI)
    (hlen : ∀ f ∈ fields, (m.Field f.pos).length ≤ f.length)
    (hfix : ∀ f ∈ fields, f.siz = sizeFixed → m.Field f.pos ≠ [] →
      (m.Field f.pos).length = f.length) :
    ∃ bs, Bytes m false = some (bs, none)
      ∧ (24 ≤ bs.length → Load tbl {} bs false = some (m, none)) := by
  obtain ⟨bm, hloop, h16, h3⟩ := encode_spec m
  have hB := Bytes_of_loop m _ bm hloop h16 false
  rw [if_neg (by decide)] at hB
  refine ⟨_, hB, fun h24 => ?_⟩
  have hm4 := ValidMTI_length m.MTI hmti
  have hmo : mtiOf (m.MTI ++ (rendered bm).flatMap hexByte ++ fields.flatMap (wire m)) false
      = m.MTI := by
    simp only [mtiOf, Bool.false_eq_true, if_false, List.drop_zero, List.append_assoc]
    exact List.take_left' hm4
  rw [Load_valid tbl {} _ false h24 (by rw [hmo]; exact hmti), hmo]
  have hoff : ((if false = true then (4 : Int) else 0) + 4) = ((m.MTI.length : Nat) : Int) := by
    rw [hm4]; rfl
  rw [hoff, buildBitmap_hex tbl m.MTI _ bm h16 (encode_entry_lt m bm h3), Option.some_bind,
    decoded_eq bm h16 (encode_high_zero m bm h3)]
  obtain ⟨bv, hfl, hflags⟩ := flags_of_encode m bm h16 h3
  unfold buildValues
  rw [hfl, Option.some_bind]
  have hwf : ∀ f ∈ fields, wellFormed m f := fun f hf =>
    ⟨(fields_facts f hf).2.2.2.2.2, hlen f hf, hfix f hf⟩
  have hsrc : m.MTI ++ (rendered bm).flatMap hexByte ++ fields.flatMap (wire m)
      = (m.MTI ++ (rendered bm).flatMap hexByte) ++ fields.flatMap (wire m) ++ [] := by simp
  have hoff2 : ((m.MTI.length : Nat) : Int) + (((rendered bm).flatMap hexByte).length : Nat)
      = (((m.MTI ++ (rendered bm).flatMap hexByte).length : Nat) : Int) := by
    rw [List.length_append]; push_cast; rfl
  have hm0 : ({ ({} : Message) with MTI := m.MTI } : Message) = { MTI := m.MTI } := rfl
  rw [hm0, hoff2, hsrc, buildValuesLoop_roundtrip m bv [] fields _ _ hflags hwf,
    Option.map_some', assigned_fields]

/-! ## Round trip of a set of indices -/

theorem markFold_spec :
    ∀ (S : List Nat) (bm : List Nat), (∀ i ∈ S, 1 ≤ i ∧ i ≤ 128) → bm.length = 16 →
      ∃ bm1, S.foldlM markBit bm = some bm1 ∧ bm1.length = 16 ∧
        ∀ k q, (bm1[k]?.getD 0).testBit q
          = ((bm[k]?.getD 0).testBit q || S.any (fun i => hits i k q)) := by
  intro S
  induction S with
  | nil => intro bm _ h16; exact ⟨bm, rfl, h16, by simp⟩
  | cons i S ih =>
    intro bm hr h16
    have hi := hr i (List.mem_cons_self _ _)
    obtain ⟨bm1, e1, l1, t1⟩ := markBit_spec bm i h16 hi.1 hi.2
    obtain ⟨bm2, e2, l2, t2⟩ := ih bm1 (fun j hj => hr j (List.mem_cons_of_mem _ hj)) l1
    refine ⟨bm2, by rw [List.foldlM_cons, e1]; exact e2, l2, fun k q => ?_⟩
    rw [t2, t1, List.any_cons, Bool.or_assoc]

/-- Bitmap round trip on a set of indices from 2 to 127: encoding with the
arithmetic of `Bytes` and decoding with `buildBitmap` and the flag loops
flags exactly the indices of the set. -/
theorem set_roundtrip (tbl : Nat → Nat) (S : List Nat) (hS : ∀ i ∈ S, 2 ≤ i ∧ i ≤ 127) :
    ∃ hex bv, encodeSet S = some hex ∧ decodeFlags tbl hex = some bv
      ∧ ∀ n, bv[n]?.getD false = true ↔ n ∈ S := by
  obtain ⟨bm, e, h16, t⟩ := markFold_spec S (List.replicate 16 0)
    (fun i hi => ⟨by have := hS i hi; omega, by have := hS i hi; omega⟩) (by simp)
  have h3 : ∀ k q, (bm[k]?.getD 0).testBit q = S.any (fun i => hits i k q) := by
    intro k q
    have hz : ((List.replicate 16 0 : List Nat)[k]?.getD 0) = 0 := by
      rw [List.getElem?_replicate]
      split <;> rfl
    rw [t, hz, Nat.zero_testBit, Bool.false_or]
  have hlt : ∀ b ∈ bm, b < 256 := by
    intro b hb
    obtain ⟨k, hk, rfl⟩ := List.getElem_of_mem hb
    have : bm[k]?.getD 0 = bm[k] := by rw [List.getElem?_eq_getElem hk]; rfl
    rw [← this]
    apply Nat.lt_pow_two_of_testBit (n := 8)
    intro i hi
    rw [h3 k i, List.any_eq_false]
    intro j _
    simp [hits_high j k i hi]
  have hext : (bm[0]?.getD 0 &&& 128 = 128) ↔ ∃ i ∈ S, 64 < i := by
    rw [show (128 : Nat) = 2 ^ 7 from rfl, and_two_pow_iff, h3 0 7, List.any_eq_true]
    constructor
    · rintro ⟨i, hi, hc⟩
      have := hS i hi
      simp only [hits, decide_eq_true_eq, Bool.or_eq_true] at hc
      exact ⟨i, hi, by rcases hc with h | h <;> omega⟩
    · rintro ⟨i, hi, h64⟩
      refine ⟨i, hi, ?_⟩
      simp only [hits, decide_eq_true_eq, Bool.or_eq_true]
      exact Or.inr ⟨trivial, trivial, h64⟩
  have hz : ¬ (bm[0]?.getD 0 &&& 128 = 128) → ∀ k, 8 ≤ k → bm[k]?.getD 0 = 0 := by
    intro hne k hk
    apply Nat.eq_of_testBit_eq
    intro q
    rw [h3, Nat.zero_testBit, List.any_eq_false]
    intro i hi hc
    simp only [hits, decide_eq_true_eq, Bool.or_eq_true] at hc
    apply hne
    rw [hext]
    exact ⟨i, hi, by rcases hc with h | h <;> omega⟩
  have h15 : Int.land ((bm.map Int.ofNat)[15]?.getD 0) 1 ≠ 1 := by
    rw [getD_map_ofNat]
    have e : Int.land ((bm[15]?.getD 0 : Nat) : Int) 1 = ((bm[15]?.getD 0 &&& 2 ^ 0 : Nat) : Int) :=
      land_cast _ 1
    rw [e]
    intro hc
    have hc2 : bm[15]?.getD 0 &&& 2 ^ 0 = 2 ^ 0 := by exact_mod_cast hc
    rw [and_two_pow_iff, h3, List.any_eq_true] at hc2
    obtain ⟨i, hi, hc3⟩ := hc2
    have := hS i hi
    simp only [hits, decide_eq_true_eq, Bool.or_eq_true] at hc3
    rcases hc3 with h | h <;> omega
  obtain ⟨bv, hfl, _, hbv⟩ := flagLoop_ok (bm.map Int.ofNat) (by simpa using h16) h15
  refine ⟨(rendered bm).flatMap hexByte, bv, ?_, ?_, fun n => ?_⟩
  · unfold encodeSet
    rw [e, Option.some_bind, bitmapHexLoop_eq bm h16]
    rfl
  · unfold decodeFlags
    have hb := buildBitmap_hex tbl [] [] bm h16 hlt
    simp only [List.nil_append, List.append_nil, List.length_nil, Nat.cast_zero] at hb
    rw [hb, Option.some_bind, decoded_eq bm h16 hz, hfl]
  · rw [hbv, flagOf_ofNat, Bool.and_eq_true, decide_eq_true_eq, h3, List.any_eq_true]
    constructor
    · rintro ⟨hn, i, hi, hc⟩
      have := hS i hi
      simp only [hits, decide_eq_true_eq, Bool.or_eq_true] at hc
      have : i = n := by rcases hc with h | h <;> omega
      rw [← this]
      exact hi
    · intro hn
      have := hS n hn
      refine ⟨by omega, n, hn, ?_⟩
      simp only [hits, decide_eq_true_eq, Bool.or_eq_true]
      exact Or.inl ⟨trivial, trivial⟩

/-! ## Bitmap and round trip claims -/

theorem flatMap_filter_wire (m : Message) :
    ∀ l : List StructField, (∀ f ∈ l, m.Field f.pos = [] → wire m f = []) →
      l.flatMap (wire m) = (l.filter (fun f => decide (m.Field f.pos ≠ []))).flatMap (wire m) := by
  intro l
  induction l with
  | nil => intro _; rfl
  | cons f l ih =>
    intro h
    have ih2 := ih (fun g hg => h g (List.mem_cons_of_mem _ hg))
    by_cases hv : m.Field f.pos = []
    · rw [List.flatMap_cons, h f (List.mem_cons_self _ _) hv, List.nil_append,
        List.filter_cons_of_neg (by simpa using hv)]
      exact ih2
    · rw [List.flatMap_cons, List.filter_cons_of_pos (by simpa using hv), List.flatMap_cons, ih2]

theorem wire_empty (m : Message) (f : StructField) (h : m.Field f.pos = []) : wire m f = [] := by
  simp [wire, getFieldValue, h]

theorem hex_length (l : List Nat) (hb : ∀ b ∈ l, b < 256) :
    (l.flatMap hexByte).length = 2 * l.length := by
  induction l with
  | nil => rfl
  | cons b l ih =>
    rw [List.flatMap_cons, List.length_append, (hexByte_facts b (hb b (List.mem_cons_self _ _))).1,
      ih (fun x hx => hb x (List.mem_cons_of_mem _ hx)), List.length_cons]
    omega

theorem rendered_length (bm : List Nat) (h16 : bm.length = 16) :
    (rendered bm).length = if bm[0]?.getD 0 &&& 128 = 128 then 16 else 8 := by
  unfold rendered
  rw [List.length_take, h16]
  split <;> rfl

/-- C4: in the bitmap of `Bytes`, for every `i` from 2 to 128 the bit of
entry `(i - 1) / 8` at position `((i - 1) % 8) + 1` (position 1 is value 128,
so position `p` is bit `8 - p`) is set exactly when the field of the struct
with index `i` has a non-empty value; the secondary flag, position 1 of
entry 0, is set exactly when a field with index above 64 is non-empty; the
16 entries are bytes, so there is no other bit; the entries that are not
rendered are 0; a field with an empty value puts nothing in the data. -/
theorem bitmap_bits (m : Message) :
    ∃ data bitmap, bytesLoop m fields ([], List.replicate 16 0) = some (data, bitmap)
      ∧ bitmap.length = 16
      ∧ Bytes m false = some (m.MTI ++ (rendered bitmap).flatMap hexByte ++ data, none)
      ∧ (∀ b ∈ bitmap, b < 256 ∧ hexByte b = [digitChar (b / 16), digitChar (b % 16)])
      ∧ (∀ i, 2 ≤ i → i ≤ 128 →
          ((bitmap[(i - 1) / 8]?.getD 0).testBit (7 - (i - 1) % 8) = true
            ↔ ∃ f ∈ fields, f.index = i ∧ m.Field f.pos ≠ []))
      ∧ ((bitmap[0]?.getD 0).testBit 7 = true
            ↔ ∃ f ∈ fields, 64 < f.index ∧ m.Field f.pos ≠ [])
      ∧ (rendered bitmap = bitmap
          ∨ (rendered bitmap = bitmap.take 8 ∧ ∀ k, 8 ≤ k → bitmap[k]?.getD 0 = 0))
      ∧ data = (fields.filter (fun f => decide (m.Field f.pos ≠ []))).flatMap
          (fun f => getFieldValue f (m.Field f.pos))
      ∧ ∀ f ∈ fields, m.Field f.pos = [] → getFieldValue f (m.Field f.pos) = [] := by
  obtain ⟨bm, hloop, h16, h3⟩ := encode_spec m
  have hB := Bytes_of_loop m _ bm hloop h16 false
  rw [if_neg (by decide)] at hB
  have hlt := encode_entry_lt m bm h3
  refine ⟨_, bm, hloop, h16, hB, fun b hb => ⟨hlt b hb, (hexByte_facts b (hlt b hb)).2.2.1⟩,
    fun i h2 _ => encode_bit m bm h3 i h2, ?_, ?_, ?_, fun f _ hv => wire_empty m f hv⟩
  · rw [← and_two_pow_iff]
    exact encode_secondary m bm h3
  · by_cases h : bm[0]?.getD 0 &&& 128 = 128
    · left
      unfold rendered
      rw [if_pos h, List.take_of_length_le (by omega)]
    · right
      refine ⟨?_, encode_high_zero m bm h3 h⟩
      unfold rendered
      rw [if_neg h]
  · exact flatMap_filter_wire m fields (fun f _ hv => wire_empty m f hv)

/-- C5: the bitmap part of `Bytes` is made of upper-case hex digits, it has
16 of them exactly when no field with index above 64 has a non-empty value
and 32 of them exactly when one has. -/
theorem extension_trigger (m : Message) :
    ∃ data bitmap bitmapHex,
      bytesLoop m fields ([], List.replicate 16 0) = some (data, bitmap)
      ∧ bitmapHexLoop bitmap 16 0 [] = some bitmapHex
      ∧ Bytes m false = some (m.MTI ++ bitmapHex ++ data, none)
      ∧ Bytes m true = some (sprintfD 4 (m.MTI ++ bitmapHex ++ data).length
          ++ (m.MTI ++ bitmapHex ++ data), none)
      ∧ (∀ c ∈ bitmapHex, c ∈ lit "0123456789ABCDEF")
      ∧ (bitmapHex.length = 16 ↔ ¬ ∃ f ∈ fields, 64 < f.index ∧ m.Field f.pos ≠ [])
      ∧ (bitmapHex.length = 32 ↔ ∃ f ∈ fields, 64 < f.index ∧ m.Field f.pos ≠ []) := by
  obtain ⟨bm, hloop, h16, h3⟩ := encode_spec m
  have hB := Bytes_of_loop m _ bm hloop h16 false
  rw [if_neg (by decide)] at hB
  have hT := Bytes_of_loop m _ bm hloop h16 true
  rw [if_pos rfl] at hT
  have hlt := encode_entry_lt m bm h3
  have hrl : ∀ b ∈ rendered bm, b < 256 := fun b hb => hlt b (List.mem_of_mem_take hb)
  have hlen := hex_length (rendered bm) hrl
  rw [rendered_length bm h16] at hlen
  have hsec := encode_secondary m bm h3
  refine ⟨_, bm, (rendered bm).flatMap hexByte, hloop, ?_, hB, hT, ?_, ?_, ?_⟩
  · rw [bitmapHexLoop_eq bm h16]
    rfl
  · intro c hc
    rw [List.mem_flatMap] at hc
    obtain ⟨b, hb, hcb⟩ := hc
    exact (hexByte_facts b (hrl b hb)).2.2.2 c hcb
  · rw [hlen, ← hsec]
    by_cases h : bm[0]?.getD 0 &&& 128 = 128
    · simp [h]
    · simp [h]
  · rw [hlen, ← hsec]
    by_cases h : bm[0]?.getD 0 &&& 128 = 128
    · simp [h]
    · simp [h]

set_option maxRecDepth 100000 in
/-- Counterexample to C2: the message with MTI "2200", field 3 = "31" and
field 4 = "50000" encodes to 42 bytes that load with a nil error into a
message whose field 3 is "000031", not "31"; and the message with MTI "2200"
and no field encodes to 20 bytes, which `Load` rejects as too small. -/
theorem load_bytes_not_identity :
    (Bytes { MTI := lit "2200", ProcessingCode := lit "31", Amount := lit "50000" } false
        = some (lit "220030000000000000000000310000000000050000", none)
      ∧ (∀ tbl, Load tbl {} (lit "220030000000000000000000310000000000050000") false
        = some
          ({ MTI := lit "2200", ProcessingCode := lit "000031", Amount := lit "0000000000050000" },
            none))
      ∧ lit "000031" ≠ lit "31")
    ∧ (Bytes { MTI := lit "2200" } false = some (lit "22000000000000000000", none)
      ∧ ∀ tbl, Load tbl {} (lit "22000000000000000000") false
        = some ({}, some GoError.tooSmall)) := by
  refine ⟨⟨by rfl, fun _ => by rfl, by decide⟩, by rfl, fun _ => by rfl⟩

/-- C2 as amended: for every message whose MTI is in the registry, whose
field values are no longer than the length of their field, whose non-empty
Fixed values have exactly the length of their field, `Bytes(false)` returns
bytes with a nil error and, when these are at least 24, `Load` of them into
an empty message returns nil and gives the message back, field by field. -/
theorem load_bytes_roundtrip (tbl : Nat → Nat) (m : Message) (hmti : m.MTI ∈ ValidMTI)
    (hlen : ∀ f ∈ fields, (m.Field f.pos).length ≤ f.length)
    (hfix : ∀ f ∈ fields, f.siz = sizeFixed → m.Field f.pos ≠ [] →
      (m.Field f.pos).length = f.length) :
    ∃ bs, Bytes m false = some (bs, none)
      ∧ (24 ≤ bs.length → Load tbl {} bs false = some (m, none)) :=
  Load_Bytes tbl m hmti hlen hfix

set_option maxRecDepth 100000 in
/-- Witness of C2 as amended: MTI "2200", field 3 = "000031", field 32 =
"12345". -/
theorem load_bytes_roundtrip_witness :
    ∃ bs, Bytes { MTI := lit "2200", ProcessingCode := lit "000031", Bit32 := lit "12345" } false
        = some (bs, none)
      ∧ (24 ≤ bs.length → Load id {} bs false
        = some ({ MTI := lit "2200", ProcessingCode := lit "000031", Bit32 := lit "12345" },
            none)) :=
  load_bytes_roundtrip id
    { MTI := lit "2200", ProcessingCode := lit "000031", Bit32 := lit "12345" }
    (by decide) (by decide) (by decide)

set_option maxRecDepth 100000 in
/-- C3 on the code: the set that holds index 128 is encoded to the 32 hex
digits "80000000000000000000000000000001", on which the flag loops of
`buildValues` write `bitmapValues[128]` in a slice of 128 entries: the
decoder panics, also inside `Load`.  For every set of indices from 2 to 127
the round trip flags exactly the set, index 0 and 1 never. -/
theorem bitmap_roundtrip_panics_at_128 :
    encodeSet [128] = some (lit "80000000000000000000000000000001")
    ∧ (∀ tbl, decodeFlags tbl (lit "80000000000000000000000000000001") = none)
    ∧ (∀ tbl m, Load tbl m (lit "2200" ++ lit "80000000000000000000000000000001") false
        = none)
    ∧ ∀ tbl S, (∀ i ∈ S, 2 ≤ i ∧ i ≤ 127) →
        ∃ hex bv, encodeSet S = some hex ∧ decodeFlags tbl hex = some bv
          ∧ ∀ n, bv[n]?.getD false = true ↔ n ∈ S := by
  refine ⟨by rfl, fun _ => by rfl, fun _ _ => by rfl, fun tbl S hS => set_roundtrip tbl S hS⟩

/-! ## The field loop of `buildValues` as a state machine -/

theorem runFields_stopped (source : Str) (bv : List Bool) (fs : List StructField)
    (m : Message) :
    runFields source bv fs (LoopState.stopped m) = some (LoopState.stopped m) := by
  cases fs <;> rfl

/-- The loop of the model is the iteration of `fieldStep`. -/
theorem buildValuesLoop_run (source : Str) (bv : List Bool) :
    ∀ (fs : List StructField) (m : Message) (offset : Int),
      buildValuesLoop source bv fs m offset
        = (runFields source bv fs (LoopState.running m offset)).map LoopState.message := by
  intro fs
  induction fs with
  | nil => intro m offset; rfl
  | cons f fs ih =>
    intro m offset
    rw [buildValuesLoop_cons]
    simp only [runFields, fieldStep]
    cases index bv (f.index : Int) with
    | none => rfl
    | some flag =>
      simp only [Option.some_bind]
      cases flag with
      | false => simp [ih, runFields]
      | true =>
        simp only [if_true]
        by_cases h1 : f.siz = sizeLLVAR
        · simp only [h1, if_true]
          cases slice source offset (offset + 2) with
          | none => rfl
          | some p =>
            simp only [Option.some_bind]
            by_cases h2 : btoi p > f.length ∨ btoi p = 0
            · simp only [h2, if_true, Option.some_bind, ih]
            · simp only [h2, if_false]
              cases slice source (offset + 2) (offset + 2 + btoi p) with
              | none => rfl
              | some v => simp only [Option.some_bind, ih]
        · simp only [h1, if_false]
          by_cases h3 : f.siz = sizeLLLVAR
          · simp only [h3, if_true]
            cases slice source offset (offset + 3) with
            | none => rfl
            | some p =>
              simp only [Option.some_bind]
              by_cases h2 : btoi p > f.length ∨ btoi p = 0
              · simp only [h2, if_true, Option.some_bind, ih]
              · simp only [h2, if_false]
                by_cases h4 : offset + 3 + btoi p > source.length
                · simp only [h4, if_true, Option.some_bind, runFields_stopped]
                  rfl
                · simp only [h4, if_false]
                  cases slice source (offset + 3) (offset + 3 + btoi p) with
                  | none => rfl
                  | some v => simp only [Option.some_bind, ih]
          · simp only [h3, if_false]
            cases slice source offset (offset + f.length) with
            | none => rfl
            | some v => simp only [Option.some_bind, ih]

theorem runFields_append (source : Str) (bv : List Bool) :
    ∀ (pre rest : List StructField) (st : LoopState),
      runFields source bv (pre ++ rest) st
        = (runFields source bv pre st).bind (runFields source bv rest) := by
  intro pre
  induction pre with
  | nil => intro rest st; rfl
  | cons f pre ih =>
    intro rest st
    cases st with
    | stopped m =>
      rw [List.cons_append, runFields_stopped, runFields_stopped, Option.some_bind,
        runFields_stopped]
    | running m offset =>
      simp only [List.cons_append, runFields]
      cases fieldStep source bv f m offset with
      | none => rfl
      | some st2 => exact ih rest st2

/-- What one iteration does to the message: nothing, or the assignment of a
value it decodes for a flagged field. -/
theorem fieldStep_cases (source : Str) (bv : List Bool) (f : StructField) (m : Message)
    (offset : Int) (st : LoopState) (h : fieldStep source bv f m offset = some st) :
    st.message = m
      ∨ (index bv (f.index : Int) = some true ∧ ∃ value offset1, decodesAt source f offset value
          ∧ st = LoopState.running (m.SetString f.pos value) offset1) := by
  unfold fieldStep at h
  cases hflag : index bv (f.index : Int) with
  | none => rw [hflag] at h; simp at h
  | some flag =>
    rw [hflag, Option.some_bind] at h
    cases flag with
    | false =>
      simp only [Bool.false_eq_true, if_false, Option.some.injEq] at h
      left; rw [← h]; rfl
    | true =>
      simp only [if_true] at h
      by_cases h1 : f.siz = sizeLLVAR
      · simp only [h1, if_true] at h
        cases hp : slice source offset (offset + 2) with
        | none => rw [hp] at h; simp at h
        | some p =>
          rw [hp, Option.some_bind] at h
          by_cases h2 : btoi p > f.length ∨ btoi p = 0
          · simp only [h2, if_true, Option.some.injEq] at h
            left; rw [← h]; rfl
          · simp only [h2, if_false] at h
            cases hv : slice source (offset + 2) (offset + 2 + btoi p) with
            | none => rw [hv] at h; simp at h
            | some v =>
              rw [hv, Option.some_bind, Option.some.injEq] at h
              right
              refine ⟨rfl, v, _, ?_, h.symm⟩
              unfold decodesAt
              rw [if_pos h1]
              exact ⟨p, hp, h2, hv⟩
      · simp only [h1, if_false] at h
        by_cases h3 : f.siz = sizeLLLVAR
        · simp only [h3, if_true] at h
          cases hp : slice source offset (offset + 3) with
          | none => rw [hp] at h; simp at h
          | some p =>
            rw [hp, Option.some_bind] at h
            by_cases h2 : btoi p > f.length ∨ btoi p = 0
            · simp only [h2, if_true, Option.some.injEq] at h
              left; rw [← h]; rfl
            · simp only [h2, if_false] at h
              by_cases h4 : offset + 3 + btoi p > source.length
              · simp only [h4, if_true, Option.some.injEq] at h
                left; rw [← h]; rfl
              · simp only [h4, if_false] at h
                cases hv : slice source (offset + 3) (offset + 3 + btoi p) with
                | none => rw [hv] at h; simp at h
                | some v =>
                  rw [hv, Option.some_bind, Option.some.injEq] at h
                  right
                  refine ⟨rfl, v, _, ?_, h.symm⟩
                  unfold decodesAt
                  rw [if_neg h1, if_pos h3]
                  exact ⟨p, hp, h2, h4, hv⟩
        · simp only [h3, if_false] at h
          cases hv : slice source offset (offset + f.length) with
          | none => rw [hv] at h; simp at h
          | some v =>
            rw [hv, Option.some_bind, Option.some.injEq] at h
            right
            refine ⟨rfl, v, _, ?_, h.symm⟩
            unfold decodesAt
            rw [if_neg h1, if_neg h3]
            exact hv

/-- Frame of the field loop: a struct field whose number is that of no
flagged field of the list keeps its value. -/
theorem runFields_frame (source : Str) (bv : List Bool) (p : Nat) :
    ∀ (fs : List StructField) (st st1 : LoopState),
      runFields source bv fs st = some st1 →
      (∀ f ∈ fs, f.pos = p → index bv (f.index : Int) = some false) →
      st1.message.Field p = st.message.Field p := by
  intro fs
  induction fs with
  | nil =>
    intro st st1 h _
    simp only [runFields, Option.some.injEq] at h
    rw [h]
  | cons f fs ih =>
    intro st st1 h hp
    cases st with
    | stopped m =>
      rw [runFields_stopped, Option.some.injEq] at h
      rw [← h]
    | running m offset =>
      simp only [runFields] at h
      cases hs : fieldStep source bv f m offset with
      | none => rw [hs] at h; simp at h
      | some st2 =>
        rw [hs, Option.some_bind] at h
        have h2 := ih st2 st1 h (fun g hg => hp g (List.mem_cons_of_mem _ hg))
        rw [h2]
        rcases fieldStep_cases source bv f m offset st2 hs with h3 | ⟨hfl, v, o1, _, h3⟩
        · rw [h3]; rfl
        · rw [h3]
          show (m.SetString f.pos v).Field p = m.Field p
          rw [Field_SetString, if_neg]
          rintro ⟨hpe, _⟩
          have := hp f (List.mem_cons_self _ _) hpe.symm
          rw [hfl] at this
          simp at this

theorem withMTI_eq (m : Message) (x : Str) : ({ m with MTI := x } : Message) = m.SetString 0 x :=
  rfl

theorem Field_withMTI (m : Message) (x : Str) (p : Nat) (hp : p ≠ 0) :
    ({ m with MTI := x } : Message).Field p = m.Field p := by
  rw [withMTI_eq, Field_SetString, if_neg]
  rintro ⟨h, _⟩
  exact hp h

/-- Method `Load` on a buffer of at least 24 bytes with an MTI of the
registry: the bitmap, the flags, then the field loop. -/
theorem Load_run (tbl : Nat → Nat) (m : Message) (source : Str) (hasLength : Bool)
    (h24 : 24 ≤ source.length) (hm : mtiOf source hasLength ∈ ValidMTI) :
    Load tbl m source hasLength
      = (buildBitmap tbl source (bitmapOffset hasLength)).bind fun r =>
          (flagLoop r.2).bind fun bv =>
            (runFields source bv fields
              (LoopState.running { m with MTI := mtiOf source hasLength }
                (bitmapOffset hasLength + r.1.length))).map fun st => (st.message, none) := by
  rw [Load_valid tbl m source hasLength h24 hm]
  unfold bitmapOffset
  cases buildBitmap tbl source ((if hasLength = true then 4 else 0) + 4) with
  | none => rfl
  | some r =>
    simp only [Option.some_bind, buildValues]
    cases flagLoop r.2 with
    | none => rfl
    | some bv =>
      simp only [Option.some_bind, buildValuesLoop_run, Option.map_map]
      rfl

/-- When `Load` returns nil, it has gone through the bitmap, the flags and
the field loop. -/
theorem Load_nil_run (tbl : Nat → Nat) (m m1 : Message) (source : Str) (hasLength : Bool)
    (h : Load tbl m source hasLength = some (m1, none)) :
    24 ≤ source.length ∧ mtiOf source hasLength ∈ ValidMTI ∧
      ∃ r bv st, buildBitmap tbl source (bitmapOffset hasLength) = some r
        ∧ flagLoop r.2 = some bv
        ∧ runFields source bv fields
            (LoopState.running { m with MTI := mtiOf source hasLength }
              (bitmapOffset hasLength + r.1.length)) = some st
        ∧ st.message = m1 := by
  by_cases hs : source.length < 24
  · rw [Load_short tbl m source hasLength hs] at h
    simp at h
  · by_cases hm : mtiOf source hasLength ∈ ValidMTI
    · refine ⟨by omega, hm, ?_⟩
      rw [Load_run tbl m source hasLength (by omega) hm] at h
      cases hb : buildBitmap tbl source (bitmapOffset hasLength) with
      | none => rw [hb] at h; simp at h
      | some r =>
        rw [hb, Option.some_bind] at h
        cases hf : flagLoop r.2 with
        | none => rw [hf] at h; simp at h
        | some bv =>
          rw [hf, Option.some_bind] at h
          cases hr : runFields source bv fields
              (LoopState.running { m with MTI := mtiOf source hasLength }
                (bitmapOffset hasLength + r.1.length)) with
          | none => rw [hr] at h; simp at h
          | some st =>
            rw [hr] at h
            simp only [Option.map_some', Option.some.injEq, Prod.mk.injEq, and_true] at h
            exact ⟨r, bv, st, rfl, hf, hr, h⟩
    · rw [Load_invalid tbl m source hasLength (by omega) hm] at h
      simp at h

/-- A struct field that the field loop changes was flagged and decoded, and
holds the value decoded. -/
theorem runFields_changed (source : Str) (bv : List Bool) (p : Nat) :
    ∀ (fs : List StructField) (st st1 : LoopState),
      runFields source bv fs st = some st1 →
      st1.message.Field p ≠ st.message.Field p →
      ∃ f ∈ fs, f.pos = p ∧ index bv (f.index : Int) = some true
        ∧ ∃ offset, decodesAt source f offset (st1.message.Field p) := by
  intro fs
  induction fs with
  | nil =>
    intro st st1 h hne
    simp only [runFields, Option.some.injEq] at h
    rw [h] at hne
    exact absurd rfl hne
  | cons f fs ih =>
    intro st st1 h hne
    cases st with
    | stopped m =>
      rw [runFields_stopped, Option.some.injEq] at h
      rw [← h] at hne
      exact absurd rfl hne
    | running m offset =>
      simp only [runFields] at h
      cases hs : fieldStep source bv f m offset with
      | none => rw [hs] at h; simp at h
      | some st2 =>
        rw [hs, Option.some_bind] at h
        by_cases h2 : st1.message.Field p = st2.message.Field p
        · rcases fieldStep_cases source bv f m offset st2 hs with h3 | ⟨hfl, v, o1, hd, h3⟩
          · rw [h2, h3] at hne
            exact absurd rfl hne
          · have h4 : st2.message.Field p = (m.SetString f.pos v).Field p := by rw [h3]; rfl
            rw [Field_SetString] at h4
            by_cases hc : p = f.pos ∧ f.pos ≤ 27
            · rw [if_pos hc] at h4
              refine ⟨f, List.mem_cons_self _ _, hc.1.symm, hfl, offset, ?_⟩
              rw [h2, h4]
              exact hd
            · rw [if_neg hc] at h4
              rw [h2, h4] at hne
              exact absurd rfl hne
        · obtain ⟨g, hg, hgp, hgf, hgd⟩ := ih st2 st1 h h2
          exact ⟨g, List.mem_cons_of_mem _ hg, hgp, hgf, hgd⟩

theorem fields_pos_nodup : (fields.map (fun f => f.pos)).Nodup := by
  decide

theorem split_pos (pre fs : List StructField) (f : StructField)
    (h : fields = pre ++ f :: fs) :
    (∀ g ∈ pre, g.pos ≠ f.pos) ∧ (∀ g ∈ fs, g.pos ≠ f.pos) := by
  have hn := fields_pos_nodup
  rw [h, List.map_append, List.map_cons, List.nodup_append] at hn
  obtain ⟨_, h2, h3⟩ := hn
  rw [List.nodup_cons] at h2
  constructor
  · intro g hg he
    exact h3 (List.mem_map_of_mem _ hg) (by rw [he]; exact List.mem_cons_self _ _)
  · intro g hg he
    exact h2.1 (by rw [← he]; exact List.mem_map_of_mem _ hg)

theorem split_disjoint (pre rest : List StructField) (h : fields = pre ++ rest) :
    ∀ a ∈ pre, ∀ b ∈ rest, a.pos ≠ b.pos := by
  have hn := fields_pos_nodup
  rw [h, List.map_append, List.nodup_append] at hn
  intro a ha b hb he
  exact hn.2.2 (List.mem_map_of_mem _ ha) (by rw [he]; exact List.mem_map_of_mem _ hb)

/-! ## Skipped fields, the schema, the flag loops and the LLLVAR overrun -/

theorem btoi_of_error (q : Str) (h : Atoi q = none) : btoi q = 0 := by
  simp [btoi, h]

/-- C20: the tagged fields of `Message` are declared in strictly ascending
index order, which is the order in which `Bytes` concatenates the field data
and `buildValues` walks the buffer; every index is from 2 to 128 and none is
1, every length is positive, every LLVAR length is at most 99 and every
LLLVAR length at most 999. -/
theorem schema_well_formed :
    (fields.map (fun f => f.index)).Pairwise (fun a b => a < b)
    ∧ (∀ f ∈ fields, 2 ≤ f.index ∧ f.index ≤ 128 ∧ f.index ≠ 1 ∧ 0 < f.length
        ∧ (f.siz = sizeLLVAR → f.length ≤ 99) ∧ (f.siz = sizeLLLVAR → f.length ≤ 999))
    ∧ (∀ m, ∃ bitmap, bytesLoop m fields ([], List.replicate 16 0)
        = some (fields.flatMap (fun f => getFieldValue f (m.Field f.pos)), bitmap))
    ∧ (∀ m source bitmaps offset, buildValues m source bitmaps offset
        = (flagLoop bitmaps).bind fun bv =>
            (buildValuesLoop source bv fields m offset).map fun m1 => (m1, none)) := by
  refine ⟨by decide, by decide, fun m => ?_, fun _ _ _ _ => rfl⟩
  obtain ⟨bm, h, _⟩ := encode_spec m
  exact ⟨bm, h⟩

set_option maxRecDepth 100000 in
/-- C16 on the code: the flag loops panic on every 16-entry bitmap whose
last entry has its last bit (position 8, value 1, field 128) set, because
they write `bitmapValues[128]` in a slice of 128 entries.  On every other
16-entry bitmap they mark index `i * 8 + p` exactly when bit position `p`
(value `2 ^ (8 - p)`) of entry `i` is set, for the indices from 2 on, and
never index 0 or 1. -/
theorem flag_loop_mapping :
    flagLoop [0, 0, 0, 0, 0, 0, 0, 0, 0, 0, 0, 0, 0, 0, 0, 1] = none
    ∧ (∀ bitmaps : List Int, bitmaps.length = 16 →
        Int.land (bitmaps[15]?.getD 0) 1 = 1 → flagLoop bitmaps = none)
    ∧ ∀ bitmaps : List Int, bitmaps.length = 16 →
        Int.land (bitmaps[15]?.getD 0) 1 ≠ 1 →
        ∃ bv, flagLoop bitmaps = some bv ∧ bv.length = 128
          ∧ bv[0]?.getD false = false ∧ bv[1]?.getD false = false
          ∧ ∀ i p, i < 16 → 1 ≤ p → p ≤ 8 → 2 ≤ i * 8 + p →
              (bv[i * 8 + p]?.getD false = true
                ↔ Int.land (bitmaps[i]?.getD 0) (2 ^ (8 - p)) = 2 ^ (8 - p)) := by
  refine ⟨by rfl, fun bitmaps h16 h15 => flagLoop_panic bitmaps h16 h15,
    fun bitmaps h16 h15 => ?_⟩
  obtain ⟨bv, e, l, t⟩ := flagLoop_ok bitmaps h16 h15
  refine ⟨bv, e, l, by rw [t]; rfl, by rw [t]; rfl, fun i p hi hp1 hp8 h2 => ?_⟩
  have e1 : (i * 8 + p - 1) / 8 = i := by omega
  have e2 : 7 - (i * 8 + p - 1) % 8 = 8 - p := by omega
  rw [t, flagOf, e1, e2, Bool.and_eq_true, decide_eq_true_eq, decide_eq_true_eq]
  constructor
  · exact fun h => h.2
  · intro h
    refine ⟨⟨h2, ?_⟩, h⟩
    by_contra hc
    have hi15 : i = 15 := by omega
    have hp : p = 8 := by omega
    subst hi15 hp
    exact h15 h

theorem fieldStep_overrun (source : Str) (bv : List Bool) (f : StructField) (m : Message)
    (offset : Int) (p : Str) (hflag : index bv (f.index : Int) = some true)
    (hs : f.siz = sizeLLLVAR) (hp : slice source offset (offset + 3) = some p)
    (h1 : 1 ≤ btoi p) (h2 : btoi p ≤ f.length)
    (hov : offset + 3 + btoi p > source.length) :
    fieldStep source bv f m offset = some (LoopState.stopped m) := by
  have hn : f.siz ≠ sizeLLVAR := by rw [hs]; decide
  have hc : ¬ (btoi p > f.length ∨ btoi p = 0) := by omega
  unfold fieldStep
  rw [hflag, Option.some_bind, if_pos rfl, if_neg hn, if_pos hs, hp, Option.some_bind]
  simp only [hc, if_false, hov, if_true]

theorem fieldStep_skip (source : Str) (bv : List Bool) (f : StructField) (m : Message)
    (offset : Int) (p : Str) (hflag : index bv (f.index : Int) = some true)
    (hp : (f.siz = sizeLLVAR ∧ slice source offset (offset + 2) = some p)
      ∨ (f.siz = sizeLLLVAR ∧ slice source offset (offset + 3) = some p))
    (hc : btoi p > f.length ∨ btoi p = 0) :
    ∃ offset1, fieldStep source bv f m offset = some (LoopState.running m offset1) := by
  unfold fieldStep
  rcases hp with ⟨hs, hp⟩ | ⟨hs, hp⟩
  · rw [hflag, Option.some_bind, if_pos rfl, if_pos hs, hp, Option.some_bind]
    simp only [hc, if_true]
    exact ⟨_, rfl⟩
  · have hn : f.siz ≠ sizeLLVAR := by rw [hs]; decide
    rw [hflag, Option.some_bind, if_pos rfl, if_neg hn, if_pos hs, hp, Option.some_bind]
    simp only [hc, if_true]
    exact ⟨_, rfl⟩

/-- C14: when the field loop of `Load` reaches a flagged LLLVAR field whose
3-byte prefix parses to `n` with `1 <= n <= length` and `offset + 3 + n` is
beyond the buffer, `Load` returns nil with the message as the loop has it at
that point: the fields decoded before keep their values, and neither that
field nor a later one is assigned. -/
theorem lllvar_overrun_stops (tbl : Nat → Nat) (m : Message) (source : Str)
    (hasLength : Bool) (r : Str × List Int) (bv : List Bool)
    (pre fs : List StructField) (f : StructField) (mi : Message) (offi : Int) (p : Str)
    (h24 : 24 ≤ source.length) (hmti : mtiOf source hasLength ∈ ValidMTI)
    (hb : buildBitmap tbl source (bitmapOffset hasLength) = some r)
    (hfl : flagLoop r.2 = some bv)
    (hsplit : fields = pre ++ f :: fs)
    (hrun : runFields source bv pre
        (LoopState.running { m with MTI := mtiOf source hasLength }
          (bitmapOffset hasLength + r.1.length)) = some (LoopState.running mi offi))
    (hflag : index bv (f.index : Int) = some true) (hs : f.siz = sizeLLLVAR)
    (hp : slice source offi (offi + 3) = some p)
    (h1 : 1 ≤ btoi p) (h2 : btoi p ≤ f.length)
    (hov : offi + 3 + btoi p > source.length) :
    Load tbl m source hasLength = some (mi, none)
      ∧ (∀ g ∈ f :: fs, mi.Field g.pos = m.Field g.pos)
      ∧ ∀ fs1 m1, buildValuesLoop source bv (f :: fs1) m1 offi = some m1 := by
  refine ⟨?_, fun g hg => ?_, fun fs1 m1 => ?_⟩
  · rw [Load_run tbl m source hasLength h24 hmti, hb, Option.some_bind, hfl, Option.some_bind,
      hsplit, runFields_append, hrun, Option.some_bind]
    simp only [runFields]
    rw [fieldStep_overrun source bv f mi offi p hflag hs hp h1 h2 hov, Option.some_bind,
      runFields_stopped]
    rfl
  · have hfr := runFields_frame source bv g.pos pre _ _ hrun
      (fun a ha he => absurd he (split_disjoint pre (f :: fs) hsplit a ha g hg))
    have hg1 : g ∈ fields := by rw [hsplit]; exact List.mem_append_right _ hg
    have hpos := (fields_facts g hg1).2.2.2.1
    simp only [LoopState.message] at hfr
    rw [hfr, Field_withMTI _ _ _ (by omega)]
  · rw [buildValuesLoop_run]
    simp only [runFields]
    rw [fieldStep_overrun source bv f m1 offi p hflag hs hp h1 h2 hov, Option.some_bind,
      runFields_stopped]
    rfl

/-- C19: when `Load` returns nil, the message has the MTI read from the
buffer; every field of the struct whose index is not flagged in the bitmap
of the buffer has the value it had before the call; so has every flagged
LLVAR or LLLVAR field that the loop reaches and skips as malformed; and a
field whose value is not the one it had before was flagged and decoded, and
holds the value decoded. -/
theorem load_never_clears (tbl : Nat → Nat) (m m1 : Message) (source : Str)
    (hasLength : Bool) (h : Load tbl m source hasLength = some (m1, none)) :
    ∃ r bv, buildBitmap tbl source (bitmapOffset hasLength) = some r
      ∧ flagLoop r.2 = some bv
      ∧ m1.MTI = mtiOf source hasLength
      ∧ (∀ f ∈ fields, index bv (f.index : Int) = some false →
          m1.Field f.pos = m.Field f.pos)
      ∧ (∀ pre f fs mi offi p, fields = pre ++ f :: fs →
          runFields source bv pre
            (LoopState.running { m with MTI := mtiOf source hasLength }
              (bitmapOffset hasLength + r.1.length)) = some (LoopState.running mi offi) →
          index bv (f.index : Int) = some true →
          ((f.siz = sizeLLVAR ∧ slice source offi (offi + 2) = some p)
            ∨ (f.siz = sizeLLLVAR ∧ slice source offi (offi + 3) = some p)) →
          (btoi p > f.length ∨ btoi p = 0) →
          m1.Field f.pos = m.Field f.pos)
      ∧ (∀ f ∈ fields, m1.Field f.pos ≠ m.Field f.pos →
          index bv (f.index : Int) = some true
            ∧ ∃ offset, decodesAt source f offset (m1.Field f.pos)) := by
  obtain ⟨_, _, r, bv, st, hb, hfl, hrun, hst⟩ := Load_nil_run tbl m m1 source hasLength h
  have hmti : m1.MTI = mtiOf source hasLength := by
    have h0 := runFields_frame source bv 0 fields _ _ hrun (fun f hf he => by
      have := (fields_facts f hf).2.2.2.1
      omega)
    rw [hst] at h0
    exact h0
  refine ⟨r, bv, hb, hfl, hmti, fun f hf hflag => ?_, ?_, fun f hf hne => ?_⟩
  · have hpos := (fields_facts f hf).2.2.2.1
    have h0 := runFields_frame source bv f.pos fields _ _ hrun (fun g hg he => by
      have hgf : g = f := by
        have hn := fields_pos_nodup
        exact List.inj_on_of_nodup_map hn hg hf he
      rw [hgf]
      exact hflag)
    rw [hst] at h0
    simp only [LoopState.message] at h0
    rw [h0, Field_withMTI _ _ _ (by omega)]
  · intro pre f fs mi offi p hsplit hpre hflag hp hc
    have hf : f ∈ fields := by rw [hsplit]; simp
    have hpos := (fields_facts f hf).2.2.2.1
    obtain ⟨hd1, hd2⟩ := split_pos pre fs f hsplit
    obtain ⟨o1, hstep⟩ := fieldStep_skip source bv f mi offi p hflag hp hc
    rw [hsplit, runFields_append, hpre, Option.some_bind] at hrun
    simp only [runFields] at hrun
    rw [hstep, Option.some_bind] at hrun
    have h1 := runFields_frame source bv f.pos fs _ _ hrun (fun g hg he => absurd he (hd2 g hg))
    have h2 := runFields_frame source bv f.pos pre _ _ hpre (fun g hg he => absurd he (hd1 g hg))
    rw [hst] at h1
    simp only [LoopState.message] at h1 h2
    rw [h1, h2, Field_withMTI _ _ _ (by omega)]
  · have hpos := (fields_facts f hf).2.2.2.1
    have hne2 : st.message.Field f.pos
        ≠ (LoopState.running { m with MTI := mtiOf source hasLength }
            (bitmapOffset hasLength + r.1.length)).message.Field f.pos := by
      rw [hst]
      have hw := Field_withMTI m (mtiOf source hasLength) f.pos (by omega)
      simp only [LoopState.message]
      rw [hw]
      exact hne
    obtain ⟨g, hg, hgp, hgf, off, hgd⟩ :=
      runFields_changed source bv f.pos fields _ _ hrun hne2
    have hgf2 : g = f := List.inj_on_of_nodup_map fields_pos_nodup hg hf hgp
    subst hgf2
    rw [hst] at hgd
    exact ⟨hgf, off, hgd⟩

set_option maxRecDepth 100000 in
/-- Witness of C14: MTI "2200", fields 3 and 47 flagged, field 3 = "123456",
then the prefix "010" of field 47 with 3 bytes left. -/
theorem lllvar_overrun_stops_witness :
    Load id {} (lit "22002000000000020000123456010ABC") false
      = some ({ MTI := lit "2200", ProcessingCode := lit "123456" }, none) :=
  (lllvar_overrun_stops id {} (lit "22002000000000020000123456010ABC") false
    (lit "2000000000020000", [32, 0, 0, 0, 0, 2, 0, 0, 0, 0, 0, 0, 0, 0, 0, 0])
    (((List.replicate 128 false).set 3 true).set 47 true)
    (fields.take 19) (fields.drop 20) ⟨"Buffer", 20, 47, 999, "AN", "LLLVAR"⟩
    { MTI := lit "2200", ProcessingCode := lit "123456" } 26 (lit "010")
    (by decide) (by decide) (by rfl) (by rfl) (by rfl) (by rfl) (by rfl) (by rfl) (by rfl)
    (by decide) (by decide) (by decide)).1

set_option maxRecDepth 100000 in
/-- Witness of C19: a message with field 4 = "777" loads a buffer that flags
field 3 only. -/
theorem load_never_clears_witness :
    ∃ r bv, buildBitmap id (lit "22002000000000000000123456") (bitmapOffset false) = some r
      ∧ flagLoop r.2 = some bv
      ∧ ({ MTI := lit "2200", ProcessingCode := lit "123456", Amount := lit "777" } : Message).MTI
          = mtiOf (lit "22002000000000000000123456") false :=
  match load_never_clears id { Amount := lit "777" }
      { MTI := lit "2200", ProcessingCode := lit "123456", Amount := lit "777" }
      (lit "22002000000000000000123456") false (by rfl) with
  | ⟨r, bv, h1, h2, h3, _⟩ => ⟨r, bv, h1, h2, h3⟩

/-! ## Length-prefixed framing -/

theorem formatNat_four (n : Nat) (h1 : 1000 ≤ n) (h2 : n < 10000) :
    formatNat 10 n = [48 + n / 1000, 48 + n / 100 % 10, 48 + n / 10 % 10, 48 + n % 10] := by
  obtain ⟨k, rfl⟩ : ∃ k, n = k + 3 := ⟨n - 3, by omega⟩
  rw [formatNat, digitsAux_ge _ _ _ _ (by omega), digitsAux_ge _ _ _ _ (by omega),
    digitsAux_ge _ _ _ _ (by omega), digitsAux_lt _ _ _ _ (by omega),
    digitChar_dec _ (by omega), digitChar_dec _ (by omega), digitChar_dec _ (by omega),
    digitChar_dec _ (by omega), Nat.div_div_eq_div_mul, Nat.div_div_eq_div_mul,
    Nat.div_div_eq_div_mul]

/-- The verb `%04d` on a number below 10000: exactly four digits. -/
theorem sprintfD_four (n : Nat) (h : n ≤ 9999) :
    sprintfD 4 n = [48 + n / 1000, 48 + n / 100 % 10, 48 + n / 10 % 10, 48 + n % 10] := by
  by_cases h1 : n < 10
  · have a : n / 1000 = 0 := by omega
    have b : n / 100 % 10 = 0 := by omega
    have c : n / 10 % 10 = 0 := by omega
    have d : n % 10 = n := by omega
    simp [sprintfD, formatNat_one n h1, a, b, c, d]
  · by_cases h2 : n < 100
    · have a : n / 1000 = 0 := by omega
      have b : n / 100 % 10 = 0 := by omega
      have c : n / 10 % 10 = n / 10 := by omega
      simp [sprintfD, formatNat_two n (by omega) h2, a, b, c]
    · by_cases h3 : n < 1000
      · have a : n / 1000 = 0 := by omega
        have b : n / 100 % 10 = n / 100 := by omega
        simp [sprintfD, formatNat_three n (by omega) h3, a, b]
      · simp [sprintfD, formatNat_four n (by omega) (by omega)]

theorem Atoi_four (a b c d : Nat) (ha : a < 10) (hb : b < 10) (hc : c < 10) (hd : d < 10) :
    Atoi [48 + a, 48 + b, 48 + c, 48 + d]
      = some ((1000 * a + 100 * b + 10 * c + d : Nat) : Int) := by
  have d1 : decVal (48 + a) = some a := by
    simp [decVal]; omega
  have d2 : decVal (48 + b) = some b := by
    simp [decVal]; omega
  have d3 : decVal (48 + c) = some c := by
    simp [decVal]; omega
  have d4 : decVal (48 + d) = some d := by
    simp [decVal]; omega
  have n1 : ¬ (48 + a = 43) := by omega
  have n2 : ¬ (48 + a = 45) := by omega
  have hp : parseSigned 10 decVal [48 + a, 48 + b, 48 + c, 48 + d]
      = some ((1000 * a + 100 * b + 10 * c + d : Nat) : Int) := by
    simp [parseSigned, parseDigits, d1, d2, d3, d4, n1, n2]
    omega
  exact Atoi_of_parse _ _ hp (by omega)

theorem wire_length_le (m : Message) (f : StructField) (hf : f ∈ fields) :
    (wire m f).length ≤ maxWire f := by
  obtain ⟨_, _, hl, _, _, hs⟩ := fields_facts f hf
  by_cases hv : m.Field f.pos = []
  · rw [wire_empty m f hv]
    exact Nat.zero_le _
  · have ht : ((m.Field f.pos).take f.length).length ≤ f.length := by
      rw [List.length_take]; omega
    unfold wire maxWire
    rw [getFieldValue_of_ne f _ hv]
    rcases hs with hs | ⟨hs, hb⟩ | ⟨hs, hb⟩
    · rw [if_pos hs]
      split <;> simp only [List.length_append, List.length_replicate] <;> omega
    · have n1 : f.siz ≠ sizeFixed := by rw [hs]; decide
      rw [if_neg n1, if_pos hs, if_pos hs, sprintfD_two _ (by omega)]
      simp only [List.length_append, List.length_cons, List.length_nil]
      omega
    · have n1 : f.siz ≠ sizeFixed := by rw [hs]; decide
      have n2 : f.siz ≠ sizeLLVAR := by rw [hs]; decide
      rw [if_neg n1, if_neg n2, if_pos hs, if_neg n2, if_pos hs, sprintfD_three _ (by omega)]
      simp only [List.length_append, List.length_cons, List.length_nil]
      omega

theorem data_length_le (m : Message) :
    ∀ l : List StructField, (∀ f ∈ l, f ∈ fields) →
      (l.flatMap (wire m)).length ≤ (l.map maxWire).sum := by
  intro l
  induction l with
  | nil => intro _; exact Nat.le_refl _
  | cons f l ih =>
    intro h
    rw [List.flatMap_cons, List.length_append, List.map_cons, List.sum_cons]
    have h1 := wire_length_le m f (h f (List.mem_cons_self _ _))
    have h2 := ih (fun g hg => h g (List.mem_cons_of_mem _ hg))
    omega

theorem maxWire_sum : (fields.map maxWire).sum = 5545 := by decide

/-- C15: for every message with an MTI of 4 bytes, `Bytes(false)` returns at
most 5581 bytes, so at most 9999, and `Bytes(true)` returns the same bytes
after the 4 decimal digits of their number, as `%04d` prints it and as
`Atoi` reads it back. -/
theorem framing_prefix (m : Message) (hm : m.MTI.length = 4) :
    ∃ bs, Bytes m false = some (bs, none)
      ∧ bs.length ≤ 5581 ∧ bs.length ≤ 9999
      ∧ Bytes m true = some (sprintfD 4 bs.length ++ bs, none)
      ∧ sprintfD 4 bs.length
          = [48 + bs.length / 1000, 48 + bs.length / 100 % 10, 48 + bs.length / 10 % 10,
              48 + bs.length % 10]
      ∧ (sprintfD 4 bs.length).length = 4
      ∧ Atoi (sprintfD 4 bs.length) = some (bs.length : Int) := by
  obtain ⟨bm, hloop, h16, h3⟩ := encode_spec m
  have hB := Bytes_of_loop m _ bm hloop h16 false
  rw [if_neg (by decide)] at hB
  have hT := Bytes_of_loop m _ bm hloop h16 true
  rw [if_pos rfl] at hT
  have hlt := encode_entry_lt m bm h3
  have hrl : ∀ b ∈ rendered bm, b < 256 := fun b hb => hlt b (List.mem_of_mem_take hb)
  have hlen := hex_length (rendered bm) hrl
  have hr16 : (rendered bm).length ≤ 16 := by
    rw [rendered_length bm h16]; split <;> omega
  have hd := data_length_le m fields (fun f hf => hf)
  rw [maxWire_sum] at hd
  have hbound : (m.MTI ++ (rendered bm).flatMap hexByte ++ fields.flatMap (wire m)).length
      ≤ 5581 := by
    rw [List.length_append, List.length_append, hm, hlen]
    omega
  have h4 := sprintfD_four _ (by omega :
    (m.MTI ++ (rendered bm).flatMap hexByte ++ fields.flatMap (wire m)).length ≤ 9999)
  refine ⟨_, hB, hbound, by omega, hT, h4, by rw [h4]; rfl, ?_⟩
  rw [h4, Atoi_four _ _ _ _ (by omega) (by omega) (by omega) (by omega)]
  congr 2
  omega

set_option maxRecDepth 100000 in
/-- Witness of C15: the message of the end-to-end scenario. -/
theorem framing_prefix_witness :
    ∃ bs, Bytes { MTI := lit "2200", ProcessingCode := lit "31", Amount := lit "50000" } false
        = some (bs, none)
      ∧ Bytes { MTI := lit "2200", ProcessingCode := lit "31", Amount := lit "50000" } true
        = some (sprintfD 4 bs.length ++ bs, none) :=
  match framing_prefix { MTI := lit "2200", ProcessingCode := lit "31", Amount := lit "50000" }
      (by rfl) with
  | ⟨bs, h1, _, _, h4, _⟩ => ⟨bs, h1, h4⟩

/-! ## The normalising round trip -/

theorem Field_ofFields (g : Nat → Str) (p : Nat) (hp : p ≤ 27) :
    (Message.ofFields g).Field p = g p := by
  interval_cases p <;> rfl

theorem fieldAt_pos : ∀ f ∈ fields, fieldAt f.pos = some f := by
  intro f hf
  simp only [fields, List.mem_cons, List.mem_singleton, List.not_mem_nil, or_false] at hf
  rcases hf with rfl | rfl | rfl | rfl | rfl | rfl | rfl | rfl | rfl | rfl | rfl | rfl | rfl
    | rfl | rfl | rfl | rfl | rfl | rfl | rfl | rfl | rfl | rfl | rfl | rfl | rfl | rfl <;> rfl

theorem normalize_MTI (m : Message) : (normalize m).MTI = m.MTI := rfl

theorem normalize_Field (m : Message) :
    ∀ f ∈ fields, (normalize m).Field f.pos = normalForm f (m.Field f.pos) := by
  intro f hf
  have hp := (fields_facts f hf).2.2.2.2.1
  unfold normalize
  rw [Field_ofFields _ _ hp, fieldAt_pos f hf]

theorem take_ne_nil (v : Str) (L : Nat) (hv : v ≠ []) (hL : 1 ≤ L) : v.take L ≠ [] := by
  cases v with
  | nil => exact absurd rfl hv
  | cons a l =>
    obtain ⟨k, rfl⟩ : ∃ k, L = k + 1 := ⟨L - 1, by omega⟩
    simp

theorem normalForm_nil (f : StructField) : normalForm f [] = [] := by
  simp [normalForm]

/-- The normal form of a value of a field of the struct: within the length,
of exactly the length when Fixed and not empty, empty only for an empty
value, and encoded as the value is. -/
theorem normalForm_facts (f : StructField) (hf : f ∈ fields) (v : Str) :
    (normalForm f v).length ≤ f.length
      ∧ (f.siz = sizeFixed → normalForm f v ≠ [] → (normalForm f v).length = f.length)
      ∧ (normalForm f v = [] ↔ v = [])
      ∧ getFieldValue f (normalForm f v) = getFieldValue f v := by
  obtain ⟨_, _, hl, _, _, hs⟩ := fields_facts f hf
  by_cases hv : v = []
  · subst hv
    rw [normalForm_nil]
    simp
  · have ht := take_ne_nil v f.length hv hl
    have htl : (v.take f.length).length ≤ f.length := by rw [List.length_take]; omega
    rcases hs with hs | ⟨hs, hb⟩ | ⟨hs, hb⟩
    · by_cases hty : f.typ = typeNumeric
      · have e : normalForm f v
            = List.replicate (f.length - (v.take f.length).length) 48 ++ v.take f.length := by
          simp [normalForm, hv, hs, hty]
        have hne : normalForm f v ≠ [] := by rw [e]; simp [ht]
        have hlen : (normalForm f v).length = f.length := by
          rw [e, List.length_append, List.length_replicate]; omega
        refine ⟨by omega, fun _ _ => hlen, ⟨fun h => absurd h hne, fun h => absurd h hv⟩, ?_⟩
        rw [wire_fixed f _ hs hne hlen, getFieldValue_of_ne f v hv, if_pos hs, if_pos hty, e]
      · have e : normalForm f v
            = v.take f.length ++ List.replicate (f.length - (v.take f.length).length) 32 := by
          simp [normalForm, hv, hs, hty]
        have hne : normalForm f v ≠ [] := by rw [e]; simp [ht]
        have hlen : (normalForm f v).length = f.length := by
          rw [e, List.length_append, List.length_replicate]; omega
        refine ⟨by omega, fun _ _ => hlen, ⟨fun h => absurd h hne, fun h => absurd h hv⟩, ?_⟩
        rw [wire_fixed f _ hs hne hlen, getFieldValue_of_ne f v hv, if_pos hs, if_neg hty, e]
    · have n1 : f.siz ≠ sizeFixed := by rw [hs]; decide
      have e : normalForm f v = v.take f.length := by simp [normalForm, hv, n1]
      rw [e]
      refine ⟨htl, fun h => absurd h n1, ⟨fun h => absurd h ht, fun h => absurd h hv⟩, ?_⟩
      rw [getFieldValue_of_ne f _ ht, getFieldValue_of_ne f v hv, List.take_take, Nat.min_self]
    · have n1 : f.siz ≠ sizeFixed := by rw [hs]; decide
      have e : normalForm f v = v.take f.length := by simp [normalForm, hv, n1]
      rw [e]
      refine ⟨htl, fun h => absurd h n1, ⟨fun h => absurd h ht, fun h => absurd h hv⟩, ?_⟩
      rw [getFieldValue_of_ne f _ ht, getFieldValue_of_ne f v hv, List.take_take, Nat.min_self]

theorem wire_normalize (m : Message) (f : StructField) (hf : f ∈ fields) :
    wire (normalize m) f = wire m f := by
  unfold wire
  rw [normalize_Field m f hf]
  exact (normalForm_facts f hf _).2.2.2

theorem bytesLoop_congr (m m1 : Message) :
    ∀ (fs : List StructField) (st : Str × List Nat), (∀ f ∈ fs, wire m f = wire m1 f) →
      bytesLoop m fs st = bytesLoop m1 fs st := by
  intro fs
  induction fs with
  | nil => intro st _; rfl
  | cons f fs ih =>
    intro st h
    have e1 : bytesStep m f st = bytesStep m1 f st := by
      rw [bytesStep_eq, bytesStep_eq, h f (List.mem_cons_self _ _)]
    have e2 : bytesLoop m fs = bytesLoop m1 fs :=
      funext fun st2 => ih st2 (fun g hg => h g (List.mem_cons_of_mem _ hg))
    show (bytesStep m f st).bind (bytesLoop m fs) = (bytesStep m1 f st).bind (bytesLoop m1 fs)
    rw [e1, e2]

/-- The bytes of `Bytes` depend on the message through its MTI and what its
fields put on the wire only. -/
theorem Bytes_congr (m m1 : Message) (hm : m.MTI = m1.MTI)
    (h : ∀ f ∈ fields, wire m f = wire m1 f) (withLength : Bool) :
    Bytes m withLength = Bytes m1 withLength := by
  unfold Bytes
  rw [bytesLoop_congr m m1 fields _ h, hm]

/-- The bytes that `Bytes` builds without the length are between 20 and 5581
when the MTI has 4 bytes. -/
theorem body_length (m : Message) (bm : List Nat) (hm : m.MTI.length = 4) (h16 : bm.length = 16)
    (h3 : ∀ k q, (bm[k]?.getD 0).testBit q
          = fields.any (fun f => decide (wire m f ≠ []) && hits f.index k q)) :
    20 ≤ (m.MTI ++ (rendered bm).flatMap hexByte ++ fields.flatMap (wire m)).length
      ∧ (m.MTI ++ (rendered bm).flatMap hexByte ++ fields.flatMap (wire m)).length ≤ 5581 := by
  have hlt := encode_entry_lt m bm h3
  have hrl : ∀ b ∈ rendered bm, b < 256 := fun b hb => hlt b (List.mem_of_mem_take hb)
  have hlen := hex_length (rendered bm) hrl
  have hr16 : 8 ≤ (rendered bm).length ∧ (rendered bm).length ≤ 16 := by
    rw [rendered_length bm h16]; split <;> omega
  have hd := data_length_le m fields (fun f hf => hf)
  rw [maxWire_sum] at hd
  rw [List.length_append, List.length_append, hm, hlen]
  omega

/-- Round trip of `Load` on the bytes that `Bytes` builds, after a prefix of
4 bytes when `hasLength` is true, for a message with a registered MTI,
values within the lengths and Fixed values of exactly the length. -/
theorem Load_encoded (tbl : Nat → Nat) (m : Message) (pfx : Str) (hasLength : Bool)
    (hp : pfx.length = if hasLength then 4 else 0)
    (hmti : m.MTI ∈ ValidMTI)
    (hlen : ∀ f ∈ fields, (m.Field f.pos).length ≤ f.length)
    (hfix : ∀ f ∈ fields, f.siz = sizeFixed → m.Field f.pos ≠ [] →
      (m.Field f.pos).length = f.length)
    (bm : List Nat) (h16 : bm.length = 16)
    (h3 : ∀ k q, (bm[k]?.getD 0).testBit q
          = fields.any (fun f => decide (wire m f ≠ []) && hits f.index k q))
    (h24 : 24 ≤ (pfx ++ (m.MTI ++ (rendered bm).flatMap hexByte
        ++ fields.flatMap (wire m))).length) :
    Load tbl {} (pfx ++ (m.MTI ++ (rendered bm).flatMap hexByte ++ fields.flatMap (wire m)))
      hasLength = some (m, none) := by
  have hm4 := ValidMTI_length m.MTI hmti
  have hmo : mtiOf (pfx ++ (m.MTI ++ (rendered bm).flatMap hexByte ++ fields.flatMap (wire m)))
      hasLength = m.MTI := by
    unfold mtiOf
    rw [List.drop_left' hp, List.append_assoc]
    exact List.take_left' hm4
  rw [Load_valid tbl {} _ hasLength h24 (by rw [hmo]; exact hmti), hmo]
  have hoff : ((if hasLength = true then (4 : Int) else 0) + 4)
      = (((pfx ++ m.MTI).length : Nat) : Int) := by
    rw [List.length_append, hm4, hp]
    cases hasLength <;> rfl
  have hsrc0 : pfx ++ (m.MTI ++ (rendered bm).flatMap hexByte ++ fields.flatMap (wire m))
      = (pfx ++ m.MTI) ++ (rendered bm).flatMap hexByte ++ fields.flatMap (wire m) := by
    simp only [List.append_assoc]
  rw [hoff, hsrc0, buildBitmap_hex tbl (pfx ++ m.MTI) _ bm h16 (encode_entry_lt m bm h3),
    Option.some_bind, decoded_eq bm h16 (encode_high_zero m bm h3)]
  obtain ⟨bv, hfl, hflags⟩ := flags_of_encode m bm h16 h3
  unfold buildValues
  rw [hfl, Option.some_bind]
  have hwf : ∀ f ∈ fields, wellFormed m f := fun f hf =>
    ⟨(fields_facts f hf).2.2.2.2.2, hlen f hf, hfix f hf⟩
  have hsrc : (pfx ++ m.MTI) ++ (rendered bm).flatMap hexByte ++ fields.flatMap (wire m)
      = ((pfx ++ m.MTI) ++ (rendered bm).flatMap hexByte) ++ fields.flatMap (wire m) ++ [] := by
    simp
  have hoff2 : (((pfx ++ m.MTI).length : Nat) : Int)
        + (((rendered bm).flatMap hexByte).length : Nat)
      = ((((pfx ++ m.MTI) ++ (rendered bm).flatMap hexByte).length : Nat) : Int) := by
    rw [List.length_append ((pfx ++ m.MTI))]; push_cast; rfl
  have hm0 : ({ ({} : Message) with MTI := m.MTI } : Message) = { MTI := m.MTI } := rfl
  rw [hm0, hoff2, hsrc, buildValuesLoop_roundtrip m bv [] fields _ _ hflags hwf,
    Option.map_some', assigned_fields]

/-- C17: for every message `m` with a registered MTI, `Bytes` returns bytes
with a nil error, framed and unframed; `Load` of the framed bytes with
`hasLength = true` into an empty message, and `Load` of the unframed bytes
with `hasLength = false` when they are at least 24, return nil and the same
message `m1`: it has the MTI of `m` and, for each field of the struct, the
normal form of the value of `m` (empty when empty, cut at the length and
padded to exactly the length when Fixed, cut at the length when LLVAR or
LLLVAR); `Bytes` of `m1` gives the same bytes as `Bytes` of `m`.  Field 3 =
"31" has the normal form "000031". -/
theorem normalising_roundtrip (tbl : Nat → Nat) (m : Message) (hmti : m.MTI ∈ ValidMTI) :
    ∃ bsU bsF m1, Bytes m false = some (bsU, none) ∧ Bytes m true = some (bsF, none)
      ∧ Load tbl {} bsF true = some (m1, none)
      ∧ (24 ≤ bsU.length → Load tbl {} bsU false = some (m1, none))
      ∧ m1.MTI = m.MTI
      ∧ (∀ f ∈ fields, m1.Field f.pos = normalForm f (m.Field f.pos))
      ∧ (∀ f ∈ fields, m.Field f.pos = [] → m1.Field f.pos = [])
      ∧ (∀ f ∈ fields, f.siz = sizeFixed → m.Field f.pos ≠ [] →
          (m1.Field f.pos).length = f.length)
      ∧ (∀ f ∈ fields, f.siz ≠ sizeFixed → m1.Field f.pos = (m.Field f.pos).take f.length)
      ∧ Bytes m1 false = Bytes m false ∧ Bytes m1 true = Bytes m true
      ∧ normalForm ⟨"ProcessingCode", 1, 3, 6, typeNumeric, sizeFixed⟩ (lit "31")
          = lit "000031" := by
  obtain ⟨bm, hloop, h16, h3⟩ := encode_spec (normalize m)
  have hN : (normalize m).MTI ∈ ValidMTI := by rw [normalize_MTI]; exact hmti
  have hN4 : (normalize m).MTI.length = 4 := ValidMTI_length _ hN
  have hBf := Bytes_of_loop (normalize m) _ bm hloop h16 false
  rw [if_neg (by decide)] at hBf
  have hBt := Bytes_of_loop (normalize m) _ bm hloop h16 true
  rw [if_pos rfl] at hBt
  have hc : ∀ w, Bytes m w = Bytes (normalize m) w := fun w =>
    Bytes_congr m (normalize m) (normalize_MTI m).symm
      (fun f hf => (wire_normalize m f hf).symm) w
  have hb := body_length (normalize m) bm hN4 h16 h3
  have hlenN : ∀ f ∈ fields, ((normalize m).Field f.pos).length ≤ f.length := by
    intro f hf
    rw [normalize_Field m f hf]
    exact (normalForm_facts f hf _).1
  have hfixN : ∀ f ∈ fields, f.siz = sizeFixed → (normalize m).Field f.pos ≠ [] →
      ((normalize m).Field f.pos).length = f.length := by
    intro f hf
    rw [normalize_Field m f hf]
    exact (normalForm_facts f hf _).2.1
  have h4 : (sprintfD 4 ((normalize m).MTI ++ (rendered bm).flatMap hexByte
      ++ fields.flatMap (wire (normalize m))).length).length = 4 := by
    rw [sprintfD_four _ (by omega)]; rfl
  refine ⟨_, _, normalize m, (hc false).trans hBf, (hc true).trans hBt, ?_, ?_,
    normalize_MTI m, normalize_Field m, ?_, ?_, ?_, (hc false).symm, (hc true).symm, by rfl⟩
  · exact Load_encoded tbl (normalize m) (sprintfD 4 _) true (by rw [h4]; rfl) hN hlenN hfixN
      bm h16 h3 (by rw [List.length_append, h4]; omega)
  · intro h24
    exact Load_encoded tbl (normalize m) [] false rfl hN hlenN hfixN bm h16 h3 h24
  · intro f hf he
    rw [normalize_Field m f hf, he, normalForm_nil]
  · intro f hf hs hne
    rw [normalize_Field m f hf]
    exact (normalForm_facts f hf _).2.1 hs
      (fun h => hne ((normalForm_facts f hf _).2.2.1.mp h))
  · intro f hf hs
    rw [normalize_Field m f hf]
    by_cases hv : m.Field f.pos = []
    · rw [hv, normalForm_nil, List.take_nil]
    · simp [normalForm, hv, hs]

set_option maxRecDepth 100000 in
/-- Witness of C17: the message of the end-to-end scenario, MTI "2200",
field 3 = "31", field 4 = "50000"; the loaded message has field 3 =
"000031" and field 4 = "0000000000050000". -/
theorem normalising_roundtrip_witness :
    ∃ bsF m1,
      Bytes { MTI := lit "2200", ProcessingCode := lit "31", Amount := lit "50000" } true
        = some (bsF, none)
      ∧ Load id {} bsF true = some (m1, none)
      ∧ m1.ProcessingCode = lit "000031" ∧ m1.Amount = lit "0000000000050000" :=
  match normalising_roundtrip id
      { MTI := lit "2200", ProcessingCode := lit "31", Amount := lit "50000" } (by decide) with
  | ⟨_, bsF, m1, _, h2, h3, _, _, h6, _⟩ =>
    ⟨bsF, m1, h2, h3,
      h6 ⟨"ProcessingCode", 1, 3, 6, typeNumeric, sizeFixed⟩ (by decide),
      h6 ⟨"Amount", 2, 4, 16, typeNumeric, sizeFixed⟩ (by decide)⟩

/-! ## Reads outside the buffer -/

theorem fieldStep_fixed_short (source : Str) (bv : List Bool) (f : StructField) (m : Message)
    (offset : Int) (hflag : index bv (f.index : Int) = some true) (hs : f.siz = sizeFixed)
    (hshort : (source.length : Int) < offset + f.length) :
    fieldStep source bv f m offset = none := by
  have n1 : f.siz ≠ sizeLLVAR := by rw [hs]; decide
  have n2 : f.siz ≠ sizeLLLVAR := by rw [hs]; decide
  have hsl : slice source offset (offset + f.length) = none := by
    unfold slice
    rw [if_neg (by omega)]
  unfold fieldStep
  rw [hflag, Option.some_bind, if_pos rfl, if_neg n1, if_neg n2, hsl]
  rfl

set_option maxRecDepth 100000 in
/-- C11 on the code: `Load` panics on buffers of at least 24 bytes with a
registered MTI.  In turn: the secondary flag is set and the buffer ends
after the primary bitmap, so the read of the secondary bitmap is out of
range; field 32 (LLVAR) is flagged and only one byte is left for its
2-byte prefix; the prefix of field 32 says 9 and 2 bytes are left; the
prefix of field 32 is "-1", which `Atoi` reads as -1, so the value slice has
its end before its start; field 4 (Fixed, 16 bytes) is flagged and 4 bytes
are left; bit 128 is set and the flag loop writes `bitmapValues[128]` in a
table of 128 entries.  On every buffer under 24 bytes `Load` returns the
error "too small". -/
theorem load_not_total :
    (∀ tbl m, Load tbl m (lit "2200" ++ lit "8000000000000000" ++ lit "0000") false = none)
    ∧ (∀ tbl m, Load tbl m (lit "0021" ++ lit "2200" ++ lit "0000000100000000" ++ lit "1") true
        = none)
    ∧ (∀ tbl m, Load tbl m (lit "2200" ++ lit "0000000100000000" ++ lit "09AB") false = none)
    ∧ (∀ tbl m, Load tbl m (lit "2200" ++ lit "0000000100000000" ++ lit "-1AB") false = none)
    ∧ (∀ tbl m, Load tbl m (lit "2200" ++ lit "1000000000000000" ++ lit "0000") false = none)
    ∧ (∀ tbl m, Load tbl m (lit "0810" ++ lit "80000000000000000000000000000001") false = none)
    ∧ ∀ tbl m source hasLength, source.length < 24 →
        Load tbl m source hasLength = some (m, some GoError.tooSmall) := by
  refine ⟨fun _ _ => by rfl, fun _ _ => by rfl, fun _ _ => by rfl, fun _ _ => by rfl,
    fun _ _ => by rfl, fun _ _ => by rfl,
    fun tbl m source hasLength h => Load_short tbl m source hasLength h⟩

set_option maxRecDepth 100000 in
/-- C12 on the code: a flagged Fixed field with fewer bytes left than its
length makes `Load` panic, neither an error nor nil is returned.  On the
buffer "2200" "2000000000000000" "1234" (field 3, 6 bytes, flagged, 4 bytes
left) `Load` panics; so does one iteration of the field loop on every
flagged Fixed field with `len(source) < offset + length`, and `Load` on
every buffer whose loop reaches such a field; and `buildValues` has no
error to return: whenever it returns, the error is nil. -/
theorem fixed_underrun_panics :
    (∀ tbl m, Load tbl m (lit "2200" ++ lit "2000000000000000" ++ lit "1234") false = none)
    ∧ (∀ source bv f m offset, index bv (f.index : Int) = some true → f.siz = sizeFixed →
        (source.length : Int) < offset + f.length → fieldStep source bv f m offset = none)
    ∧ (∀ tbl m source hasLength r bv pre fs f mi offi,
        24 ≤ source.length → mtiOf source hasLength ∈ ValidMTI →
        buildBitmap tbl source (bitmapOffset hasLength) = some r →
        flagLoop r.2 = some bv → fields = pre ++ f :: fs →
        runFields source bv pre
          (LoopState.running { m with MTI := mtiOf source hasLength }
            (bitmapOffset hasLength + r.1.length)) = some (LoopState.running mi offi) →
        index bv (f.index : Int) = some true → f.siz = sizeFixed →
        (source.length : Int) < offi + f.length →
        Load tbl m source hasLength = none)
    ∧ ∀ m m1 source bitmaps offset e,
        buildValues m source bitmaps offset = some (m1, e) → e = none := by
  refine ⟨fun _ _ => by rfl,
    fun source bv f m offset hflag hs hshort =>
      fieldStep_fixed_short source bv f m offset hflag hs hshort, ?_,
    fun m m1 source bitmaps offset e h => buildValues_no_error m m1 source bitmaps offset e h⟩
  intro tbl m source hasLength r bv pre fs f mi offi h24 hmti hb hfl hsplit hrun hflag hs hshort
  rw [Load_run tbl m source hasLength h24 hmti, hb, Option.some_bind, hfl, Option.some_bind,
    hsplit, runFields_append, hrun, Option.some_bind]
  simp only [runFields]
  rw [fieldStep_fixed_short source bv f mi offi hflag hs hshort]
  rfl

/-! ## The length of the bitmap read -/

theorem slice_two (s : Str) (o : Nat) (h : o + 2 ≤ s.length) :
    slice s (o : Int) ((o : Int) + 2) = some ((s.drop o).take 2) := by
  unfold slice
  rw [if_pos ⟨by omega, by omega, by omega⟩]
  have h1 : ((o : Int)).toNat = o := by simp
  have h2 : ((o : Int) + 2 - o).toNat = 2 := by simp
  rw [h1, h2]

/-- The loop of `buildBitmap` without the early exit, on any buffer that
holds the pairs: it appends the bytes read and writes the entries parsed. -/
theorem buildBitmapLoop_read (source : Str) (mid : Int) :
    ∀ (n o k : Nat) (acc : Str) (bm : List Int),
      o + 2 * n ≤ source.length → k + n ≤ bm.length →
      ∃ bm1, buildBitmapLoop source mid false n o k acc bm
          = some (acc ++ (source.drop o).take (2 * n), bm1)
        ∧ bm1.length = bm.length
        ∧ (∀ j, j < k ∨ k + n ≤ j → bm1[j]? = bm[j]?)
        ∧ ∀ i, i < n → bm1[k + i]? = some (ParseInt16 ((source.drop (o + 2 * i)).take 2)) := by
  intro n
  induction n with
  | zero =>
    intro o k acc bm _ _
    refine ⟨bm, by simp [buildBitmapLoop], rfl, fun _ _ => rfl, fun i hi => absurd hi (by omega)⟩
  | succ n ih =>
    intro o k acc bm ho hk
    have hk1 : k < bm.length := by omega
    obtain ⟨bm1, e, l, hout, hin⟩ := ih (o + 2) (k + 1) (acc ++ (source.drop o).take 2)
      (bm.set k (ParseInt16 ((source.drop o).take 2))) (by omega) (by rw [List.length_set]; omega)
    have hoff : (o : Int) + 2 = ((o + 2 : Nat) : Int) := rfl
    have hkk : (k : Int) + 1 = ((k + 1 : Nat) : Int) := rfl
    refine ⟨bm1, ?_, by rw [l, List.length_set], fun j hj => ?_, fun i hi => ?_⟩
    · rw [buildBitmapLoop_step, slice_two source o (by omega), Option.some_bind,
        assign_nat _ _ _ hk1, Option.some_bind, if_neg (by simp), hoff, hkk, e]
      have ht : (source.drop o).take (2 * (n + 1))
          = (source.drop o).take 2 ++ (source.drop (o + 2)).take (2 * n) := by
        have : 2 * (n + 1) = 2 + 2 * n := by omega
        rw [this, List.take_add, List.drop_drop]
      rw [ht, List.append_assoc]
    · rw [hout j (by omega), List.getElem?_set_ne (by omega)]
    · cases i with
      | zero =>
        rw [Nat.add_zero, hout k (by omega), List.getElem?_set_self hk1]
        rfl
      | succ i =>
        have e1 : k + (i + 1) = k + 1 + i := by omega
        have e2 : o + 2 * (i + 1) = o + 2 + 2 * i := by omega
        rw [e1, e2]
        exact hin i (by omega)

/-- The loop of `buildBitmap` with the early exit, on any buffer that holds
the pairs up to the one at `mid`: it stops after that pair. -/
theorem buildBitmapLoop_read_mid (source : Str) :
    ∀ (c n o k : Nat) (acc : Str) (bm : List Int),
      c < n → o + 2 * (c + 1) ≤ source.length → k + (c + 1) ≤ bm.length →
      ∃ bm1, buildBitmapLoop source ((o : Int) + 2 * c) true n o k acc bm
          = some (acc ++ (source.drop o).take (2 * (c + 1)), bm1)
        ∧ bm1.length = bm.length
        ∧ (∀ j, j < k ∨ k + (c + 1) ≤ j → bm1[j]? = bm[j]?)
        ∧ ∀ i, i < c + 1 →
            bm1[k + i]? = some (ParseInt16 ((source.drop (o + 2 * i)).take 2)) := by
  intro c
  induction c with
  | zero =>
    intro n o k acc bm hn ho hk
    obtain ⟨n, rfl⟩ : ∃ n1, n = n1 + 1 := ⟨n - 1, by omega⟩
    have hk1 : k < bm.length := by omega
    refine ⟨bm.set k (ParseInt16 ((source.drop o).take 2)), ?_, List.length_set _ _ _,
      fun j hj => ?_, fun i hi => ?_⟩
    · rw [buildBitmapLoop_step, slice_two source o (by omega), Option.some_bind,
        assign_nat _ _ _ hk1, Option.some_bind, if_pos ⟨rfl, by simp⟩]
    · rw [List.getElem?_set_ne (by omega)]
    · have hi0 : i = 0 := by omega
      subst hi0
      rw [Nat.add_zero, List.getElem?_set_self hk1]
      rfl
  | succ c ih =>
    intro n o k acc bm hn ho hk
    obtain ⟨n, rfl⟩ : ∃ n1, n = n1 + 1 := ⟨n - 1, by omega⟩
    have hk1 : k < bm.length := by omega
    obtain ⟨bm1, e, l, hout, hin⟩ := ih n (o + 2) (k + 1) (acc ++ (source.drop o).take 2)
      (bm.set k (ParseInt16 ((source.drop o).take 2))) (by omega) (by omega)
      (by rw [List.length_set]; omega)
    have hoff : (o : Int) + 2 = ((o + 2 : Nat) : Int) := rfl
    have hkk : (k : Int) + 1 = ((k + 1 : Nat) : Int) := rfl
    have hmid : (o : Int) + 2 * ((c + 1 : Nat) : Int) = ((o + 2 : Nat) : Int) + 2 * (c : Int) := by
      push_cast; omega
    refine ⟨bm1, ?_, by rw [l, List.length_set], fun j hj => ?_, fun i hi => ?_⟩
    · rw [buildBitmapLoop_step, slice_two source o (by omega), Option.some_bind,
        assign_nat _ _ _ hk1, Option.some_bind,
        if_neg (by push_cast; omega), hoff, hkk, hmid, e]
      have ht : (source.drop o).take (2 * (c + 1 + 1))
          = (source.drop o).take 2 ++ (source.drop (o + 2)).take (2 * (c + 1)) := by
        have : 2 * (c + 1 + 1) = 2 + 2 * (c + 1) := by omega
        rw [this, List.take_add, List.drop_drop]
      rw [ht, List.append_assoc]
    · rw [hout j (by omega), List.getElem?_set_ne (by omega)]
    · cases i with
      | zero =>
        rw [Nat.add_zero, hout k (by omega), List.getElem?_set_self hk1]
        rfl
      | succ i =>
        have e1 : k + (i + 1) = k + 1 + i := by omega
        have e2 : o + 2 * (i + 1) = o + 2 + 2 * i := by omega
        rw [e1, e2]
        exact hin i (by omega)

theorem ToUpper_ascii_length (tbl : Nat → Nat) (s : Str) (h : ∀ c ∈ s, c < 128) :
    (ToUpper tbl s).length = s.length := by
  unfold ToUpper
  have h1 : s.all (fun c => decide (c < 128)) = true := by
    rw [List.all_eq_true]
    intro c hc
    simpa using h c hc
  rw [if_pos h1, List.length_map]

/-- Function `buildBitmap` on a buffer with 32 ASCII bytes from the offset:
32 bytes of hex and 16 entries parsed when the first pair has bit value 128,
16 bytes of hex, 8 entries parsed and 8 entries 0 otherwise. -/
theorem buildBitmap_ascii (tbl : Nat → Nat) (source : Str) (off : Nat)
    (h32 : off + 32 ≤ source.length) (hasc : ∀ c ∈ (source.drop off).take 32, c < 128) :
    ∃ hex bitmaps, buildBitmap tbl source off = some (hex, bitmaps) ∧ bitmaps.length = 16
      ∧ (Int.land (ParseInt16 ((source.drop off).take 2)) 128 = 128 →
          hex = ToUpper tbl ((source.drop off).take 32) ∧ hex.length = 32
          ∧ ∀ i, i < 16 → bitmaps[i]? = some (ParseInt16 ((source.drop (off + 2 * i)).take 2)))
      ∧ (Int.land (ParseInt16 ((source.drop off).take 2)) 128 ≠ 128 →
          hex = ToUpper tbl ((source.drop off).take 16) ∧ hex.length = 16
          ∧ (∀ i, i < 8 → bitmaps[i]? = some (ParseInt16 ((source.drop (off + 2 * i)).take 2)))
          ∧ ∀ i, 8 ≤ i → i < 16 → bitmaps[i]? = some 0) := by
  have hl32 : ((source.drop off).take 32).length = 32 := by
    rw [List.length_take, List.length_drop]; omega
  have hl16 : ((source.drop off).take 16).length = 16 := by
    rw [List.length_take, List.length_drop]; omega
  have hasc16 : ∀ c ∈ (source.drop off).take 16, c < 128 := by
    intro c hc
    have e : (source.drop off).take 16 = ((source.drop off).take 32).take 16 := by
      simp [List.take_take]
    rw [e] at hc
    exact hasc c (List.mem_of_mem_take hc)
  unfold buildBitmap
  simp only [slice_two source off (by omega), Option.some_bind]
  by_cases h : Int.land (ParseInt16 ((source.drop off).take 2)) 128 = 128
  · have hno : decide (Int.land (ParseInt16 ((source.drop off).take 2)) 128 ≠ 128) = false := by
      simp [h]
    obtain ⟨bm1, e, l, _, hin⟩ := buildBitmapLoop_read source ((off : Int) + 14) 16 off 0 []
      (List.replicate 16 0) (by omega) (by simp)
    simp only [Nat.cast_zero, List.nil_append] at e
    rw [hno, e, Option.map_some']
    refine ⟨_, _, rfl, by rw [l]; simp, fun _ => ⟨rfl, ?_, fun i hi => ?_⟩,
      fun hc => absurd h hc⟩
    · rw [ToUpper_ascii_length tbl _ hasc, hl32]
    · have := hin i hi
      rwa [Nat.zero_add] at this
  · have hno : decide (Int.land (ParseInt16 ((source.drop off).take 2)) 128 ≠ 128) = true := by
      simp [h]
    obtain ⟨bm1, e, l, hout, hin⟩ := buildBitmapLoop_read_mid source 7 16 off 0 []
      (List.replicate 16 0) (by omega) (by omega) (by simp)
    have hmid : (off : Int) + 2 * ((7 : Nat) : Int) = (off : Int) + 14 := by norm_num
    simp only [Nat.cast_zero, List.nil_append] at e
    rw [hmid] at e
    rw [hno, e, Option.map_some']
    refine ⟨_, _, rfl, by rw [l]; simp, fun hc => absurd hc h,
      fun _ => ⟨rfl, ?_, fun i hi => ?_, fun i h8 h16 => ?_⟩⟩
    · rw [ToUpper_ascii_length tbl _ hasc16, hl16]
    · have := hin i (by omega)
      rwa [Nat.zero_add] at this
    · rw [hout i (Or.inr (by omega)), List.getElem?_replicate, if_pos h16]

set_option maxRecDepth 100000 in
/-- C18 on the code: the hex text that `buildBitmap` returns is the bytes
read after `strings.ToUpper`, and `Load` adds its length to the offset; on
bytes that are not ASCII the length changes.  On the buffer "2200" "20"
0xFF 0xFF "000000000000" "ABCD123456789012" (36 bytes, 32 from the bitmap
offset 4, bit value 128 of the first pair clear) `buildBitmap` returns 20
bytes of hex, not 16, and `Load` reads field 3 from offset 24: "123456", not
"ABCD12" from offset 20.  When the 32 bytes from the offset are ASCII,
`buildBitmap` returns 32 bytes of hex and 16 entries parsed when the first
pair has bit value 128, and 16 bytes of hex, 8 entries parsed and 8 entries
0 when it has not; and on every buffer of at least 24 bytes with a
registered MTI the field loop of `Load` starts at the bitmap offset plus the
length of the hex text returned. -/
theorem bitmap_read_length :
    (∀ tbl, (buildBitmap tbl (lit "2200" ++ lit "20" ++ [255, 255] ++ lit "000000000000"
          ++ lit "ABCD123456789012") 4).map (fun r => r.1.length) = some 20)
    ∧ Int.land (ParseInt16 (lit "20")) 128 ≠ 128
    ∧ (∀ tbl, Load tbl {} (lit "2200" ++ lit "20" ++ [255, 255] ++ lit "000000000000"
          ++ lit "ABCD123456789012") false
        = some ({ MTI := lit "2200", ProcessingCode := lit "123456" }, none))
    ∧ (∀ tbl source (off : Nat), off + 32 ≤ source.length →
        (∀ c ∈ (source.drop off).take 32, c < 128) →
        ∃ hex bitmaps, buildBitmap tbl source off = some (hex, bitmaps) ∧ bitmaps.length = 16
          ∧ (Int.land (ParseInt16 ((source.drop off).take 2)) 128 = 128 →
              hex = ToUpper tbl ((source.drop off).take 32) ∧ hex.length = 32
              ∧ ∀ i, i < 16 →
                  bitmaps[i]? = some (ParseInt16 ((source.drop (off + 2 * i)).take 2)))
          ∧ (Int.land (ParseInt16 ((source.drop off).take 2)) 128 ≠ 128 →
              hex = ToUpper tbl ((source.drop off).take 16) ∧ hex.length = 16
              ∧ (∀ i, i < 8 →
                  bitmaps[i]? = some (ParseInt16 ((source.drop (off + 2 * i)).take 2)))
              ∧ ∀ i, 8 ≤ i → i < 16 → bitmaps[i]? = some 0))
    ∧ ∀ tbl m source hasLength, 24 ≤ source.length → mtiOf source hasLength ∈ ValidMTI →
        Load tbl m source hasLength
          = (buildBitmap tbl source (bitmapOffset hasLength)).bind fun r =>
              (flagLoop r.2).bind fun bv =>
                (runFields source bv fields
                  (LoopState.running { m with MTI := mtiOf source hasLength }
                    (bitmapOffset hasLength + r.1.length))).map fun st => (st.message, none) := by
  refine ⟨fun _ => by rfl, by decide, fun _ => by rfl,
    fun tbl source off h32 hasc => buildBitmap_ascii tbl source off h32 hasc,
    fun tbl m source hasLength h24 hm => Load_run tbl m source hasLength h24 hm⟩

/-! ## The skip rule for malformed variable fields -/

/-- One iteration on a flagged variable field whose prefix gives a length of
0 or above the length of the field: the message is kept and the offset
advances by the length read plus the width of the prefix. -/
theorem fieldStep_skip_exact (source : Str) (bv : List Bool) (f : StructField) (m : Message)
    (offset : Int) (p : Str) (w : Int) (hflag : index bv (f.index : Int) = some true)
    (hw : (f.siz = sizeLLVAR ∧ w = 2) ∨ (f.siz = sizeLLLVAR ∧ w = 3))
    (hp : slice source offset (offset + w) = some p)
    (hc : btoi p > f.length ∨ btoi p = 0) :
    fieldStep source bv f m offset = some (LoopState.running m (offset + (btoi p + w))) := by
  unfold fieldStep
  rcases hw with ⟨hs, rfl⟩ | ⟨hs, rfl⟩
  · rw [hflag, Option.some_bind, if_pos rfl, if_pos hs, hp, Option.some_bind]
    simp only [hc, if_true]
  · have hn : f.siz ≠ sizeLLVAR := by rw [hs]; decide
    rw [hflag, Option.some_bind, if_pos rfl, if_neg hn, if_pos hs, hp, Option.some_bind]
    simp only [hc, if_true]

/-- One iteration on a flagged Fixed field whose bytes are in the buffer. -/
theorem fieldStep_fixed_read (source : Str) (bv : List Bool) (g : StructField) (m : Message)
    (offset : Int) (value : Str) (hflag : index bv (g.index : Int) = some true)
    (hs : g.siz = sizeFixed)
    (hv : slice source offset (offset + g.length) = some value) :
    fieldStep source bv g m offset
      = some (LoopState.running (m.SetString g.pos value) (offset + g.length)) := by
  have n1 : g.siz ≠ sizeLLVAR := by rw [hs]; decide
  have n2 : g.siz ≠ sizeLLLVAR := by rw [hs]; decide
  unfold fieldStep
  rw [hflag, Option.some_bind, if_pos rfl, if_neg n1, if_neg n2, hv, Option.some_bind]

/-- The field loop passes over fields that are not flagged. -/
theorem runFields_unflagged (source : Str) (bv : List Bool) (m : Message) (offset : Int) :
    ∀ mid : List StructField, (∀ a ∈ mid, index bv (a.index : Int) = some false) →
      runFields source bv mid (LoopState.running m offset)
        = some (LoopState.running m offset) := by
  intro mid
  induction mid with
  | nil => intro _; rfl
  | cons a mid ih =>
    intro h
    have ha := h a (List.mem_cons_self _ _)
    have hstep : fieldStep source bv a m offset = some (LoopState.running m offset) := by
      unfold fieldStep
      rw [ha, Option.some_bind]
      rfl
    simp only [runFields]
    rw [hstep, Option.some_bind]
    exact ih (fun b hb => h b (List.mem_cons_of_mem _ hb))

/-- C13: when the field loop of `Load` reaches a flagged LLVAR field whose
2-byte prefix, or a flagged LLLVAR field whose 3-byte prefix (`w` is the
width, the prefix read in bounds), parses to `n` with `n = 0` or
`n > length`, the iteration keeps the message and moves the offset to
`offset + n + w`; `Load` is the rest of the loop from that state, so its
error, if it returns, is nil; the field has, there and in the message that
`Load` returns, the value it had before the call; the next flagged field is
processed from the same message at the advanced offset, and when it is Fixed
with its bytes in the buffer, it is assigned the bytes from
`offset + n + w`.  A prefix on which `Atoi` fails counts as 0: so "A1", and
a decimal number outside the range of `int`. -/
theorem skip_malformed_variable (tbl : Nat → Nat) (m : Message) (source : Str)
    (hasLength : Bool) (r : Str × List Int) (bv : List Bool)
    (pre fs : List StructField) (f : StructField) (mi : Message) (offi : Int) (p : Str)
    (w : Int)
    (h24 : 24 ≤ source.length) (hmti : mtiOf source hasLength ∈ ValidMTI)
    (hb : buildBitmap tbl source (bitmapOffset hasLength) = some r)
    (hfl : flagLoop r.2 = some bv)
    (hsplit : fields = pre ++ f :: fs)
    (hrun : runFields source bv pre
        (LoopState.running { m with MTI := mtiOf source hasLength }
          (bitmapOffset hasLength + r.1.length)) = some (LoopState.running mi offi))
    (hflag : index bv (f.index : Int) = some true)
    (hw : (f.siz = sizeLLVAR ∧ w = 2) ∨ (f.siz = sizeLLLVAR ∧ w = 3))
    (hp : slice source offi (offi + w) = some p)
    (hn : btoi p = 0 ∨ btoi p > f.length) :
    fieldStep source bv f mi offi = some (LoopState.running mi (offi + (btoi p + w)))
      ∧ Load tbl m source hasLength
          = (runFields source bv fs (LoopState.running mi (offi + (btoi p + w)))).map
              (fun st => (st.message, none))
      ∧ mi.Field f.pos = m.Field f.pos
      ∧ (∀ m1 e, Load tbl m source hasLength = some (m1, e) →
          e = none ∧ m1.Field f.pos = m.Field f.pos)
      ∧ (∀ mid g fs1, fs = mid ++ g :: fs1 →
          (∀ a ∈ mid, index bv (a.index : Int) = some false) →
          Load tbl m source hasLength
            = ((fieldStep source bv g mi (offi + (btoi p + w))).bind
                (runFields source bv fs1)).map (fun st => (st.message, none)))
      ∧ (∀ mid g fs1 value, fs = mid ++ g :: fs1 →
          (∀ a ∈ mid, index bv (a.index : Int) = some false) →
          index bv (g.index : Int) = some true → g.siz = sizeFixed →
          slice source (offi + (btoi p + w)) (offi + (btoi p + w) + g.length) = some value →
          Load tbl m source hasLength
            = (runFields source bv fs1
                (LoopState.running (mi.SetString g.pos value)
                  (offi + (btoi p + w) + g.length))).map (fun st => (st.message, none)))
      ∧ (∀ q, Atoi q = none → btoi q = 0)
      ∧ btoi (lit "A1") = 0
      ∧ btoi (lit "9223372036854775808") = 0 := by
  have hc : btoi p > f.length ∨ btoi p = 0 := hn.symm
  have hstep := fieldStep_skip_exact source bv f mi offi p w hflag hw hp hc
  have hload : Load tbl m source hasLength
      = (runFields source bv fs (LoopState.running mi (offi + (btoi p + w)))).map
          (fun st => (st.message, none)) := by
    rw [Load_run tbl m source hasLength h24 hmti, hb, Option.some_bind, hfl, Option.some_bind,
      hsplit, runFields_append, hrun, Option.some_bind]
    simp only [runFields]
    rw [hstep, Option.some_bind]
  have hf1 : f ∈ fields := by rw [hsplit]; exact List.mem_append_right _ (List.mem_cons_self _ _)
  have hpos := (fields_facts f hf1).2.2.2.1
  have hmi : mi.Field f.pos = m.Field f.pos := by
    have hfr := runFields_frame source bv f.pos pre _ _ hrun
      (fun a ha he => absurd he ((split_pos pre fs f hsplit).1 a ha))
    simp only [LoopState.message] at hfr
    rw [hfr, Field_withMTI _ _ _ (by omega)]
  refine ⟨hstep, hload, hmi, fun m1 e h => ?_, fun mid g fs1 hfs hmid => ?_,
    fun mid g fs1 value hfs hmid hg hs hv => ?_, btoi_of_error, by decide, by decide⟩
  · rw [hload] at h
    cases hr : runFields source bv fs (LoopState.running mi (offi + (btoi p + w))) with
    | none => rw [hr] at h; simp at h
    | some st =>
      rw [hr, Option.map_some', Option.some.injEq, Prod.mk.injEq] at h
      refine ⟨h.2.symm, ?_⟩
      have hfr : st.message.Field f.pos = mi.Field f.pos :=
        runFields_frame source bv f.pos fs _ _ hr
          (fun a ha he => absurd he ((split_pos pre fs f hsplit).2 a ha))
      rw [← h.1, hfr, hmi]
  · rw [hload, hfs, runFields_append, runFields_unflagged source bv mi _ mid hmid,
      Option.some_bind]
    rfl
  · rw [hload, hfs, runFields_append, runFields_unflagged source bv mi _ mid hmid,
      Option.some_bind]
    simp only [runFields]
    rw [fieldStep_fixed_read source bv g mi _ value hg hs hv, Option.some_bind]

set_option maxRecDepth 100000 in
/-- Witness of C13: MTI "2200", fields 32 (LLVAR, length 11) and 37 (Fixed,
12 bytes) flagged; the prefix of field 32 is "12", above 11: the iteration
at offset 20 goes on at offset 34 with nothing assigned, and field 37 is
read there; `Load` returns nil with field 32 empty. -/
theorem skip_malformed_variable_witness :
    btoi (lit "12") = 12
    ∧ fieldStep (lit "2200" ++ lit "0000000108000000" ++ lit "12ABCDEFGHIJKL" ++ lit "000000000077")
          (((List.replicate 128 false).set 32 true).set 37 true)
          ⟨"Bit32", 13, 32, 11, "N", "LLVAR"⟩ { MTI := lit "2200" } 20
        = some (LoopState.running { MTI := lit "2200" } 34)
    ∧ Load id {} (lit "2200" ++ lit "0000000108000000" ++ lit "12ABCDEFGHIJKL"
          ++ lit "000000000077") false
        = some ({ MTI := lit "2200", Bit37 := lit "000000000077" }, none) :=
  match skip_malformed_variable id {}
      (lit "2200" ++ lit "0000000108000000" ++ lit "12ABCDEFGHIJKL" ++ lit "000000000077") false
      (lit "0000000108000000", [0, 0, 0, 1, 8, 0, 0, 0, 0, 0, 0, 0, 0, 0, 0, 0])
      (((List.replicate 128 false).set 32 true).set 37 true)
      (fields.take 12) (fields.drop 13) ⟨"Bit32", 13, 32, 11, "N", "LLVAR"⟩
      { MTI := lit "2200" } 20 (lit "12") 2
      (by decide) (by decide) (by rfl) (by rfl) (by rfl) (by rfl) (by rfl)
      (Or.inl ⟨by rfl, by rfl⟩) (by rfl) (Or.inr (by decide)) with
  | ⟨h1, h2, _⟩ => ⟨by decide, h1, h2.trans (by rfl)⟩

end Iso
